import Mathlib

/-!
EPF2Bson: the BSON document builder and wire encoder (`src/src/bson.c`), the reader of
EPF files (`src/src/epf.c`) and the transcoder (`_writeEpfInBson` of `src/src/main.c`).

Shallow embedding of these functions and proofs about them.

Modelling conventions

* A byte is a `Fin 256`.  A `char*` argument denotes a C string, carried as the
  bytes that precede its terminating NUL (`CStr`); `strlen` is the list length
  and `strcmp(a, b) == 0` is equality.
* The three parallel arrays `fieldNames`, `fieldTypes`, `fields` of a
  `bsonDocument` are carried as one list of `(name, value)` pairs; the
  constructor of the value determines the byte stored in `fieldTypes`
  (`fieldType`) and holds what `fields[i]` points to.  `fieldCount` is the
  length of the list.  The bookkeeping of `_lastAllocationsSize` (capacity of
  the three arrays) is not represented.
* The host is little-endian with two's-complement integers (the code relies on
  it: it copies object representations with `memcpy`), so `htole32` and
  `htole64` are the identity.
* `size_t` quantities are natural numbers.  Conversions to `bsonInt32`
  wrap modulo `2^32`, and the conversion of a negative `int` to `size_t` wraps
  modulo `2^64`.
* `calloc`/`malloc` succeed for every request of at most `PTRDIFF_MAX` bytes
  and fail above it; `error(...)` ends the process, which is the result `none`.
  A `memcpy` that would leave one of its blocks is also `none`.  The `realloc`
  of the output buffer of `bsonSerialize` is taken to succeed.
* The only pointer whose address is read as a number is `fields[i]` of a
  UTCDate field (`(bsonInt64)document->fields[index]`); that address is the
  extra argument `block` of `bsonAddDate`.
* A document handed to `bsonAddSubDocument` or `bsonAddArray` is carried by
  value: the setter takes ownership and the caller does not touch it again.
* Loop counters do not wrap: a document has fewer than `2^31` fields.
* `char` is signed and `long` is 64 bits wide (the code relies on the first: it compares a
  `char` with `EOF`).  Signed arithmetic wraps.
* A call into `epf.c` or `main.c` ends in an `Outcome`: a value, `fatal` for `error(...)`,
  or `undefined` where the code reads or writes outside a block or reads a variable that
  was never assigned.  The allocations of `epf.c` succeed; the messages of the verbose
  mode are not represented.
* An open `FILE*` is the list of the bytes of the file and a position in it.
-/

namespace EPF2Bson

set_option maxRecDepth 100000

/-! ## Bytes, C strings and machine integers -/

/-- One byte of memory. -/
abbrev Byte := Fin 256

/-- The byte holding `n` modulo 256. -/
def byteOf (n : Nat) : Byte := ⟨n % 256, Nat.mod_lt n (by decide)⟩

/-- A C string: the bytes before the terminating NUL, none of which is NUL. -/
def CStr := {l : List Byte // ∀ b ∈ l, b ≠ 0}

instance : DecidableEq CStr := inferInstanceAs (DecidableEq {l : List Byte // ∀ b ∈ l, b ≠ 0})

/-- The C library's `strlen`. -/
def strlen (s : CStr) : Nat := s.val.length

/-- The type `int32_t` (`typedef int32_t bsonInt32`). -/
def bsonInt32 := {v : Int // -2147483648 ≤ v ∧ v < 2147483648}

/-- The type `int64_t` (`typedef int64_t bsonInt64`). -/
def bsonInt64 := {v : Int // -9223372036854775808 ≤ v ∧ v < 9223372036854775808}

/-- The type `double` (`typedef double bsonDouble`), carried as its 64-bit IEEE-754 pattern:
`bson.c` only copies it. -/
def bsonDouble := {b : Nat // b < 18446744073709551616}

/-- The twelve bytes a `void*` document id points to. -/
def bsonObjectId := {l : List Byte // l.length = 12}

/-- A non-NULL pointer returned by a successful `malloc`. -/
def HeapPtr := {p : Nat // 0 < p ∧ p < 18446744073709551616}

/-- Largest object size the allocator accepts (`PTRDIFF_MAX`). -/
def PTRDIFF_MAX : Nat := 9223372036854775807

/-- Conversion of an integer to `bsonInt32` (wraps modulo `2^32`). -/
def toInt32 (x : Int) : Int := (x + 2147483648) % 4294967296 - 2147483648

/-- Conversion of an integer to `bsonInt64` (wraps modulo `2^64`). -/
def toInt64 (x : Int) : Int := (x + 9223372036854775808) % 18446744073709551616 - 9223372036854775808

/-- Conversion of an integer to `size_t` (wraps modulo `2^64`). -/
def toSizeT (x : Int) : Nat := (x % 18446744073709551616).toNat

/-- Object representation, on the little-endian host, of the unsigned word `x` of `size` bytes. -/
def objectRepresentation : Nat → Nat → List Byte
  | 0, _ => []
  | size + 1, x => byteOf x :: objectRepresentation size (x / 256)

/-- Object representation of a signed integer of `size` bytes (two's complement). -/
def intRepresentation (size : Nat) (x : Int) : List Byte :=
  objectRepresentation size (x % (256 : Int) ^ size).toNat

/-- The function `htole32` on the little-endian host. -/
def htole32 (x : Int) : Int := x

/-- The function `htole64` on the little-endian host. -/
def htole64 (x : Int) : Int := x

/-- The call `calloc(n, 1)`: a zeroed block of `n` bytes, or failure. -/
def calloc (n : Nat) : Option (List Byte) :=
  if n ≤ PTRDIFF_MAX then some (List.replicate n 0) else none

/-- The call `memcpy(dest + offset, src, n)` into the block `dest`: the `n` bytes must lie inside
both blocks. -/
def memcpy (dest : List Byte) (offset : Nat) (src : List Byte) (n : Nat) : Option (List Byte) :=
  if offset + n ≤ dest.length ∧ n ≤ src.length then
    some (dest.take offset ++ src.take n ++ dest.drop (offset + n))
  else none

/-! ## Documents -/

/-- What one slot `fields[i]` of a document points to, together with its `fieldTypes[i]`. -/
inductive bsonValue where
  | double (value : bsonDouble)
  | string (value : CStr)
  | document (value : List (CStr × bsonValue))
  | array (value : List (CStr × bsonValue))
  | objectId (value : bsonObjectId)
  | bool (value : Bool)
  | utcDate (block : HeapPtr) (value : bsonInt64)
  | null
  | int32 (value : bsonInt32)
  | int64 (value : bsonInt64)

/-- The struct `bsonDocument`: its fields in insertion order. -/
abbrev bsonDocument := List (CStr × bsonValue)

/-- The struct `bsonSerializedValue`. -/
structure bsonSerializedValue where
  binaryValue : List Byte
  length : Nat
  deriving DecidableEq

def BSON_TYPE_DOUBLE : Byte := 0x01
def BSON_TYPE_STRING : Byte := 0x02
def BSON_TYPE_DOCUMENT : Byte := 0x03
def BSON_TYPE_ARRAY : Byte := 0x04
def BSON_TYPE_OBJECTID : Byte := 0x07
def BSON_TYPE_BOOL : Byte := 0x08
def BSON_TYPE_UTCDATE : Byte := 0x09
def BSON_TYPE_NULL : Byte := 0x0A
def BSON_TYPE_INT32 : Byte := 0x10
def BSON_TYPE_INT64 : Byte := 0x12

/-- The byte `fieldTypes[i]` that the setter of each kind of value stores. -/
def fieldType : bsonValue → Byte
  | .double _ => BSON_TYPE_DOUBLE
  | .string _ => BSON_TYPE_STRING
  | .document _ => BSON_TYPE_DOCUMENT
  | .array _ => BSON_TYPE_ARRAY
  | .objectId _ => BSON_TYPE_OBJECTID
  | .bool _ => BSON_TYPE_BOOL
  | .utcDate _ _ => BSON_TYPE_UTCDATE
  | .null => BSON_TYPE_NULL
  | .int32 _ => BSON_TYPE_INT32
  | .int64 _ => BSON_TYPE_INT64

/-- The field names of a document, in order. -/
def fieldNames (document : bsonDocument) : List CStr := document.map Prod.fst

/-- The function `createBsonDocument`: a document without fields. -/
def createBsonDocument : bsonDocument := []

/-- The function `fieldNameExists`: some `fieldNames[i]` compares equal to `name`. -/
def fieldNameExists (document : bsonDocument) (name : CStr) : Bool :=
  document.any (fun f => decide (f.1 = name))

/-- Joint effect of `_incrementCount`, `_appendFieldName` and the stores into
`fieldTypes[fieldCount - 1]` and `fields[fieldCount - 1]`. -/
def appendField (document : bsonDocument) (name : CStr) (value : bsonValue) : bsonDocument :=
  document ++ [(name, value)]

/-- The function `bsonAddDouble`. -/
def bsonAddDouble (document : bsonDocument) (name : CStr) (value : bsonDouble) :
    Bool × bsonDocument :=
  if strlen name = 0 then (false, document)
  else if fieldNameExists document name then (false, document)
  else (true, appendField document name (.double value))

/-- The function `bsonAddString`. -/
def bsonAddString (document : bsonDocument) (name : CStr) (value : CStr) :
    Bool × bsonDocument :=
  if strlen name = 0 then (false, document)
  else if fieldNameExists document name then (false, document)
  else (true, appendField document name (.string value))

/-- The function `bsonAddSubDocument`. -/
def bsonAddSubDocument (document : bsonDocument) (name : CStr) (value : bsonDocument) :
    Bool × bsonDocument :=
  if strlen name = 0 then (false, document)
  else if fieldNameExists document name then (false, document)
  else (true, appendField document name (.document value))

/-- The function `bsonAddArray`. -/
def bsonAddArray (document : bsonDocument) (name : CStr) (value : bsonDocument) :
    Bool × bsonDocument :=
  if strlen name = 0 then (false, document)
  else if fieldNameExists document name then (false, document)
  else (true, appendField document name (.array value))

/-- The function `bsonAddDocumentId`. -/
def bsonAddDocumentId (document : bsonDocument) (name : CStr) (value : bsonObjectId) :
    Bool × bsonDocument :=
  if strlen name = 0 then (false, document)
  else if fieldNameExists document name then (false, document)
  else (true, appendField document name (.objectId value))

/-- The function `bsonAddBool`. -/
def bsonAddBool (document : bsonDocument) (name : CStr) (value : Bool) :
    Bool × bsonDocument :=
  if strlen name = 0 then (false, document)
  else if fieldNameExists document name then (false, document)
  else (true, appendField document name (.bool value))

/-- The function `bsonAddDate`; `block` is the address its `malloc(sizeof(bsonInt64))` returns,
into which `value` is copied. -/
def bsonAddDate (document : bsonDocument) (name : CStr) (value : bsonInt64) (block : HeapPtr) :
    Bool × bsonDocument :=
  if strlen name = 0 then (false, document)
  else if fieldNameExists document name then (false, document)
  else (true, appendField document name (.utcDate block value))

/-- The function `bsonAddNull`. -/
def bsonAddNull (document : bsonDocument) (name : CStr) :
    Bool × bsonDocument :=
  if strlen name = 0 then (false, document)
  else if fieldNameExists document name then (false, document)
  else (true, appendField document name (.null))

/-- The function `bsonAddInt32`. -/
def bsonAddInt32 (document : bsonDocument) (name : CStr) (value : bsonInt32) :
    Bool × bsonDocument :=
  if strlen name = 0 then (false, document)
  else if fieldNameExists document name then (false, document)
  else (true, appendField document name (.int32 value))

/-- The function `bsonAddInt64`. -/
def bsonAddInt64 (document : bsonDocument) (name : CStr) (value : bsonInt64) :
    Bool × bsonDocument :=
  if strlen name = 0 then (false, document)
  else if fieldNameExists document name then (false, document)
  else (true, appendField document name (.int64 value))

/-! ## The wire encoder -/

/-- The locals of `bsonSerialize`.  The buffer `bson` is carried as the bytes stored so far at
offsets `4 .. bufferPosition - 1` (every store of the loop is made at `bson + bufferPosition`
and followed by the matching increase of `bufferPosition`). -/
structure SerializeLocals where
  bson : List Byte
  allocatedSize : Nat
  documentSize : Nat
  bufferPosition : Nat

/-- The statements `memcpy(bson + bufferPosition, src, n); bufferPosition += n;`: the `n` bytes
must lie inside the `allocatedSize` bytes of the buffer and inside the block `src`. -/
def storeBytes (st : SerializeLocals) (src : List Byte) (n : Nat) : Option SerializeLocals :=
  if st.bufferPosition + n ≤ st.allocatedSize ∧ n ≤ src.length then
    some { st with bson := st.bson ++ src.take n, bufferPosition := st.bufferPosition + n }
  else none

/-- The loop `while (documentSize >= allocatedSize) { allocatedSize += 1048576; }`, run for at
most `fuel` rounds; `documentSize + 1` rounds always reach its exit (`growAllocatedSize_gt`). -/
def growAllocatedSize : Nat → Nat → Nat → Nat
  | 0, _, allocatedSize => allocatedSize
  | fuel + 1, documentSize, allocatedSize =>
    if documentSize ≥ allocatedSize then
      growAllocatedSize fuel documentSize (allocatedSize + 1048576)
    else allocatedSize

/-- The case `BSON_TYPE_STRING` of `_serializedValue`. -/
def serializedString (s : CStr) : Option bsonSerializedValue :=
  -- i32 = strlen(document->fields[index]) + 1;
  let i32 : Int := toInt32 (strlen s + 1)
  -- value.length = 4 + i32;   (the sum of two `int`, stored in a `size_t`)
  let length : Nat := toSizeT (toInt32 (4 + i32))
  -- value.binaryValue = calloc(value.length, sizeof(char));
  (calloc length).bind fun binaryValue =>
  -- i32 = htole32(i32); memcpy(value.binaryValue, &i32, sizeof(bsonInt32));
  (memcpy binaryValue 0 (intRepresentation 4 (htole32 i32)) 4).bind fun binaryValue =>
  -- memcpy(value.binaryValue + sizeof(bsonInt32), fields[index], strlen(fields[index]));
  (memcpy binaryValue 4 s.val (strlen s)).bind fun binaryValue =>
  some ⟨binaryValue, length⟩

/-- The pattern shared by the other cases of `_serializedValue`: `value.length = length`, a
block of `value.length` bytes is allocated, and `value.length` bytes of the block `src` are
copied into it.  (Where the code calls `malloc`, every byte of the block is overwritten by the
copy, so the block is carried as that of `calloc`.) -/
def serializedCopy (length : Nat) (src : List Byte) : Option bsonSerializedValue :=
  (calloc length).bind fun binaryValue =>
  (memcpy binaryValue 0 src length).bind fun binaryValue =>
  some ⟨binaryValue, length⟩

/-- The end of `bsonSerialize`, after the loop: the terminator byte is stored, then the first
four bytes of the object `bufferPosition` (a `size_t`) are copied to the start of the buffer.
(The assignment `documentSize = htole32(documentSize)` before them is never read.) -/
def bsonSerializeEnd (st : SerializeLocals) : Option bsonSerializedValue :=
  -- bson[bufferPosition++] = 0;
  (storeBytes st [0] 1).bind fun st =>
  -- memcpy(bson, &bufferPosition, sizeof(bsonInt32));
  if 4 ≤ st.allocatedSize then
    some ⟨(objectRepresentation 8 st.bufferPosition).take 4 ++ st.bson, st.bufferPosition⟩
  else none

/-- The locals of `bsonSerialize` when its loop starts. -/
def serializeStart : SerializeLocals :=
  { bson := [], allocatedSize := 1024, documentSize := 5, bufferPosition := 4 }

mutual
/-- The function `_serializedValue`, on the value of the field at `index`. -/
def _serializedValue : bsonValue → Option bsonSerializedValue
  | .double value => serializedCopy 8 (objectRepresentation 8 value.val)
  | .int64 value => serializedCopy 8 (intRepresentation 8 value.val)
  | .string value => serializedString value
  | .document value =>
    -- subValue = bsonSerialize((bsonDocument*)document->fields[index]);
    ((serializeFields value serializeStart).bind bsonSerializeEnd).bind fun subValue =>
    serializedCopy subValue.length subValue.binaryValue
  | .array value =>
    ((serializeFields value serializeStart).bind bsonSerializeEnd).bind fun subValue =>
    serializedCopy subValue.length subValue.binaryValue
  | .objectId value => serializedCopy 12 value.val
  | .bool value =>
    let byteValue : Byte := if value then 0x01 else 0x00
    serializedCopy 1 [byteValue]
  | .utcDate block _ =>
    -- i64 = htole64((bsonInt64)document->fields[index]);
    let i64 : Int := htole64 (toInt64 block.val)
    serializedCopy 8 (intRepresentation 8 i64)
  | .null => some ⟨[], 0⟩
  | .int32 value => serializedCopy 4 (intRepresentation 4 value.val)
/-- The loop of `bsonSerialize` over the fields from index `i` on. -/
def serializeFields : List (CStr × bsonValue) → SerializeLocals → Option SerializeLocals
  | [], st => some st
  | (name, v) :: rest, st =>
    (_serializedValue v).bind fun value =>
    let fieldType := fieldType v
    let documentSize := st.documentSize + (1 + strlen name + 1 + value.length)
    let allocatedSize := growAllocatedSize (documentSize + 1) documentSize st.allocatedSize
    let st := { st with documentSize := documentSize, allocatedSize := allocatedSize }
    (storeBytes st [fieldType] 1).bind fun st =>
    (storeBytes st (name.val ++ [0]) (strlen name + 1)).bind fun st =>
    (if value.length > 0 then storeBytes st value.binaryValue value.length
      else some st).bind fun st =>
    serializeFields rest st
end

/-- The function `bsonSerialize`. -/
def bsonSerialize (document : bsonDocument) : Option bsonSerializedValue :=
  (serializeFields document serializeStart).bind bsonSerializeEnd

/-! ## Reading the encoding -/

/-- The number that the bytes `bs` denote, least significant byte first. -/
def leValue : List Byte → Nat
  | [] => 0
  | b :: bs => b.val + 256 * leValue bs

/-- The unsigned number that stands for the integer `v` in two's complement on `bits` bits. -/
def twosComplement (bits : Nat) (v : Int) : Int :=
  if 0 ≤ v then v else v + 2 ^ bits

/-- The payload of each field of a document, in order, when every field has one. -/
def fieldPayloads : bsonDocument → Option (List (List Byte))
  | [] => some []
  | (_, v) :: rest =>
    (_serializedValue v).bind fun value =>
    (fieldPayloads rest).map fun ps => value.binaryValue.take value.length :: ps

/-- The bytes `tag ++ name ++ 0x00 ++ payload` of each field, concatenated in order. -/
def encodedFields : bsonDocument → List (List Byte) → List Byte
  | (name, v) :: rest, p :: ps => fieldType v :: (name.val ++ [0] ++ p) ++ encodedFields rest ps
  | _, _ => []

/-- The string made of `n` letters `A`. -/
def lettersA (n : Nat) : CStr :=
  ⟨List.replicate n 0x41, fun b hb => by rw [List.eq_of_mem_replicate hb]; decide⟩

/-! ## Sequences of setter calls -/

/-- One call of a setter on a document, with its arguments other than the document. -/
inductive SetterCall where
  | addDouble (name : CStr) (value : bsonDouble)
  | addString (name : CStr) (value : CStr)
  | addSubDocument (name : CStr) (value : bsonDocument)
  | addArray (name : CStr) (value : bsonDocument)
  | addDocumentId (name : CStr) (value : bsonObjectId)
  | addBool (name : CStr) (value : Bool)
  | addDate (name : CStr) (value : bsonInt64) (block : HeapPtr)
  | addNull (name : CStr)
  | addInt32 (name : CStr) (value : bsonInt32)
  | addInt64 (name : CStr) (value : bsonInt64)

/-- The call made on `document`. -/
def SetterCall.run (document : bsonDocument) : SetterCall → Bool × bsonDocument
  | .addDouble name value => bsonAddDouble document name value
  | .addString name value => bsonAddString document name value
  | .addSubDocument name value => bsonAddSubDocument document name value
  | .addArray name value => bsonAddArray document name value
  | .addDocumentId name value => bsonAddDocumentId document name value
  | .addBool name value => bsonAddBool document name value
  | .addDate name value block => bsonAddDate document name value block
  | .addNull name => bsonAddNull document name
  | .addInt32 name value => bsonAddInt32 document name value
  | .addInt64 name value => bsonAddInt64 document name value

/-- The calls made one after the other on `document`: the document at the end and the value
each call returned. -/
def runCalls : bsonDocument → List SetterCall → bsonDocument × List Bool
  | document, [] => (document, [])
  | document, c :: cs =>
    let r := c.run document
    let rs := runCalls r.2 cs
    (rs.1, r.1 :: rs.2)

/-! ## Sample values -/

/-- The name `id`. -/
def sampleId : CStr := ⟨[0x69, 0x64], by decide⟩

/-- The name `d`. -/
def sampleD : CStr := ⟨[0x64], by decide⟩

/-- The string `Hello`. -/
def sampleHello : CStr := ⟨[0x48, 0x65, 0x6c, 0x6c, 0x6f], by decide⟩

/-- The `int32_t` value 42. -/
def sample42 : bsonInt32 := ⟨42, by decide⟩

/-- The name `a`. -/
def sampleA : CStr := ⟨[0x61], by decide⟩

/-- The name `b`. -/
def sampleB : CStr := ⟨[0x62], by decide⟩

/-- The name `c`. -/
def sampleC : CStr := ⟨[0x63], by decide⟩

/-- A document of three String fields `a`, `b`, `c`, each of `n` letters. -/
def threeStrings (n : Nat) : bsonDocument :=
  [(sampleA, .string (lettersA n)), (sampleB, .string (lettersA n)),
   (sampleC, .string (lettersA n))]

/-- The `int64_t` value 0. -/
def sampleZero64 : bsonInt64 := ⟨0, by decide⟩

/-! ## The wire format, and a reader of it -/

mutual
/-- The payload that the wire format gives to a value (section 4.5 of the specification). -/
def wirePayload : bsonValue → List Byte
  | .double value => objectRepresentation 8 value.val
  | .string value => intRepresentation 4 ((strlen value : Int) + 1) ++ value.val ++ [0]
  | .document value =>
    objectRepresentation 4 (4 + (wireFields value).length + 1) ++ wireFields value ++ [0]
  | .array value =>
    objectRepresentation 4 (4 + (wireFields value).length + 1) ++ wireFields value ++ [0]
  | .objectId value => value.val
  | .bool value => [if value then 0x01 else 0x00]
  | .utcDate _ value => intRepresentation 8 value.val
  | .null => []
  | .int32 value => intRepresentation 4 value.val
  | .int64 value => intRepresentation 8 value.val
/-- The bytes `tag ++ name ++ 0x00 ++ payload` of the fields, in order. -/
def wireFields : List (CStr × bsonValue) → List Byte
  | [] => []
  | (name, v) :: rest => fieldType v :: (name.val ++ [0] ++ wirePayload v) ++ wireFields rest
end

/-- The wire format of a document: `int32 totalLength | fields | 0x00`. -/
def wireDocument (document : bsonDocument) : List Byte :=
  objectRepresentation 4 (4 + (wireFields document).length + 1) ++ wireFields document ++ [0]

/-- The number of bytes of the wire format of a document. -/
def wireSize (document : bsonDocument) : Nat := 4 + (wireFields document).length + 1

mutual
/-- This value is not a UTCDate and holds none, at any depth. -/
def valueHasNoDate : bsonValue → Bool
  | .utcDate _ _ => false
  | .document value => fieldsHaveNoDate value
  | .array value => fieldsHaveNoDate value
  | _ => true
/-- No field of the document is or holds a UTCDate, at any depth. -/
def fieldsHaveNoDate : List (CStr × bsonValue) → Bool
  | [] => true
  | (_, v) :: rest => valueHasNoDate v && fieldsHaveNoDate rest
end

/-- Reads a NUL-terminated string: the bytes before the first 0x00, and what follows it. -/
def readCString : List Byte → Option (CStr × List Byte)
  | [] => none
  | b :: bs =>
    if h : b = 0 then some (⟨[], fun _ hx => absurd hx (List.not_mem_nil _)⟩, bs)
    else
      match readCString bs with
      | none => none
      | some (s, rest) =>
        some (⟨b :: s.val, fun x hx => by
          rcases List.mem_cons.1 hx with hx | hx
          · exact hx ▸ h
          · exact s.property x hx⟩, rest)

/-- The `size` bytes at the start of `bytes`, and what follows them. -/
def readBytes (size : Nat) (bytes : List Byte) : Option (List Byte × List Byte) :=
  if size ≤ bytes.length then some (bytes.take size, bytes.drop size) else none

/-- The `bsonInt32` that a 32-bit two's-complement number stands for. -/
def int32OfWord (x : Nat) : bsonInt32 :=
  ⟨toInt32 x, by unfold toInt32; omega⟩

/-- The `bsonInt64` that a 64-bit two's-complement number stands for. -/
def int64OfWord (x : Nat) : bsonInt64 :=
  ⟨toInt64 x, by unfold toInt64; omega⟩

/-- The `bsonDouble` of a 64-bit pattern. -/
def doubleOfWord (x : Nat) : bsonDouble :=
  ⟨x % 18446744073709551616, Nat.mod_lt _ (by decide)⟩

/-- Reads an embedded document: four bytes of total length, then the fields and the final 0x00,
which `fields` must read to the last byte. -/
def readDocument (fields : List Byte → Option (bsonDocument × List Byte)) (bytes : List Byte) :
    Option (bsonDocument × List Byte) :=
  match readBytes 4 bytes with
  | none => none
  | some (l, rest) =>
    if 5 ≤ leValue l ∧ leValue l < 2147483648 ∧ leValue l - 4 ≤ rest.length then
      match fields (rest.take (leValue l - 4)) with
      | some (document, []) => some (document, rest.drop (leValue l - 4))
      | _ => none
    else none

/-- Reads the payload of a field of tag `tag`; `fields` reads the fields of an embedded document,
and `block` is the address at which the value of a UTCDate is stored. -/
def readValue (block : HeapPtr) (fields : List Byte → Option (bsonDocument × List Byte))
    (tag : Byte) (bytes : List Byte) : Option (bsonValue × List Byte) :=
  if tag = 0x01 then
    (readBytes 8 bytes).map fun (b, rest) => (.double (doubleOfWord (leValue b)), rest)
  else if tag = 0x02 then
    match readBytes 4 bytes with
    | none => none
    | some (l, rest) =>
      match readCString rest with
      | none => none
      | some (s, rest) =>
        if leValue l = strlen s + 1 ∧ leValue l < 2147483648 then some (.string s, rest)
        else none
  else if tag = 0x03 then
    (readDocument fields bytes).map fun (document, rest) => (.document document, rest)
  else if tag = 0x04 then
    (readDocument fields bytes).map fun (document, rest) => (.array document, rest)
  else if tag = 0x07 then
    if h : 12 ≤ bytes.length then
      some (.objectId ⟨bytes.take 12, by rw [List.length_take]; omega⟩, bytes.drop 12)
    else none
  else if tag = 0x08 then
    match bytes with
    | b :: rest =>
      if b = 0x00 then some (.bool false, rest)
      else if b = 0x01 then some (.bool true, rest)
      else none
    | [] => none
  else if tag = 0x09 then
    (readBytes 8 bytes).map fun (b, rest) => (.utcDate block (int64OfWord (leValue b)), rest)
  else if tag = 0x0A then some (.null, bytes)
  else if tag = 0x10 then
    (readBytes 4 bytes).map fun (b, rest) => (.int32 (int32OfWord (leValue b)), rest)
  else if tag = 0x12 then
    (readBytes 8 bytes).map fun (b, rest) => (.int64 (int64OfWord (leValue b)), rest)
  else none

/-- Reads fields up to the 0x00 that ends a document, descending at most `fuel` levels of
fields and embedded documents. -/
def readFields (block : HeapPtr) : Nat → List Byte → Option (bsonDocument × List Byte)
  | 0, _ => none
  | _ + 1, [] => none
  | fuel + 1, tag :: bytes =>
    if tag = 0 then some ([], bytes)
    else
      match readCString bytes with
      | none => none
      | some (name, rest) =>
        match readValue block (readFields block fuel) tag rest with
        | none => none
        | some (v, rest) =>
          match readFields block fuel rest with
          | none => none
          | some (document, rest) => some ((name, v) :: document, rest)

/-- A reader of the wire format for the ten supported tags: the document read and the bytes
left over. -/
def bsonDecode (block : HeapPtr) (bytes : List Byte) : Option (bsonDocument × List Byte) :=
  readDocument (readFields block bytes.length) bytes

/-- The payloads that the wire format gives to the fields of a document, in order. -/
def wirePayloads (document : bsonDocument) : List (List Byte) :=
  document.map fun f => wirePayload f.2


/-- A heap address. -/
def sampleBlock : HeapPtr := ⟨0x55d0c8a2b2a0, by decide⟩

/-- The document `{id: Int32 42, a: String "Hello", b: {d: Null, c: Bool true}, c: [..]}`. -/
def sampleDocument : bsonDocument :=
  [(sampleId, .int32 sample42), (sampleA, .string sampleHello),
   (sampleB, .document [(sampleD, .null), (sampleC, .bool true)]),
   (sampleC, .array [(sampleA, .int64 sampleZero64)])]

/-! ## Streams, records and the schema (`epf.c`) -/

/-- How a call into `epf.c` or `main.c` ends: with a value, in `error(...)` (the process
exits), or in behaviour the C standard leaves undefined. -/
inductive Outcome (α : Type) where
  | ok (value : α)
  | fatal
  | undefined
  deriving DecidableEq

/-- Sequencing of two calls: the second runs when the first returned. -/
def Outcome.bind {α β : Type} (x : Outcome α) (f : α → Outcome β) : Outcome β :=
  match x with
  | .ok value => f value
  | .fatal => .fatal
  | .undefined => .undefined

/-- The bytes of an ASCII string literal. -/
def ascii (s : String) : List Byte := s.toList.map fun c => byteOf c.toNat

/-- The C string that starts at the first of `bytes`: what precedes the first NUL. -/
def cstrOf (bytes : List Byte) : CStr :=
  ⟨bytes.takeWhile (fun b => b ≠ 0), fun _ hb => by simpa using List.mem_takeWhile_imp hb⟩

/-- The test `strncmp(a, b, n) == 0` on two C strings. -/
def strncmpEq (a b : List Byte) (n : Nat) : Bool := a.take n = b.take n

/-- The field separator (`#define EPFSeparator '\x01'`). -/
def EPFSeparator : Byte := 1

def EPF_FIELDTYPE_BIGINT : Nat := 1
def EPF_FIELDTYPE_INTEGER : Nat := 2
def EPF_FIELDTYPE_BOOLEAN : Nat := 3
def EPF_FIELDTYPE_VARCHAR : Nat := 4
def EPF_FIELDTYPE_DATETIME : Nat := 5
def EPF_FIELDTYPE_LONGTEXT : Nat := 6
def EPF_FIELDTYPE_DECIMAL : Nat := 7

/-- A `FILE*` opened for reading: the bytes of the file and the file position. -/
structure FILE where
  contents : List Byte
  position : Nat
  deriving DecidableEq

/-- The struct `EPFField`. -/
structure EPFField where
  fieldName : CStr
  fieldType : Nat
  capacity : Nat
  indexed : Bool
  deriving DecidableEq

/-- The struct `EPFFile`.  `fieldsCount = none` stands for the value `-1` that `epfInit`
stores before the first record is read. -/
structure EPFFile where
  fields : List EPFField
  fieldsCount : Option Nat
  incremental : Bool
  fp : FILE
  readLines : Nat
  readEntries : Nat
  lastEntryOffset : Nat
  ready : Bool
  deriving DecidableEq

/-- How the loop of `_readRecord` ends, with the number of bytes `fgetc` has returned. -/
inductive ReadLoopEnd where
  | record (record : List Byte) (consumed : Nat)
  | endOfFile (consumed : Nat)
  | fatal
  | undefined
  deriving DecidableEq

/-- The loop `while ((character = fgetc(file->fp)) != EOF)` of `_readRecord`, on the bytes that
remain in the file.  `record` holds the `recordIndex` bytes stored so far and `lastCharacter`
is `none` until the variable is assigned.

* `character` is a `char`: the byte `0xFF` compares equal to `EOF`.
* When `recordIndex` is a positive multiple of `bufferSize`, the buffer is full: a block of
  `++alocatedBuffer * bufferSize` bytes is requested (an `int`, negative from `2^31` on, which
  no `calloc` grants) and the buffer is copied with `strcpy`, which reads past the block
  unless a stored byte is NUL.
* `lastCharacter == 2` is evaluated when `character == 10`. -/
def readLoop : List Byte → List Byte → Option Byte → Nat → ReadLoopEnd
  | [], _, _, consumed => .endOfFile consumed
  | character :: rest, record, lastCharacter, consumed =>
    if character = 255 then .endOfFile (consumed + 1)
    else if record.length ≠ 0 ∧ record.length % 4096 = 0 ∧
        2147483648 ≤ record.length + 4096 then .fatal
    else if record.length ≠ 0 ∧ record.length % 4096 = 0 ∧ 0 ∉ record then .undefined
    else if character = 10 then
      match lastCharacter with
      | none => .undefined
      | some last =>
        if last = 2 then .record record (consumed + 1)
        else readLoop rest (record ++ [character]) (some character) (consumed + 1)
    else readLoop rest (record ++ [character]) (some character) (consumed + 1)

/-- The function `_readRecord`: the record as a C string, or `none` for `NULL`. -/
def _readRecord (file : EPFFile) : Outcome (Option CStr × EPFFile) :=
  let file := { file with lastEntryOffset := file.fp.position }
  match readLoop (file.fp.contents.drop file.fp.position) [] none 0 with
  | .undefined => .undefined
  | .fatal => .fatal
  | .endOfFile consumed =>
    .ok (none, { file with fp := { file.fp with position := file.fp.position + consumed } })
  | .record record consumed =>
    .ok (some (cstrOf record),
      { file with fp := { file.fp with position := file.fp.position + consumed },
                  readLines := file.readLines + 1 })

/-- The offsets stored in `separatorMarkers[1..]`: one past each separator of the record. -/
def separatorOffsets : List Byte → Nat → List Nat
  | [], _ => []
  | character :: rest, position =>
    if character = EPFSeparator then (position + 1) :: separatorOffsets rest (position + 1)
    else separatorOffsets rest (position + 1)

/-- The block `calloc(stringLength + 1)` filled by
`strncpy(fields[i], separatorMarkers[i], stringLength - 1)`.  With `stringLength = 0` the
count is `SIZE_MAX` and `strncpy` pads the block far past its end. -/
def copyField (record : List Byte) (marker stringLength : Nat) : Outcome CStr :=
  if stringLength = 0 then .undefined
  else .ok (cstrOf ((record.drop marker).take (stringLength - 1)))

/-- The loop that fills `fields[i]` for the indices `i` of the list. -/
def copyFields (record : List Byte) (separatorMarkers : List Nat) (countedFields : Nat) :
    List Nat → Outcome (List CStr)
  | [] => .ok []
  | i :: rest =>
    let stringLength :=
      if i = countedFields then record.length - separatorMarkers.getD i 0
      else separatorMarkers.getD (i + 1) 0 - separatorMarkers.getD i 0
    (copyField record (separatorMarkers.getD i 0) stringLength).bind fun field =>
    (copyFields record separatorMarkers countedFields rest).bind fun fields =>
    .ok (field :: fields)

/-- What `_getNextRecord` leaves: its return value (`none` for `NULL`; the array holds the
listed strings and is `NULL` from there to its `fieldsCount + 1` slots), the global
`epfRecoverableReadEmpty`, and the file. -/
structure NextRecord where
  fields : Option (List CStr)
  epfRecoverableReadEmpty : Bool
  file : EPFFile
  deriving DecidableEq

/-- The part of `_getNextRecord` that follows `_readRecord`, for the record `line` it has
returned and the value of `file->fieldsCount`: the return value, the flag
`epfRecoverableReadEmpty` and the new value of `file->fieldsCount`.  The block
`separatorMarkers` has `1024` slots while the arity is unknown and `fieldsCount + 1`
afterwards; the scan stores `separatorMarkers[countedFields + 1]` for every separator, before
the arity is compared. -/
def splitRecord (fieldsCount : Option Nat) (line : CStr) :
    Outcome (Option (List CStr) × Bool × Option Nat) :=
  if strlen line = 0 then .ok (none, false, fieldsCount)
  else
    let commentField : Bool := line.val.head? = some 0x23
    let record := if commentField then line.val.tail else line.val
    let slots := match fieldsCount with
      | none => 1024
      | some known => known + 1
    let separatorMarkers := 0 :: separatorOffsets record 0
    let countedFields := separatorMarkers.length - 1
    if slots ≤ countedFields then .undefined
    else
      let arity : Option Nat := match fieldsCount with
        | some known => if !commentField ∧ countedFields + 1 ≠ known then none else some known
        | none => some (countedFields + 1)
      match arity with
      | none => .ok (none, true, fieldsCount)
      | some known =>
        let copied :=
          if countedFields ≠ 0 then
            copyFields record separatorMarkers countedFields
              (List.range (min known countedFields + 1))
          else (copyField record 0 record.length).bind fun field => .ok [field]
        copied.bind fun fields => .ok (some fields, false, some known)

/-- The function `_getNextRecord`. -/
def _getNextRecord (file : EPFFile) : Outcome NextRecord :=
  (_readRecord file).bind fun (read, file) =>
  match read with
  | none => .ok ⟨none, false, file⟩
  | some line =>
    (splitRecord file.fieldsCount line).bind fun (fields, epfRecoverableReadEmpty, fieldsCount) =>
    .ok ⟨fields, epfRecoverableReadEmpty, { file with fieldsCount := fieldsCount }⟩

/-- The function `epfNextEntry`. -/
def epfNextEntry (file : EPFFile) : Outcome NextRecord :=
  if !file.ready then .fatal else _getNextRecord file

/-- The function `epfGetFieldType`; `file->fields` has `fieldsCount` elements. -/
def epfGetFieldType (file : EPFFile) (index : Nat) : Outcome Nat :=
  if file.fieldsCount.getD 0 < index then .ok 0
  else match file.fields.get? index with
    | some field => .ok field.fieldType
    | none => .undefined

/-- The function `epfGetFieldCapacity`. -/
def epfGetFieldCapacity (file : EPFFile) (index : Nat) : Outcome Nat :=
  if file.fieldsCount.getD 0 < index then .ok 0
  else match file.fields.get? index with
    | some field => .ok field.capacity
    | none => .undefined

/-! ## The header of an EPF file (`epf.c`) -/

/-- The C library's `isspace` in the C locale. -/
def isspace (c : Byte) : Bool := c = 32 ∨ (9 ≤ c.val ∧ c.val ≤ 13)

/-- The C library's `isdigit`. -/
def isdigit (c : Byte) : Bool := 48 ≤ c.val ∧ c.val ≤ 57

/-- The value of the decimal digits at the front of the input, and what follows them. -/
def scanDigits : List Byte → Nat → Nat × List Byte
  | [], value => (value, [])
  | c :: rest, value =>
    if isdigit c then scanDigits rest (value * 10 + (c.val - 48)) else (value, c :: rest)

/-- The directive `%d` of `sscanf`: white space, an optional sign, at least one digit.  The
result is the number read and the rest of the input, or `none` when nothing matches. -/
def scanInt (input : List Byte) : Option (Int × List Byte) :=
  let input := input.dropWhile isspace
  let negative : Bool := input.head? = some 45
  let digits := if input.head? = some 45 ∨ input.head? = some 43 then input.tail else input
  if (digits.head?.map isdigit) = some true then
    let scanned := scanDigits digits 0
    some (if negative then -(scanned.1 : Int) else (scanned.1 : Int), scanned.2)
  else none

/-- The directive `%[^(]` of `sscanf`: the longest run of bytes other than `(`, which must not
be empty. -/
def scanSet (input : List Byte) : Option (List Byte × List Byte) :=
  if input.takeWhile (fun c => c ≠ 40) = [] then none
  else some (input.takeWhile (fun c => c ≠ 40), input.dropWhile (fun c => c ≠ 40))

/-- What a call of `sscanf` leaves: the count it returns and the values it has stored. -/
structure Scanned where
  count : Int
  name : Option (List Byte)
  capacity : Option Int
  deriving DecidableEq

/-- The part `%[^(](%d` common to the two formats: the values stored and the rest of the
input. -/
def scanNameCapacity (input : List Byte) : Scanned × List Byte :=
  if input = [] then (⟨-1, none, none⟩, [])
  else match scanSet input with
    | none => (⟨0, none, none⟩, input)
    | some (name, rest) =>
      if rest.head? = some 40 then
        match scanInt rest.tail with
        | none => (⟨1, some name, none⟩, rest.tail)
        | some (value, rest) => (⟨2, some name, some value⟩, rest)
      else (⟨1, some name, none⟩, rest)

/-- The call `sscanf(field, "%[^(](%d)", capacitedTypeName, &capacity)`. -/
def sscanfNameCapacity (field : List Byte) : Scanned := (scanNameCapacity field).1

/-- Whether the number a `%d` has stored fits the `int` it is stored in. -/
def Scanned.representable (scanned : Scanned) : Bool :=
  match scanned.capacity with
  | none => true
  | some value => -2147483648 ≤ value ∧ value ≤ 2147483647

/-- The call `sscanf(field, "%[^(](%d,%d)", capacitedTypeName, &capacity, &capacity)`.  The
second number is stored over the first; the scan goes on to it when the first fits. -/
def sscanfNameCapacityScale (field : List Byte) : Scanned :=
  let scanned := scanNameCapacity field
  if scanned.1.count = 2 ∧ scanned.1.representable ∧ scanned.2.head? = some 44 then
    match scanInt scanned.2.tail with
    | none => scanned.1
    | some (value, _) => ⟨3, scanned.1.name, some value⟩
  else scanned.1

/-- The type code `_parseFieldsType` gives to a type name, or `none` where it calls
`error`. -/
def fieldTypeOfName (capacitedTypeName : List Byte) : Option Nat :=
  if strncmpEq capacitedTypeName (ascii "BIGINT") 6 then some EPF_FIELDTYPE_BIGINT
  else if strncmpEq capacitedTypeName (ascii "INTEGER") 7 then some EPF_FIELDTYPE_INTEGER
  else if strncmpEq capacitedTypeName (ascii "BOOLEAN") 7 then some EPF_FIELDTYPE_BOOLEAN
  else if strncmpEq capacitedTypeName (ascii "VARCHAR") 7 then some EPF_FIELDTYPE_VARCHAR
  else if strncmpEq capacitedTypeName (ascii "DATETIME") 8 then some EPF_FIELDTYPE_DATETIME
  else if strncmpEq capacitedTypeName (ascii "LONGTEXT") 8 then some EPF_FIELDTYPE_LONGTEXT
  else if strncmpEq capacitedTypeName (ascii "DECIMAL") 7 then some EPF_FIELDTYPE_DECIMAL
  else none

/-- The two `sscanf` calls of `_parseFieldsType` on one token: the type name and the capacity
that the rest of the iteration uses.  A number outside `int` is not representable in the
object `%d` stores it in. -/
def scanFieldType (field : CStr) : Outcome (List Byte × Nat) :=
  let first := sscanfNameCapacityScale field.val
  if !first.representable then .undefined
  else if first.count = 3 then .ok (first.name.getD [], 1)
  else
    let second := sscanfNameCapacity field.val
    if !second.representable then .undefined
    else if second.count ≠ 2 then .ok (field.val, 1)
    else .ok (second.name.getD [], ((second.capacity.getD 0) % 4294967296).toNat)

/-- The test `strstr(s, "\n")`. -/
def hasNewLine (s : CStr) : Bool := (10 : Byte) ∈ s.val

/-- Whether an array returned by `_getNextRecord` ends in a `NULL` slot: it has
`fieldsCount + 1` slots. -/
def nullTerminated (fieldsCount : Option Nat) (fields : List CStr) : Bool :=
  fields.length ≤ fieldsCount.getD 0

/-- The part of `_parseFieldNames` that follows `_getNextRecord`: the array `file->fields`
made from the record `fieldNames`. -/
def declaredFields (fieldsCount : Option Nat) (fieldNames : Option (List CStr)) :
    Outcome (List EPFField) :=
  match fieldNames with
  | none => .fatal
  | some fieldNames =>
    if fieldNames.any hasNewLine then .fatal
    else if !nullTerminated fieldsCount fieldNames then .undefined
    else if fieldNames.length < 1 then .fatal
    else .ok (fieldNames.map fun fieldName => ⟨fieldName, 0, 0, false⟩)

/-- The function `_parseFieldNames`. -/
def _parseFieldNames (file : EPFFile) : Outcome EPFFile :=
  if file.readLines ≠ 0 then .fatal
  else (_getNextRecord file).bind fun next =>
    (declaredFields next.file.fieldsCount next.fields).bind fun fields =>
    .ok { next.file with fieldsCount := some fields.length, fields := fields }

/-- The loop `for (j ...)` of `_parseIndexedFields`: the first field of that name becomes
indexed. -/
def markIndexed : List EPFField → CStr → List EPFField
  | [], _ => []
  | field :: rest, name =>
    if field.fieldName = name then { field with indexed := true } :: rest
    else field :: markIndexed rest name

/-- The part of `_parseIndexedFields` that follows `_getNextRecord`: the array `file->fields`
after the record `fields`. -/
def indexedFields (fieldsCount : Option Nat) (declared : List EPFField)
    (fields : Option (List CStr)) : Outcome (List EPFField) :=
  match fields with
  | none => .fatal
  | some [] => .fatal
  | some (first :: rest) =>
    if strlen first < 11 ∨ !strncmpEq first.val (ascii "primaryKey:") 11 then .fatal
    else if (cstrOf (first.val.drop 11) :: rest).any hasNewLine then .fatal
    else if !nullTerminated fieldsCount (first :: rest) then .undefined
    else .ok ((cstrOf (first.val.drop 11) :: rest).foldl markIndexed declared)

/-- The function `_parseIndexedFields`. -/
def _parseIndexedFields (file : EPFFile) : Outcome EPFFile :=
  if file.readLines ≠ 1 then .fatal
  else (_getNextRecord file).bind fun next =>
    (indexedFields next.file.fieldsCount next.file.fields next.fields).bind fun fields =>
    .ok { next.file with fields := fields }

/-- The loop `while(fields[i])` of `_parseFieldsType`, from index `i`. -/
def parseFieldsTypeLoop : List CStr → Nat → List EPFField → Outcome (List EPFField)
  | [], _, fields => .ok fields
  | field :: rest, i, fields =>
    if hasNewLine field then .fatal
    else (scanFieldType field).bind fun (capacitedTypeName, capacity) =>
      match fieldTypeOfName capacitedTypeName with
      | none => .fatal
      | some fieldType =>
        match fields.get? i with
        | none => .undefined
        | some declared =>
          parseFieldsTypeLoop rest (i + 1)
            (fields.set i { declared with fieldType := fieldType, capacity := capacity })

/-- The part of `_parseFieldsType` that follows `_getNextRecord`: the array `file->fields`
after the record `fields`. -/
def typedFields (fieldsCount : Option Nat) (declared : List EPFField)
    (fields : Option (List CStr)) : Outcome (List EPFField) :=
  match fields with
  | none => .fatal
  | some [] => .fatal
  | some (first :: rest) =>
    if strlen first < 8 ∨ !strncmpEq first.val (ascii "dbTypes:") 8 then .fatal
    else
      (parseFieldsTypeLoop (cstrOf (first.val.drop 8) :: rest) 0 declared).bind fun typed =>
        if !nullTerminated fieldsCount (first :: rest) then .undefined
        else if (first :: rest).length ≠ fieldsCount.getD 0 then .fatal
        else .ok typed

/-- The function `_parseFieldsType`. -/
def _parseFieldsType (file : EPFFile) : Outcome EPFFile :=
  if file.readLines ≠ 2 then .fatal
  else (_getNextRecord file).bind fun next =>
    (typedFields next.file.fieldsCount next.file.fields next.fields).bind fun fields =>
    .ok { next.file with fields := fields }

/-- The part of `_parseExportMode` that follows `_getNextRecord`: the value stored in
`file->incremental`. -/
def exportMode (fieldsCount : Option Nat) (fields : Option (List CStr)) : Outcome Bool :=
  match fields with
  | none => .fatal
  | some [] => .fatal
  | some (first :: rest) =>
    if strlen first < 11 ∨ !strncmpEq first.val (ascii "exportMode:") 11 then .fatal
    else if strncmpEq first.val (ascii "exportMode:FULL") 15 then
      if !nullTerminated fieldsCount (first :: rest) then .undefined else .ok false
    else if strncmpEq first.val (ascii "exportMode:INCREMENTAL") 22 then
      if !nullTerminated fieldsCount (first :: rest) then .undefined else .ok true
    else .fatal

/-- The function `_parseExportMode`. -/
def _parseExportMode (file : EPFFile) : Outcome EPFFile :=
  if file.readLines ≠ 3 then .fatal
  else (_getNextRecord file).bind fun next =>
    (exportMode next.file.fieldsCount next.fields).bind fun incremental =>
    .ok { next.file with incremental := incremental }

/-- The loop `while ((record = _readRecord(file)))` of `_parseSkipComments`, for at most
`fuel` records; `none` when the records are not exhausted by then. -/
def skipCommentsLoop : Nat → EPFFile → Option (Outcome EPFFile)
  | 0, _ => none
  | fuel + 1, file =>
    match _readRecord file with
    | .undefined => some .undefined
    | .fatal => some .fatal
    | .ok (none, file) => some (.ok file)
    | .ok (some record, file) =>
      if !strncmpEq record.val (ascii "##") 2 then
        some (.ok { file with fp := { file.fp with position := file.lastEntryOffset } })
      else skipCommentsLoop fuel file

/-- The function `_parseSkipComments`.  Every record read takes at least one byte, so the
loop ends within the bounds given here (`skipCommentsLoop_terminates`). -/
def _parseSkipComments (file : EPFFile) : Outcome EPFFile :=
  if file.readLines ≠ 4 then .fatal
  else match skipCommentsLoop (file.fp.contents.length - file.fp.position + 1) file with
    | some outcome => outcome
    | none => .undefined

/-- The function `epfInit` on the stream `fp`. -/
def epfInit (fp : FILE) : Outcome EPFFile :=
  let file : EPFFile :=
    { fields := [], fieldsCount := none, incremental := false, fp := fp
      readLines := 0, readEntries := 0, lastEntryOffset := 0, ready := false }
  (_parseFieldNames file).bind fun file =>
  (_parseIndexedFields file).bind fun file =>
  (_parseFieldsType file).bind fun file =>
  (_parseExportMode file).bind fun file =>
  (_parseSkipComments file).bind fun file =>
  .ok { file with ready := true }

/-! ## The transcoder (`main.c`) -/

/-- The number `strtol(s, NULL, 10)` converts `s` to, before it is fitted to a `long`: white
space, an optional sign, then the digits up to the first byte that is not one. -/
def strtolValue (s : List Byte) : Int :=
  let input := s.dropWhile isspace
  let digits := if input.head? = some 45 ∨ input.head? = some 43 then input.tail else input
  if input.head? = some 45 then -((scanDigits digits 0).1 : Int) else ((scanDigits digits 0).1 : Int)

/-- A value fitted to a `long` of 64 bits as `strtol` does: out of range it is `LONG_MIN` or
`LONG_MAX`. -/
def clampLong (value : Int) : bsonInt64 :=
  if h : value < -9223372036854775808 then ⟨-9223372036854775808, by decide⟩
  else if h' : 9223372036854775807 < value then ⟨9223372036854775807, by decide⟩
  else ⟨value, by omega⟩

/-- The value of a signed 64-bit computation: the result modulo `2^64`. -/
def wrapInt64 (value : Int) : bsonInt64 := ⟨toInt64 value, by unfold toInt64; omega⟩

/-- The call `strtol(s, NULL, 10)`, `long` being 64 bits wide. -/
def strtol (s : CStr) : bsonInt64 := clampLong (strtolValue s.val)

/-- What the transcoder takes from its host: the result of `strtod`, and the address of the
block `bsonAddDate` gets from `malloc` for the date of column `i` of the document number
`j`. -/
structure Host where
  strtod : CStr → bsonDouble
  dateBlock : Nat → Nat → HeapPtr

/-- One turn of the loop `while(i < epfFile->fieldsCount)` of `_writeEpfInBson`, for the token
`entry[i]`: the document after the call of the setter. -/
def transcodeField (host : Host) (file : EPFFile) (j : Nat) (doc : bsonDocument) (i : Nat)
    (token : CStr) : Outcome bsonDocument :=
  match file.fields.get? i with
  | none => .undefined
  | some field =>
    if strlen token = 0 then .ok (bsonAddNull doc field.fieldName).2
    else (epfGetFieldType file i).bind fun fieldType =>
      if fieldType = EPF_FIELDTYPE_BIGINT ∨ fieldType = EPF_FIELDTYPE_INTEGER then
        if h : -2147483648 ≤ (strtol token).val ∧ (strtol token).val ≤ 2147483647 then
          .ok (bsonAddInt32 doc field.fieldName ⟨(strtol token).val, by omega⟩).2
        else .ok (bsonAddInt64 doc field.fieldName (strtol token)).2
      else if fieldType = EPF_FIELDTYPE_BOOLEAN then
        if strncmpEq (ascii "0") token.val 1 then .ok (bsonAddBool doc field.fieldName false).2
        else .ok (bsonAddBool doc field.fieldName true).2
      else if fieldType = EPF_FIELDTYPE_VARCHAR ∨ fieldType = EPF_FIELDTYPE_LONGTEXT then
        .ok (bsonAddString doc field.fieldName token).2
      else if fieldType = EPF_FIELDTYPE_DATETIME then
        .ok (bsonAddDate doc field.fieldName (wrapInt64 ((strtol token).val * 1000))
          (host.dateBlock j i)).2
      else if fieldType = EPF_FIELDTYPE_DECIMAL then
        .ok (bsonAddDouble doc field.fieldName (host.strtod token)).2
      else .fatal

/-- The loop `while(i < epfFile->fieldsCount)` of `_writeEpfInBson` from index `i`, on the
strings that `entry` holds from there. -/
def transcodeEntry (host : Host) (file : EPFFile) (j : Nat) :
    List CStr → Nat → bsonDocument → Outcome bsonDocument
  | [], _, doc => .ok doc
  | token :: rest, i, doc =>
    if file.fieldsCount.getD 0 ≤ i then .ok doc
    else (transcodeField host file j doc i token).bind fun doc =>
      transcodeEntry host file j rest (i + 1) doc

/-- The body of the read loop of `_writeEpfInBson` for one entry: the bytes `fwrite` sends to
the output. -/
def writeEntry (host : Host) (file : EPFFile) (j : Nat) (entry : List CStr) :
    Outcome (List Byte) :=
  (transcodeEntry host file j entry 0 createBsonDocument).bind fun doc =>
    match bsonSerialize doc with
    | none => .fatal
    | some serialized => .ok (serialized.binaryValue.take serialized.length)

/-- The read loop of `_writeEpfInBson` for at most `fuel` records, `written` being the output
so far and `j` the number of documents; `none` when the records are not exhausted by
then. -/
def writeLoop (host : Host) : Nat → EPFFile → List Byte → Nat → Option (Outcome (List Byte))
  | 0, _, _, _ => none
  | fuel + 1, file, written, j =>
    match epfNextEntry file with
    | .undefined => some .undefined
    | .fatal => some .fatal
    | .ok next =>
      match next.fields with
      | none =>
        if next.epfRecoverableReadEmpty then writeLoop host fuel next.file written j
        else some (.ok written)
      | some entry =>
        if next.epfRecoverableReadEmpty then writeLoop host fuel next.file written j
        else match writeEntry host next.file j entry with
          | .undefined => some .undefined
          | .fatal => some .fatal
          | .ok bytes => writeLoop host fuel next.file (written ++ bytes) (j + 1)

/-- The function `_writeEpfInBson`: the bytes written to the BSON file.  Every record read
takes at least one byte, so the loop ends within the bound given here
(`writeLoop_terminates`). -/
def _writeEpfInBson (host : Host) (epfFile : EPFFile) : Outcome (List Byte) :=
  match writeLoop host (epfFile.fp.contents.length - epfFile.fp.position + 1) epfFile [] 0 with
  | some outcome => outcome
  | none => .undefined

/-! ## Decimal notation -/

/-- The decimal digits of `n`, most significant first (`fuel` bounds their number). -/
def natDecimal : Nat → Nat → List Byte
  | 0, _ => []
  | fuel + 1, n =>
    if n < 10 then [byteOf (48 + n)] else natDecimal fuel (n / 10) ++ [byteOf (48 + n % 10)]

/-- The decimal representation of an integer: a minus sign for a negative number, then the
digits of its absolute value with no leading zero. -/
def decimal (v : Int) : List Byte :=
  if v < 0 then 45 :: natDecimal (v.natAbs + 1) v.natAbs else natDecimal (v.natAbs + 1) v.natAbs

/-! ## Sample schemas and streams -/

/-- The record terminator: the bytes `0x02 0x0A`. -/
def terminator : List Byte := [2, 10]

/-- The name `name`. -/
def sampleName : CStr := ⟨ascii "name", by decide⟩

/-- A C string given by the bytes of an ASCII literal. -/
def cstr (s : String) : CStr := cstrOf (ascii s)

/-- A host whose `strtod` returns `0.0` and whose `malloc` returns one address. -/
def sampleHost : Host := ⟨fun _ => ⟨0, by decide⟩, fun _ _ => sampleBlock⟩

/-- An initialised `EPFFile` with the one column `d` of the given type, at the start of the
data records `contents`. -/
def columnFile (fieldType : Nat) (contents : List Byte) : EPFFile :=
  { fields := [⟨sampleD, fieldType, 1, false⟩], fieldsCount := some 1, incremental := false
    fp := ⟨contents, 0⟩, readLines := 5, readEntries := 0, lastEntryOffset := 0, ready := true }

/-- An initialised `EPFFile` with the schema (`id`: Integer, `name`: Varchar), at the start
of the data records `contents`. -/
def sampleFile (contents : List Byte) : EPFFile :=
  { fields := [⟨sampleId, EPF_FIELDTYPE_INTEGER, 1, true⟩,
               ⟨sampleName, EPF_FIELDTYPE_VARCHAR, 255, false⟩]
    fieldsCount := some 2, incremental := false
    fp := ⟨contents, 0⟩, readLines := 5, readEntries := 0, lastEntryOffset := 0, ready := true }

/-- The first record of an EPF file: the names `id` and `name`. -/
def headerNames : List Byte := ascii "#id" ++ [1] ++ ascii "name"

/-- The second record of an EPF file: the primary key `id`. -/
def headerKey : List Byte := ascii "#primaryKey:id"

/-- The third record of an EPF file: the types of the two fields. -/
def headerTypes : List Byte := ascii "#dbTypes:INTEGER" ++ [1] ++ ascii "VARCHAR(255)"

/-- The fourth record of an EPF file: the export mode. -/
def headerMode : List Byte := ascii "#exportMode:FULL"

/-- The header of an EPF file with the fields `id` (Integer, primary key) and `name`
(Varchar), in full export mode: four records that start with `#`. -/
def sampleHeader : List Byte :=
  headerNames ++ terminator ++ (headerKey ++ terminator
    ++ (headerTypes ++ terminator ++ (headerMode ++ terminator)))

/-- The same four records without the `#` that starts each of them. -/
def unmarkedHeader : List Byte :=
  ascii "id" ++ [1] ++ ascii "name" ++ terminator ++ ascii "primaryKey:id" ++ terminator
    ++ ascii "dbTypes:INTEGER" ++ [1] ++ ascii "VARCHAR(255)" ++ terminator
    ++ ascii "exportMode:FULL" ++ terminator

/-- The data record `42\x01Hello` and its terminator. -/
def sampleRow : List Byte := ascii "42" ++ [1] ++ ascii "Hello" ++ terminator

/-- The schema of `sampleHeader`. -/
def sampleSchema : List EPFField :=
  [⟨sampleId, EPF_FIELDTYPE_INTEGER, 1, true⟩, ⟨sampleName, EPF_FIELDTYPE_VARCHAR, 255, false⟩]

/-- The `EPFFile` that `epfInit` starts from, on the stream `fp`. -/
def newFile (fp : FILE) : EPFFile :=
  { fields := [], fieldsCount := none, incremental := false, fp := fp
    readLines := 0, readEntries := 0, lastEntryOffset := 0, ready := false }

/-- The data record `a\x01b\x01c\x01d`, of four fields, and its terminator. -/
def wideRow : List Byte :=
  ascii "a" ++ [1] ++ ascii "b" ++ [1] ++ ascii "c" ++ [1] ++ ascii "d" ++ terminator

/-- The data record `42`, of one field, and its terminator. -/
def shortRow : List Byte := ascii "42" ++ terminator

/-! ## Records as sequences of fields -/

/-- Whether the bytes hold the terminator, the byte `0x02` followed by the byte `0x0A`. -/
def hasTerminator : List Byte → Bool
  | a :: b :: rest => (a = 2 ∧ b = 10) || hasTerminator (b :: rest)
  | _ => false

/-- The byte strings `f0, ..., fk` joined by the separator `0x01`. -/
def joinFields : List (List Byte) → List Byte
  | [] => []
  | [field] => field
  | field :: next :: rest => field ++ EPFSeparator :: joinFields (next :: rest)

/-- The bytes of the fields of a record. -/
def fieldBytes (fields : List CStr) : List (List Byte) := fields.map fun field => field.val

/-- The file after `calls` calls of `epfNextEntry` that have returned. -/
def afterEntries : Nat → EPFFile → Outcome EPFFile
  | 0, file => .ok file
  | calls + 1, file => (epfNextEntry file).bind fun next => afterEntries calls next.file

/-- The offsets at which the fields joined by `joinFields` start, where the first starts at
`position`. -/
def fieldStarts : List (List Byte) → Nat → List Nat
  | [], _ => []
  | field :: rest, position => position :: fieldStarts rest (position + field.length + 1)

/-- The data record `42\x01\xFFes`, whose second field starts with the byte `0xFF`, and its
terminator. -/
def highByteRow : List Byte := ascii "42" ++ [1, 255] ++ ascii "es" ++ terminator

/-- The record `#a\x01b\x01c\x01d`, of four fields after the `#`, and its terminator. -/
def markedWideRow : List Byte :=
  ascii "#a" ++ [1] ++ ascii "b" ++ [1] ++ ascii "c" ++ [1] ++ ascii "d" ++ terminator

/-- The record `#a\x00b\x01c`, which holds a NUL, and its terminator. -/
def markedNulRow : List Byte := ascii "#a" ++ [0] ++ ascii "b" ++ [1] ++ ascii "c" ++ terminator

/-- The record `#a\x01b\x01c`, of three fields after the `#`, and its terminator. -/
def markedRow : List Byte := ascii "#a" ++ [1] ++ ascii "b" ++ [1] ++ ascii "c" ++ terminator

/-- The fields `id` and `name` as `_parseFieldNames` declares them. -/
def declaredSchema : List EPFField :=
  [⟨sampleId, 0, 0, false⟩, ⟨sampleName, 0, 0, false⟩]

/-- A header whose `dbTypes` record declares `name` as `VARCHAR(-1)`. -/
def negativeCapacityHeader : List Byte :=
  headerNames ++ terminator ++ (headerKey ++ terminator)
    ++ (ascii "#dbTypes:INTEGER" ++ [1] ++ ascii "VARCHAR(-1)" ++ terminator)
    ++ (headerMode ++ terminator)

/-- A header of two field names whose `dbTypes` record has three type tokens. -/
def threeTypesHeader : List Byte :=
  headerNames ++ terminator ++ (headerKey ++ terminator)
    ++ (ascii "#dbTypes:INTEGER" ++ [1] ++ ascii "VARCHAR(255)" ++ [1] ++ ascii "INTEGER"
      ++ terminator)
    ++ (headerMode ++ terminator)

/-- A header of two field names whose `dbTypes` record has one type token. -/
def oneTypeHeader : List Byte :=
  headerNames ++ terminator ++ (headerKey ++ terminator)
    ++ (ascii "#dbTypes:INTEGER" ++ terminator) ++ (headerMode ++ terminator)

/-- A header whose export mode record is `#exportMode:FULLY`. -/
def looseModeHeader : List Byte :=
  headerNames ++ terminator ++ (headerKey ++ terminator) ++ (headerTypes ++ terminator)
    ++ (ascii "#exportMode:FULLY" ++ terminator)

/-- A header whose second record is `#key:id`. -/
def keylessHeader : List Byte :=
  headerNames ++ terminator ++ (ascii "#key:id" ++ terminator) ++ (headerTypes ++ terminator)
    ++ (headerMode ++ terminator)

/-- The document a setter leaves, whatever it returns: the field is appended when the name
is neither empty nor present. -/
def setField (document : bsonDocument) (name : CStr) (value : bsonValue) : bsonDocument :=
  if strlen name = 0 then document
  else if fieldNameExists document name then document
  else appendField document name value

/-- The names kept from a list of names when each is kept at its first occurrence and the
empty ones are left out. -/
def keptNames (names : List CStr) : List CStr :=
  names.foldl (fun kept name => if name.val = [] ∨ name ∈ kept then kept else kept ++ [name]) []

/-- An initialised `EPFFile` whose three columns are named `id`, `id` and the empty name, at
the start of the data records `contents`. -/
def repeatedFile (contents : List Byte) : EPFFile :=
  { fields := [⟨sampleId, EPF_FIELDTYPE_INTEGER, 1, true⟩,
               ⟨sampleId, EPF_FIELDTYPE_VARCHAR, 255, false⟩,
               ⟨cstr "", EPF_FIELDTYPE_VARCHAR, 9, false⟩]
    fieldsCount := some 3, incremental := false
    fp := ⟨contents, 0⟩, readLines := 5, readEntries := 0, lastEntryOffset := 0, ready := true }

/-- The record `42\x01Hello\x01World`. -/
def repeatedRow : List Byte :=
  ascii "42" ++ [1] ++ ascii "Hello" ++ [1] ++ ascii "World" ++ terminator

/-- The record `#7`: one field, with the mark. -/
def markedShortRow : List Byte := ascii "#7" ++ terminator

/-- The function `epfInit` on the stream `fp`, when `malloc` hands out the block `block`: the
members `fields`, `incremental`, `lastEntryOffset` and `ready` hold what the block held,
and `fp`, `fieldsCount`, `readLines` and `readEntries` are assigned before the header is
read. -/
def epfInitFrom (block : EPFFile) (fp : FILE) : Outcome EPFFile :=
  let file : EPFFile :=
    { block with fp := fp, fieldsCount := none, readLines := 0, readEntries := 0 }
  (_parseFieldNames file).bind fun file =>
  (_parseIndexedFields file).bind fun file =>
  (_parseFieldsType file).bind fun file =>
  (_parseExportMode file).bind fun file =>
  (_parseSkipComments file).bind fun file =>
  .ok { file with ready := true }

/-- A file whose members `fields`, `incremental` and `ready` are replaced by functions of
what they held. -/
def withMembers (fields : List EPFField → List EPFField) (incremental ready : Bool → Bool)
    (file : EPFFile) : EPFFile :=
  { file with
      fields := fields file.fields
      incremental := incremental file.incremental
      ready := ready file.ready }

/-- A block of memory that holds other values than the ones `epfInit` is modelled with. -/
def usedBlock : EPFFile :=
  { fields := [⟨sampleName, 9, 77, true⟩], fieldsCount := some 5, incremental := true
    fp := ⟨[1, 2, 3], 2⟩, readLines := 12, readEntries := 3, lastEntryOffset := 99
    ready := true }

/-- The stream made of records, each followed by the terminator. -/
def joinRecords : List (List Byte) → List Byte
  | [] => []
  | record :: rest => record ++ terminator ++ joinRecords rest

/-- Two comment records, `##legal: x` and `##`. -/
def sampleComments : List (List Byte) := [ascii "##legal: x", ascii "##"]

/-! ## The setters -/

theorem fieldNameExists_iff (d : bsonDocument) (n : CStr) :
    fieldNameExists d n = true ↔ n ∈ fieldNames d := by
  unfold fieldNameExists fieldNames
  simp only [List.any_eq_true, decide_eq_true_eq, List.mem_map]

theorem strlen_eq_zero_iff (n : CStr) : strlen n = 0 ↔ n.val = [] := by
  unfold strlen
  exact List.length_eq_zero

/-- C1. A setter called with an empty name, or with a name the document already holds,
returns false and leaves the document as it was: this holds for each of the ten setters. -/
theorem C1_setter_rejects_empty_or_present_name (d : bsonDocument) (n : CStr)
    (h : n.val = [] ∨ n ∈ fieldNames d) :
    (∀ v, bsonAddDouble d n v = (false, d)) ∧
    (∀ v, bsonAddString d n v = (false, d)) ∧
    (∀ v, bsonAddSubDocument d n v = (false, d)) ∧
    (∀ v, bsonAddArray d n v = (false, d)) ∧
    (∀ v, bsonAddDocumentId d n v = (false, d)) ∧
    (∀ v, bsonAddBool d n v = (false, d)) ∧
    (∀ v p, bsonAddDate d n v p = (false, d)) ∧
    bsonAddNull d n = (false, d) ∧
    (∀ v, bsonAddInt32 d n v = (false, d)) ∧
    (∀ v, bsonAddInt64 d n v = (false, d)) := by
  have key : strlen n ≠ 0 → fieldNameExists d n = true := by
    intro h0
    rcases h with h | h
    · exact absurd ((strlen_eq_zero_iff n).2 h) h0
    · exact (fieldNameExists_iff d n).2 h
  refine ⟨?_, ?_, ?_, ?_, ?_, ?_, ?_, ?_, ?_, ?_⟩
  · intro v
    unfold bsonAddDouble
    by_cases h0 : strlen n = 0
    · simp [h0]
    · simp [h0, key h0]
  · intro v
    unfold bsonAddString
    by_cases h0 : strlen n = 0
    · simp [h0]
    · simp [h0, key h0]
  · intro v
    unfold bsonAddSubDocument
    by_cases h0 : strlen n = 0
    · simp [h0]
    · simp [h0, key h0]
  · intro v
    unfold bsonAddArray
    by_cases h0 : strlen n = 0
    · simp [h0]
    · simp [h0, key h0]
  · intro v
    unfold bsonAddDocumentId
    by_cases h0 : strlen n = 0
    · simp [h0]
    · simp [h0, key h0]
  · intro v
    unfold bsonAddBool
    by_cases h0 : strlen n = 0
    · simp [h0]
    · simp [h0, key h0]
  · intro v p
    unfold bsonAddDate
    by_cases h0 : strlen n = 0
    · simp [h0]
    · simp [h0, key h0]
  · unfold bsonAddNull
    by_cases h0 : strlen n = 0
    · simp [h0]
    · simp [h0, key h0]
  · intro v
    unfold bsonAddInt32
    by_cases h0 : strlen n = 0
    · simp [h0]
    · simp [h0, key h0]
  · intro v
    unfold bsonAddInt64
    by_cases h0 : strlen n = 0
    · simp [h0]
    · simp [h0, key h0]

/-- Witness of C1: the name `id` is offered to a document that already holds a field `id`. -/
theorem C1_setter_rejects_empty_or_present_name_witness :
    (sampleId.val = [] ∨ sampleId ∈ fieldNames [(sampleId, bsonValue.null)]) ∧
    bsonAddNull [(sampleId, bsonValue.null)] sampleId = (false, [(sampleId, bsonValue.null)]) :=
  ⟨Or.inr (by decide),
   (C1_setter_rejects_empty_or_present_name [(sampleId, bsonValue.null)] sampleId
      (Or.inr (by decide))).2.2.2.2.2.2.2.1⟩

theorem run_cases (d : bsonDocument) (c : SetterCall) :
    c.run d = (false, d) ∨
    ∃ n v, n.val ≠ [] ∧ n ∉ fieldNames d ∧ c.run d = (true, d ++ [(n, v)]) := by
  have step : ∀ (n : CStr) (v : bsonValue),
      (if strlen n = 0 then (false, d)
        else if fieldNameExists d n then (false, d)
        else (true, appendField d n v)) = (false, d) ∨
      ∃ n1 v1, n1.val ≠ [] ∧ n1 ∉ fieldNames d ∧
        (if strlen n = 0 then (false, d)
          else if fieldNameExists d n then (false, d)
          else (true, appendField d n v)) = (true, d ++ [(n1, v1)]) := by
    intro n v
    by_cases h0 : strlen n = 0
    · left
      simp [h0]
    · by_cases h1 : fieldNameExists d n = true
      · left
        simp [h0, h1]
      · right
        refine ⟨n, v, ?_, ?_, ?_⟩
        · exact fun h => h0 ((strlen_eq_zero_iff n).2 h)
        · exact fun h => h1 ((fieldNameExists_iff d n).2 h)
        · simp [h0, h1, appendField]
  cases c with
  | addDouble n v => exact step n (.double v)
  | addString n v => exact step n (.string v)
  | addSubDocument n v => exact step n (.document v)
  | addArray n v => exact step n (.array v)
  | addDocumentId n v => exact step n (.objectId v)
  | addBool n v => exact step n (.bool v)
  | addDate n v p => exact step n (.utcDate p v)
  | addNull n => exact step n .null
  | addInt32 n v => exact step n (.int32 v)
  | addInt64 n v => exact step n (.int64 v)

theorem runCalls_invariant (calls : List SetterCall) :
    ∀ d : bsonDocument, (fieldNames d).Nodup → (∀ n ∈ fieldNames d, n.val ≠ []) →
      (fieldNames (runCalls d calls).1).Nodup ∧
      (∀ n ∈ fieldNames (runCalls d calls).1, n.val ≠ []) ∧
      (runCalls d calls).1.length = d.length + (runCalls d calls).2.count true := by
  induction calls with
  | nil =>
    intro d h1 h2
    exact ⟨h1, h2, by simp [runCalls]⟩
  | cons c cs ih =>
    intro d h1 h2
    rcases run_cases d c with h | ⟨n, v, hn, hnew, h⟩
    · have := ih d h1 h2
      simp only [runCalls, h]
      refine ⟨this.1, this.2.1, ?_⟩
      rw [this.2.2]
      simp
    · have hd1 : (fieldNames (d ++ [(n, v)])).Nodup := by
        unfold fieldNames at *
        rw [List.map_append, List.nodup_append]
        refine ⟨h1, by simp, ?_⟩
        intro a ha hb
        simp only [List.map_cons, List.map_nil, List.mem_singleton] at hb
        exact hnew (hb ▸ ha)
      have hd2 : ∀ m ∈ fieldNames (d ++ [(n, v)]), m.val ≠ [] := by
        intro m hm
        unfold fieldNames at hm h2
        rw [List.map_append, List.mem_append] at hm
        rcases hm with hm | hm
        · exact h2 m hm
        · simp only [List.map_cons, List.map_nil, List.mem_singleton] at hm
          exact hm ▸ hn
      have := ih (d ++ [(n, v)]) hd1 hd2
      simp only [runCalls, h]
      refine ⟨this.1, this.2.1, ?_⟩
      rw [this.2.2]
      simp
      omega

/-- C3. In every document obtained from `createBsonDocument` by a sequence of setter calls the
field names are pairwise distinct and non-empty, and the number of fields is the number of calls
that returned true; and a call made on any document leaves the fields it held in place, at most
adding fields after them. -/
theorem C3_names_distinct_count_append_only (calls : List SetterCall) :
    (fieldNames (runCalls createBsonDocument calls).1).Nodup ∧
    (∀ n ∈ fieldNames (runCalls createBsonDocument calls).1, n.val ≠ []) ∧
    (runCalls createBsonDocument calls).1.length =
      (runCalls createBsonDocument calls).2.count true ∧
    (∀ (d : bsonDocument) (c : SetterCall), ∃ t, (c.run d).2 = d ++ t ∧ t.length ≤ 1) := by
  have h := runCalls_invariant calls createBsonDocument (by simp [createBsonDocument, fieldNames])
    (by simp [createBsonDocument, fieldNames])
  refine ⟨h.1, h.2.1, ?_, ?_⟩
  · rw [h.2.2]
    simp [createBsonDocument]
  · intro d c
    rcases run_cases d c with h | ⟨n, v, _, _, h⟩
    · exact ⟨[], by simp [h], by simp⟩
    · exact ⟨[(n, v)], by simp [h], by simp⟩

/-! ## Memory blocks and object representations -/

theorem objectRepresentation_length (size x : Nat) :
    (objectRepresentation size x).length = size := by
  induction size generalizing x with
  | zero => rfl
  | succ k ih => simp [objectRepresentation, ih]

theorem leValue_objectRepresentation (size x : Nat) :
    leValue (objectRepresentation size x) = x % 256 ^ size := by
  induction size generalizing x with
  | zero => simp [objectRepresentation, leValue, Nat.mod_one]
  | succ k ih =>
    simp only [objectRepresentation, leValue, ih, byteOf]
    rw [pow_succ, Nat.mul_comm (256 ^ k) 256, Nat.mod_mul]

theorem intRepresentation_length (size : Nat) (x : Int) :
    (intRepresentation size x).length = size := by
  unfold intRepresentation
  exact objectRepresentation_length _ _

theorem memcpy_length {dest src r : List Byte} {offset n : Nat}
    (h : memcpy dest offset src n = some r) : r.length = dest.length := by
  unfold memcpy at h
  split at h
  · rename_i hc
    cases h
    simp only [List.length_append, List.length_take, List.length_drop]
    omega
  · cases h

theorem serializedCopy_length {n : Nat} {src : List Byte} {r : bsonSerializedValue}
    (h : serializedCopy n src = some r) : r.binaryValue.length = r.length ∧ r.length = n := by
  unfold serializedCopy calloc at h
  split at h
  · simp only [Option.bind_eq_bind, Option.some_bind] at h
    cases hm : memcpy (List.replicate n 0) 0 src n with
    | none => simp [hm] at h
    | some b =>
      simp only [hm, Option.some_bind, Option.some.injEq] at h
      subst h
      have := memcpy_length hm
      simp at this
      exact ⟨this, rfl⟩
  · simp at h

theorem serializedCopy_eq (n : Nat) (src : List Byte) (hn : n ≤ PTRDIFF_MAX)
    (hs : src.length = n) : serializedCopy n src = some ⟨src, n⟩ := by
  unfold serializedCopy calloc memcpy
  subst hs
  simp [hn]

theorem calloc_eq {n : Nat} (h : n ≤ PTRDIFF_MAX) : calloc n = some (List.replicate n 0) := by
  unfold calloc
  rw [if_pos h]

theorem serializedString_eq (s : CStr) (h : strlen s + 5 < 2147483648) :
    serializedString s =
      some ⟨intRepresentation 4 ((strlen s : Int) + 1) ++ s.val ++ [0], strlen s + 5⟩ := by
  have h32 : toInt32 ((strlen s : Int) + 1) = (strlen s : Int) + 1 := by
    unfold toInt32
    omega
  have hsum : toInt32 (4 + ((strlen s : Int) + 1)) = (strlen s : Int) + 5 := by
    unfold toInt32
    omega
  have hlen : toSizeT ((strlen s : Int) + 5) = strlen s + 5 := by
    unfold toSizeT
    omega
  have hmax : strlen s + 5 ≤ PTRDIFF_MAX := by
    unfold PTRDIFF_MAX
    omega
  have hrep : (intRepresentation 4 ((strlen s : Int) + 1)).length = 4 :=
    intRepresentation_length _ _
  have hs : s.val.length = strlen s := rfl
  have m1 : memcpy (List.replicate (strlen s + 5) 0) 0
      (intRepresentation 4 ((strlen s : Int) + 1)) 4 =
      some (intRepresentation 4 ((strlen s : Int) + 1) ++ List.replicate (strlen s + 1) 0) := by
    unfold memcpy
    rw [if_pos (by simp [hrep])]
    have : (intRepresentation 4 ((strlen s : Int) + 1)).take 4 =
        intRepresentation 4 ((strlen s : Int) + 1) := List.take_of_length_le (by omega)
    simp [this]
  have m2 : memcpy (intRepresentation 4 ((strlen s : Int) + 1) ++
      List.replicate (strlen s + 1) 0) 4 s.val (strlen s) =
      some (intRepresentation 4 ((strlen s : Int) + 1) ++ s.val ++ [0]) := by
    unfold memcpy
    rw [if_pos (by simp [hrep, hs])]
    have t1 : (intRepresentation 4 ((strlen s : Int) + 1) ++
        List.replicate (strlen s + 1) 0).take 4 = intRepresentation 4 ((strlen s : Int) + 1) := by
      rw [List.take_append_of_le_length (by omega)]
      exact List.take_of_length_le (by omega)
    have t2 : s.val.take (strlen s) = s.val := List.take_of_length_le (by omega)
    have t3 : (intRepresentation 4 ((strlen s : Int) + 1) ++
        List.replicate (strlen s + 1) 0).drop (4 + strlen s) = [0] := by
      rw [List.drop_append_eq_append_drop, hrep]
      rw [List.drop_of_length_le (by omega)]
      simp
    rw [t1, t2, t3]
  unfold serializedString
  simp only [h32, hsum, hlen]
  rw [calloc_eq hmax]
  simp only [Option.some_bind, htole32, m1, m2]

theorem string_arith (L : Nat) (h : 2147483648 ≤ L + 5) :
    ¬ (toSizeT (toInt32 (4 + toInt32 ((L : Int) + 1))) ≤ PTRDIFF_MAX ∧
       4 + L ≤ toSizeT (toInt32 (4 + toInt32 ((L : Int) + 1)))) := by
  unfold toSizeT toInt32 PTRDIFF_MAX
  omega

theorem calloc_some {n : Nat} {b : List Byte} (h : calloc n = some b) :
    n ≤ PTRDIFF_MAX ∧ b.length = n := by
  unfold calloc at h
  split at h
  · rename_i hn
    cases h
    exact ⟨hn, List.length_replicate _ _⟩
  · cases h

theorem memcpy_some {dest src r : List Byte} {offset n : Nat}
    (h : memcpy dest offset src n = some r) : offset + n ≤ dest.length := by
  unfold memcpy at h
  split at h
  · rename_i hc
    exact hc.1
  · cases h

theorem serializedString_none (s : CStr) (h : 2147483648 ≤ strlen s + 5) :
    serializedString s = none := by
  cases hr : serializedString s with
  | none => rfl
  | some r =>
    exfalso
    unfold serializedString at hr
    simp only [] at hr
    cases hc : calloc (toSizeT (toInt32 (4 + toInt32 ((strlen s : Int) + 1)))) with
    | none =>
      rw [hc] at hr
      cases hr
    | some b0 =>
      rw [hc] at hr
      simp only [Option.some_bind] at hr
      cases hm1 : memcpy b0 0 (intRepresentation 4 (htole32 (toInt32 ((strlen s : Int) + 1)))) 4 with
      | none =>
        rw [hm1] at hr
        cases hr
      | some b1 =>
        rw [hm1] at hr
        simp only [Option.some_bind] at hr
        cases hm2 : memcpy b1 4 s.val (strlen s) with
        | none =>
          rw [hm2] at hr
          cases hr
        | some b2 =>
          have h0 := calloc_some hc
          have h1 := memcpy_length hm1
          have h2 := memcpy_some hm2
          rw [h1, h0.2] at h2
          exact string_arith (strlen s) h ⟨h0.1, h2⟩

theorem serializedString_length {s : CStr} {r : bsonSerializedValue}
    (h : serializedString s = some r) : r.binaryValue.length = r.length := by
  by_cases hs : strlen s + 5 < 2147483648
  · rw [serializedString_eq s hs] at h
    cases h
    simp [intRepresentation_length, strlen]
    omega
  · rw [serializedString_none s (by omega)] at h
    cases h

theorem serializedValue_length {v : bsonValue} {r : bsonSerializedValue}
    (h : _serializedValue v = some r) : r.binaryValue.length = r.length := by
  cases v with
  | double value => exact (serializedCopy_length (by simpa [_serializedValue] using h)).1
  | int64 value => exact (serializedCopy_length (by simpa [_serializedValue] using h)).1
  | string value => exact serializedString_length (by simpa [_serializedValue] using h)
  | document value =>
    simp only [_serializedValue] at h
    cases hsub : (serializeFields value serializeStart).bind bsonSerializeEnd with
    | none => simp [hsub] at h
    | some sub =>
      rw [hsub] at h
      exact (serializedCopy_length h).1
  | array value =>
    simp only [_serializedValue] at h
    cases hsub : (serializeFields value serializeStart).bind bsonSerializeEnd with
    | none => simp [hsub] at h
    | some sub =>
      rw [hsub] at h
      exact (serializedCopy_length h).1
  | objectId value => exact (serializedCopy_length (by simpa [_serializedValue] using h)).1
  | bool value => exact (serializedCopy_length (by simpa [_serializedValue] using h)).1
  | utcDate block value => exact (serializedCopy_length (by simpa [_serializedValue] using h)).1
  | null =>
    simp only [_serializedValue, Option.some.injEq] at h
    subst h
    rfl
  | int32 value => exact (serializedCopy_length (by simpa [_serializedValue] using h)).1

theorem growAllocatedSize_gt (fuel documentSize allocatedSize : Nat)
    (h : documentSize < allocatedSize + fuel * 1048576) :
    documentSize < growAllocatedSize fuel documentSize allocatedSize ∧
    allocatedSize ≤ growAllocatedSize fuel documentSize allocatedSize := by
  induction fuel generalizing allocatedSize with
  | zero =>
    simp only [growAllocatedSize]
    omega
  | succ k ih =>
    simp only [growAllocatedSize]
    split
    · have := ih (allocatedSize + 1048576) (by omega)
      omega
    · omega


/-! ## The loop of `bsonSerialize` -/

theorem storeBytes_eq (st : SerializeLocals) (src : List Byte) (n : Nat)
    (h1 : st.bufferPosition + n ≤ st.allocatedSize) (h2 : src.length = n) :
    storeBytes st src n =
      some { st with bson := st.bson ++ src, bufferPosition := st.bufferPosition + n } := by
  unfold storeBytes
  rw [if_pos ⟨h1, by omega⟩, List.take_of_length_le (by omega)]

theorem storePayload_eq (st : SerializeLocals) (value : bsonSerializedValue)
    (hl : value.binaryValue.length = value.length)
    (h1 : st.bufferPosition + value.length ≤ st.allocatedSize) :
    (if value.length > 0 then storeBytes st value.binaryValue value.length else some st) =
      some { st with bson := st.bson ++ value.binaryValue,
                     bufferPosition := st.bufferPosition + value.length } := by
  split
  · exact storeBytes_eq st _ _ h1 hl
  · rename_i h0
    have hz : value.length = 0 := by omega
    have hnil : value.binaryValue = [] := List.length_eq_zero.1 (by omega)
    rw [hnil, hz]
    simp

theorem fieldPayloads_cons_some {name : CStr} {v : bsonValue} {rest : bsonDocument}
    {ps : List (List Byte)} (h : fieldPayloads ((name, v) :: rest) = some ps) :
    ∃ value ps1, _serializedValue v = some value ∧ fieldPayloads rest = some ps1 ∧
      ps = value.binaryValue :: ps1 ∧ value.binaryValue.length = value.length := by
  rw [fieldPayloads] at h
  cases hv : _serializedValue v with
  | none =>
    rw [hv] at h
    cases h
  | some value =>
    rw [hv] at h
    simp only [Option.some_bind] at h
    cases hr : fieldPayloads rest with
    | none =>
      rw [hr] at h
      cases h
    | some ps1 =>
      rw [hr] at h
      simp only [Option.map_some', Option.some.injEq] at h
      have hl := serializedValue_length hv
      rw [List.take_of_length_le (by omega)] at h
      exact ⟨value, ps1, rfl, rfl, h.symm, hl⟩

theorem serializeFields_some (d : bsonDocument) :
    ∀ (ps : List (List Byte)) (st : SerializeLocals), fieldPayloads d = some ps →
      st.documentSize = st.bufferPosition + 1 → st.documentSize < st.allocatedSize →
      ∃ a, st.documentSize + (encodedFields d ps).length < a ∧
        serializeFields d st = some
          { bson := st.bson ++ encodedFields d ps, allocatedSize := a,
            documentSize := st.documentSize + (encodedFields d ps).length,
            bufferPosition := st.bufferPosition + (encodedFields d ps).length } := by
  induction d with
  | nil =>
    intro ps st hp h1 h2
    rw [fieldPayloads] at hp
    cases hp
    refine ⟨st.allocatedSize, ?_, ?_⟩
    · simpa [encodedFields] using h2
    · simp [serializeFields, encodedFields]
  | cons f rest ih =>
    obtain ⟨name, v⟩ := f
    intro ps st hp h1 h2
    obtain ⟨value, ps1, hv, hr, hps, hl⟩ := fieldPayloads_cons_some hp
    subst hps
    have hg := growAllocatedSize_gt
      (st.documentSize + (1 + strlen name + 1 + value.length) + 1)
      (st.documentSize + (1 + strlen name + 1 + value.length)) st.allocatedSize
      (by omega)
    rw [serializeFields, hv]
    simp only [Option.some_bind]
    rw [storeBytes_eq _ [fieldType v] 1 (by simp only []; omega) rfl]
    simp only [Option.some_bind]
    rw [storeBytes_eq _ (name.val ++ [0]) (strlen name + 1) (by simp only []; omega)
      (by simp [strlen])]
    simp only [Option.some_bind]
    rw [storePayload_eq _ value hl (by simp only []; omega)]
    simp only [Option.some_bind]
    obtain ⟨a, ha, he⟩ := ih ps1
      { bson := st.bson ++ [fieldType v] ++ (name.val ++ [0]) ++ value.binaryValue,
        allocatedSize := growAllocatedSize
          (st.documentSize + (1 + strlen name + 1 + value.length) + 1)
          (st.documentSize + (1 + strlen name + 1 + value.length)) st.allocatedSize,
        documentSize := st.documentSize + (1 + strlen name + 1 + value.length),
        bufferPosition := st.bufferPosition + 1 + (strlen name + 1) + value.length }
      hr (by dsimp only; omega) (by dsimp only; omega)
    dsimp only at ha he
    refine ⟨a, ?_, Eq.trans he ?_⟩
    · simp only [encodedFields, List.length_cons, List.length_append, List.length_nil]
      simp only [strlen] at ha
      omega
    · simp only [encodedFields, List.length_cons, List.length_append, List.length_nil,
        List.append_assoc, List.singleton_append, List.cons_append, List.nil_append, strlen,
        Option.some.injEq, SerializeLocals.mk.injEq, true_and]
      refine ⟨?_, ?_⟩ <;> omega

theorem serializeFields_none (d : bsonDocument) :
    ∀ st : SerializeLocals, fieldPayloads d = none → serializeFields d st = none := by
  induction d with
  | nil =>
    intro st hp
    rw [fieldPayloads] at hp
    cases hp
  | cons f rest ih =>
    obtain ⟨name, v⟩ := f
    intro st hp
    rw [fieldPayloads] at hp
    rw [serializeFields]
    cases hv : _serializedValue v with
    | none => rfl
    | some value =>
      rw [hv] at hp
      simp only [Option.some_bind, Option.map_eq_none'] at hp
      simp only [Option.some_bind, Option.bind_eq_none]
      intro s1 _ s2 _ s3 _
      exact ih s3 hp

theorem objectRepresentation_take (k m x : Nat) :
    (objectRepresentation (k + m) x).take k = objectRepresentation k x := by
  induction k generalizing x with
  | zero => simp [objectRepresentation]
  | succ k ih =>
    rw [Nat.add_right_comm]
    simp only [objectRepresentation, List.take_succ_cons, ih]

theorem bsonSerialize_some (d : bsonDocument) (ps : List (List Byte))
    (h : fieldPayloads d = some ps) :
    bsonSerialize d = some
      { binaryValue := objectRepresentation 4 (4 + (encodedFields d ps).length + 1) ++
          encodedFields d ps ++ [0],
        length := 4 + (encodedFields d ps).length + 1 } := by
  obtain ⟨a, ha, he⟩ := serializeFields_some d ps serializeStart h rfl (by decide)
  unfold bsonSerialize
  rw [he]
  simp only [serializeStart] at ha ⊢
  simp only [Option.some_bind]
  unfold bsonSerializeEnd
  rw [storeBytes_eq _ [0] 1 (by dsimp only; omega) rfl]
  simp only [Option.some_bind]
  rw [if_pos (by omega)]
  have ht := objectRepresentation_take 4 4 (4 + (encodedFields d ps).length + 1)
  simp only [Nat.reduceAdd] at ht
  simp only [List.nil_append, List.append_assoc, ht]

theorem bsonSerialize_none (d : bsonDocument) (h : fieldPayloads d = none) :
    bsonSerialize d = none := by
  unfold bsonSerialize
  rw [serializeFields_none d _ h]
  rfl

/-! ## The length field of an encoding of 4 GiB or more -/

theorem strlen_lettersA (n : Nat) : strlen (lettersA n) = n := by
  unfold strlen lettersA
  exact List.length_replicate _ _

theorem serializedValue_string (s : CStr) : _serializedValue (.string s) = serializedString s := by
  rw [_serializedValue]

theorem fieldPayloads_threeStrings (n : Nat) (hn : n + 5 < 2147483648) :
    ∃ p : List Byte, p.length = n + 5 ∧
      fieldPayloads (threeStrings n) = some [p, p, p] := by
  have hs := serializedString_eq (lettersA n) (by rw [strlen_lettersA]; omega)
  have hl : (intRepresentation 4 ((strlen (lettersA n) : Int) + 1) ++
      (lettersA n).val ++ [0]).length = strlen (lettersA n) + 5 := by
    simp only [List.length_append, intRepresentation_length, List.length_singleton, strlen]
    omega
  refine ⟨intRepresentation 4 ((strlen (lettersA n) : Int) + 1) ++
    (lettersA n).val ++ [0], ?_, ?_⟩
  · rw [hl, strlen_lettersA]
  · unfold threeStrings
    simp only [fieldPayloads, serializedValue_string, hs, Option.some_bind, Option.map_some',
      List.take_of_length_le (Nat.le_of_eq hl)]

theorem bsonSerialize_threeStrings (n : Nat) (hn : n + 5 < 2147483648) :
    ∃ r, bsonSerialize (threeStrings n) = some r ∧ r.length = 3 * n + 29 ∧
      leValue (r.binaryValue.take 4) = (3 * n + 29) % 4294967296 := by
  obtain ⟨p, hp, hf⟩ := fieldPayloads_threeStrings n hn
  have hB : (encodedFields (threeStrings n) [p, p, p]).length = 3 * n + 24 := by
    unfold threeStrings
    simp only [encodedFields, List.length_cons, List.length_append, List.length_nil, hp,
      sampleA, sampleB, sampleC]
    omega
  have h := bsonSerialize_some (threeStrings n) [p, p, p] hf
  rw [hB] at h
  refine ⟨_, h, ?_, ?_⟩
  · dsimp only
    omega
  · dsimp only
    rw [List.append_assoc, List.take_left' (objectRepresentation_length _ _),
      leValue_objectRepresentation]
    have : 4 + (3 * n + 24) + 1 = 3 * n + 29 := by omega
    rw [this]
    rfl

/-- C4, counterexample. For the document of three String fields of 1500000000 letters the encoder
returns 4500000029 bytes, and the four bytes at the start of the encoding denote
205032733: they are not the encoding of the total length. -/
theorem C4_oversize_length_field :
    ∃ r, bsonSerialize (threeStrings 1500000000) = some r ∧ r.length = 4500000029 ∧
      leValue (r.binaryValue.take 4) = 205032733 ∧ leValue (r.binaryValue.take 4) ≠ r.length := by
  obtain ⟨r, h1, h2, h3⟩ := bsonSerialize_threeStrings 1500000000 (by omega)
  refine ⟨r, h1, ?_, ?_, ?_⟩
  · rw [h2]
  · rw [h3]
  · rw [h2, h3]
    omega

/-! ## Documents of one field, and documents with one more field -/

theorem leValue_lt (bs : List Byte) : leValue bs < 256 ^ bs.length := by
  induction bs with
  | nil => simp [leValue]
  | cons b bs ih =>
    simp only [leValue, List.length_cons, pow_succ]
    have := b.isLt
    omega

theorem leValue_intRepresentation (size : Nat) (x : Int) :
    (leValue (intRepresentation size x) : Int) = x % (256 : Int) ^ size := by
  unfold intRepresentation
  rw [leValue_objectRepresentation]
  have hpos : (0 : Int) < (256 : Int) ^ size := by positivity
  have h0 : 0 ≤ x % (256 : Int) ^ size := Int.emod_nonneg _ (ne_of_gt hpos)
  have h1 : x % (256 : Int) ^ size < (256 : Int) ^ size := Int.emod_lt_of_pos _ hpos
  have h2 : (x % (256 : Int) ^ size).toNat < 256 ^ size := by
    have : ((x % (256 : Int) ^ size).toNat : Int) < ((256 ^ size : Nat) : Int) := by
      rw [Int.toNat_of_nonneg h0]
      push_cast
      exact h1
    exact_mod_cast this
  rw [Nat.mod_eq_of_lt h2, Int.toNat_of_nonneg h0]

theorem fieldPayloads_single {n : CStr} {v : bsonValue} {value : bsonSerializedValue}
    (hv : _serializedValue v = some value) :
    fieldPayloads [(n, v)] = some [value.binaryValue] := by
  have hl := serializedValue_length hv
  simp only [fieldPayloads, hv, Option.some_bind, Option.map_some',
    List.take_of_length_le (Nat.le_of_eq hl)]

theorem bsonSerialize_single (n : CStr) (v : bsonValue) (value : bsonSerializedValue)
    (hv : _serializedValue v = some value) :
    bsonSerialize [(n, v)] = some
      { binaryValue := objectRepresentation 4 (strlen n + value.length + 7) ++ [fieldType v] ++
          n.val ++ [0] ++ value.binaryValue ++ [0],
        length := strlen n + value.length + 7 } := by
  have hl := serializedValue_length hv
  have h := bsonSerialize_some [(n, v)] [value.binaryValue] (fieldPayloads_single hv)
  have hB : (encodedFields [(n, v)] [value.binaryValue]).length = strlen n + value.length + 2 := by
    simp only [encodedFields, List.length_cons, List.length_append, List.length_nil, hl, strlen]
    omega
  rw [hB] at h
  have e : 4 + (strlen n + value.length + 2) + 1 = strlen n + value.length + 7 := by omega
  rw [e] at h
  rw [h]
  simp only [encodedFields, List.append_assoc, List.cons_append, List.nil_append,
    List.append_nil, List.singleton_append]

theorem fieldPayloads_length (d : bsonDocument) :
    ∀ ps, fieldPayloads d = some ps → ps.length = d.length := by
  induction d with
  | nil =>
    intro ps h
    rw [fieldPayloads] at h
    cases h
    rfl
  | cons f rest ih =>
    obtain ⟨name, v⟩ := f
    intro ps h
    obtain ⟨value, ps1, _, hr, hps, _⟩ := fieldPayloads_cons_some h
    subst hps
    simp [ih ps1 hr]

theorem fieldPayloads_append (d : bsonDocument) (n : CStr) (v : bsonValue)
    (value : bsonSerializedValue) (hv : _serializedValue v = some value) :
    ∀ ps, fieldPayloads d = some ps →
      fieldPayloads (d ++ [(n, v)]) = some (ps ++ [value.binaryValue]) := by
  induction d with
  | nil =>
    intro ps h
    rw [fieldPayloads] at h
    cases h
    exact fieldPayloads_single hv
  | cons f rest ih =>
    obtain ⟨name, w⟩ := f
    intro ps h
    obtain ⟨value1, ps1, hw, hr, hps, hl⟩ := fieldPayloads_cons_some h
    subst hps
    have := ih ps1 hr
    rw [List.cons_append, fieldPayloads, hw]
    simp only [Option.some_bind]
    rw [this]
    simp only [Option.map_some', List.take_of_length_le (Nat.le_of_eq hl), List.cons_append]

theorem encodedFields_append (d : bsonDocument) (n : CStr) (v : bsonValue) (p : List Byte) :
    ∀ ps, ps.length = d.length →
      encodedFields (d ++ [(n, v)]) (ps ++ [p]) =
        encodedFields d ps ++ (fieldType v :: (n.val ++ [0] ++ p)) := by
  induction d with
  | nil =>
    intro ps h
    have : ps = [] := List.length_eq_zero.1 h
    subst this
    simp [encodedFields]
  | cons f rest ih =>
    obtain ⟨name, w⟩ := f
    intro ps h
    cases ps with
    | nil => simp at h
    | cons q qs =>
      simp only [List.length_cons, Nat.add_right_cancel_iff] at h
      rw [List.cons_append, List.cons_append, encodedFields, encodedFields, ih qs h]
      simp only [List.append_assoc, List.cons_append]

theorem fieldPayloads_of_bsonSerialize {d : bsonDocument} {r : bsonSerializedValue}
    (h : bsonSerialize d = some r) : ∃ ps, fieldPayloads d = some ps := by
  cases hp : fieldPayloads d with
  | none =>
    rw [bsonSerialize_none d hp] at h
    cases h
  | some ps => exact ⟨ps, rfl⟩

theorem bsonSerialize_length {d : bsonDocument} {r : bsonSerializedValue}
    (h : bsonSerialize d = some r) : r.binaryValue.length = r.length := by
  obtain ⟨ps, hp⟩ := fieldPayloads_of_bsonSerialize h
  rw [bsonSerialize_some d ps hp] at h
  cases h
  simp only [List.length_append, objectRepresentation_length, List.length_singleton]

theorem serializedValue_document (s : bsonDocument) :
    _serializedValue (.document s) =
      (bsonSerialize s).bind fun sub => serializedCopy sub.length sub.binaryValue := by
  rw [_serializedValue]
  rfl

theorem serializedValue_array (s : bsonDocument) :
    _serializedValue (.array s) =
      (bsonSerialize s).bind fun sub => serializedCopy sub.length sub.binaryValue := by
  rw [_serializedValue]
  rfl

theorem serializedCopy_some {n : Nat} {src : List Byte} {r : bsonSerializedValue}
    (h : serializedCopy n src = some r) (hs : src.length = n) : r = ⟨src, n⟩ := by
  have hn : n ≤ PTRDIFF_MAX := by
    unfold serializedCopy at h
    cases hc : calloc n with
    | none =>
      rw [hc] at h
      cases h
    | some b => exact (calloc_some hc).1
  rw [serializedCopy_eq n src hn hs] at h
  cases h
  rfl

theorem bsonSerialize_of_document_payload {s : bsonDocument} {p : bsonSerializedValue}
    (h : _serializedValue (.document s) = some p) : bsonSerialize s = some p := by
  rw [serializedValue_document] at h
  cases hs : bsonSerialize s with
  | none =>
    rw [hs] at h
    cases h
  | some sub =>
    rw [hs] at h
    simp only [Option.some_bind] at h
    have := serializedCopy_some h (bsonSerialize_length hs)
    rw [this]

/-! ## The layout of an encoding and the payload of a String -/

/-- C4 (amended). For every document whose fields all have a payload, `bsonSerialize` returns
`L ++ B ++ [0x00]`, where `B` is the concatenation in order of the bytes
`tag ++ name ++ 0x00 ++ payload` of the fields and `L` is four bytes that denote, least
significant first, the total length `4 + |B| + 1` modulo `2^32` (the total length itself when it
is below `2^32`); the returned length is the total length; the empty document gives
`05 00 00 00 00`. -/
theorem C4_bsonSerialize_layout (d : bsonDocument) (ps : List (List Byte))
    (h : fieldPayloads d = some ps) :
    ∃ L : List Byte, L.length = 4 ∧
      leValue L = (4 + (encodedFields d ps).length + 1) % 4294967296 ∧
      (4 + (encodedFields d ps).length + 1 < 4294967296 →
        leValue L = 4 + (encodedFields d ps).length + 1) ∧
      bsonSerialize d =
        some ⟨L ++ encodedFields d ps ++ [0], 4 + (encodedFields d ps).length + 1⟩ ∧
      (L ++ encodedFields d ps ++ [0]).length = 4 + (encodedFields d ps).length + 1 ∧
      bsonSerialize createBsonDocument = some ⟨[5, 0, 0, 0, 0], 5⟩ := by
  have hL := leValue_objectRepresentation 4 (4 + (encodedFields d ps).length + 1)
  refine ⟨objectRepresentation 4 (4 + (encodedFields d ps).length + 1),
    objectRepresentation_length _ _, hL, ?_, bsonSerialize_some d ps h, ?_, ?_⟩
  · intro hlt
    rw [hL]
    exact Nat.mod_eq_of_lt hlt
  · simp only [List.length_append, objectRepresentation_length, List.length_singleton]
  · decide

/-- Witness of C4: the document holding the single field `id` = Int32 42. -/
theorem C4_bsonSerialize_layout_witness :
    fieldPayloads [(sampleId, bsonValue.int32 sample42)] = some [[42, 0, 0, 0]] ∧
    ∃ L : List Byte, L.length = 4 ∧
      leValue L = (4 + (encodedFields [(sampleId, bsonValue.int32 sample42)]
        [[42, 0, 0, 0]]).length + 1) % 4294967296 ∧
      (4 + (encodedFields [(sampleId, bsonValue.int32 sample42)] [[42, 0, 0, 0]]).length + 1
          < 4294967296 →
        leValue L = 4 + (encodedFields [(sampleId, bsonValue.int32 sample42)]
          [[42, 0, 0, 0]]).length + 1) ∧
      bsonSerialize [(sampleId, bsonValue.int32 sample42)] =
        some ⟨L ++ encodedFields [(sampleId, bsonValue.int32 sample42)] [[42, 0, 0, 0]] ++ [0],
          4 + (encodedFields [(sampleId, bsonValue.int32 sample42)] [[42, 0, 0, 0]]).length + 1⟩ ∧
      (L ++ encodedFields [(sampleId, bsonValue.int32 sample42)] [[42, 0, 0, 0]] ++ [0]).length =
        4 + (encodedFields [(sampleId, bsonValue.int32 sample42)] [[42, 0, 0, 0]]).length + 1 ∧
      bsonSerialize createBsonDocument = some ⟨[5, 0, 0, 0, 0], 5⟩ :=
  ⟨by decide,
   C4_bsonSerialize_layout [(sampleId, bsonValue.int32 sample42)] [[42, 0, 0, 0]] (by decide)⟩

/-- C6, counterexample. For the string of 2147483647 letters `strlen + 1` does not fit
`bsonInt32`: `_serializedValue` writes no payload (the allocation of `4 + i32` bytes fails), and
neither does `bsonSerialize` on a document holding that string.  The same holds from
2147483643 letters on, where `strlen + 1` fits `bsonInt32` and the `int` sum `4 + i32` does
not: no string `s` with `2^31 ≤ strlen s + 5` has a payload. -/
theorem C6_string_of_2GiB_has_no_payload :
    _serializedValue (.string (lettersA 2147483647)) = none ∧
    bsonSerialize [(sampleA, .string (lettersA 2147483647))] = none ∧
    _serializedValue (.string (lettersA 2147483643)) = none ∧
    _serializedValue (.string (lettersA 2147483646)) = none ∧
    ∀ s : CStr, 2147483648 ≤ strlen s + 5 → _serializedValue (.string s) = none := by
  have hall : ∀ s : CStr, 2147483648 ≤ strlen s + 5 → _serializedValue (.string s) = none := by
    intro s hs
    rw [serializedValue_string]
    exact serializedString_none s hs
  have h : _serializedValue (.string (lettersA 2147483647)) = none :=
    hall _ (by rewrite [strlen_lettersA]; omega)
  refine ⟨h, bsonSerialize_none _ ?_, hall _ (by rewrite [strlen_lettersA]; omega),
    hall _ (by rewrite [strlen_lettersA]; omega), hall⟩
  rw [fieldPayloads, h]
  rfl

/-- C6 (amended). For every String field whose value `s` has at most `2^31 - 6` bytes (none of
them NUL), so that the `int` sum `4 + (|s| + 1)` of the allocation fits `int`, the payload is
`L ++ s ++ [0x00]`, of length `|s| + 5`, where `L` is four bytes that denote `|s| + 1`, least
significant first; `bsonSerialize` writes it after the tag 0x02 and the name of the field. -/
theorem C6_string_payload (s : CStr) (n : CStr) (h : strlen s + 5 < 2147483648) :
    ∃ L : List Byte, L.length = 4 ∧ leValue L = strlen s + 1 ∧
      _serializedValue (.string s) = some ⟨L ++ s.val ++ [0], strlen s + 5⟩ ∧
      (L ++ s.val ++ [0]).length = strlen s + 5 ∧
      bsonSerialize [(n, .string s)] =
        some ⟨objectRepresentation 4 (strlen n + (strlen s + 5) + 7) ++ [0x02] ++ n.val ++ [0] ++
          (L ++ s.val ++ [0]) ++ [0], strlen n + (strlen s + 5) + 7⟩ := by
  have hv : _serializedValue (.string s) = some
      ⟨intRepresentation 4 ((strlen s : Int) + 1) ++ s.val ++ [0], strlen s + 5⟩ := by
    rw [serializedValue_string]
    exact serializedString_eq s h
  refine ⟨intRepresentation 4 ((strlen s : Int) + 1), intRepresentation_length _ _, ?_, hv, ?_,
    ?_⟩
  · have := leValue_intRepresentation 4 ((strlen s : Int) + 1)
    norm_num at this
    omega
  · simp only [List.length_append, intRepresentation_length, List.length_singleton, strlen]
    omega
  · exact bsonSerialize_single n (.string s) _ hv

/-- Witness of C6: the String `Hello` under the name `id`. -/
theorem C6_string_payload_witness :
    strlen sampleHello + 5 < 2147483648 ∧
    ∃ L : List Byte, L.length = 4 ∧ leValue L = strlen sampleHello + 1 ∧
      _serializedValue (.string sampleHello) =
        some ⟨L ++ sampleHello.val ++ [0], strlen sampleHello + 5⟩ ∧
      (L ++ sampleHello.val ++ [0]).length = strlen sampleHello + 5 ∧
      bsonSerialize [(sampleId, .string sampleHello)] =
        some ⟨objectRepresentation 4 (strlen sampleId + (strlen sampleHello + 5) + 7) ++ [0x02] ++
          sampleId.val ++ [0] ++ (L ++ sampleHello.val ++ [0]) ++ [0],
          strlen sampleId + (strlen sampleHello + 5) + 7⟩ :=
  ⟨by decide, C6_string_payload sampleHello sampleId (by decide)⟩

/-! ## The payloads of Int32, Int64 and UTCDate fields -/

theorem serializedValue_int32 (v : bsonInt32) :
    _serializedValue (.int32 v) = some ⟨intRepresentation 4 v.val, 4⟩ := by
  rw [_serializedValue]
  exact serializedCopy_eq 4 _ (by decide) (intRepresentation_length _ _)

theorem serializedValue_int64 (v : bsonInt64) :
    _serializedValue (.int64 v) = some ⟨intRepresentation 8 v.val, 8⟩ := by
  rw [_serializedValue]
  exact serializedCopy_eq 8 _ (by decide) (intRepresentation_length _ _)

theorem le_PTRDIFF_MAX_8 : 8 ≤ PTRDIFF_MAX := by decide

theorem serializedValue_utcDate (block : HeapPtr) (v : bsonInt64) :
    _serializedValue (.utcDate block v) =
      some ⟨intRepresentation 8 (htole64 (toInt64 block.val)), 8⟩ := by
  rewrite [_serializedValue]
  exact serializedCopy_eq 8 (intRepresentation 8 (htole64 (toInt64 block.val))) le_PTRDIFF_MAX_8
    (intRepresentation_length _ _)

theorem pow_256_8 : (256 : Int) ^ 8 = 18446744073709551616 := by norm_num

theorem wrap64 (p : Nat) (hp : p < 18446744073709551616) :
    (((p : Int) + 9223372036854775808) % 18446744073709551616 - 9223372036854775808) %
      18446744073709551616 = p := by
  omega

theorem leValue_block (block : HeapPtr) :
    (leValue (intRepresentation 8 (htole64 (toInt64 block.val))) : Int) = block.val := by
  refine (leValue_intRepresentation 8 _).trans ?_
  rewrite [pow_256_8, htole64, toInt64]
  exact wrap64 block.val block.property.2

/-- C7. The payload of an Int32 field of value `v` is four bytes that denote, least significant
first, the two's-complement number of `v` on 32 bits; the payload of an Int64 field of value `v`
is eight bytes that denote the two's-complement number of `v` on 64 bits; `bsonSerialize` writes
them after the tag (0x10, 0x12) and the name of the field. -/
theorem C7_int_payload (n : CStr) (v32 : bsonInt32) (v64 : bsonInt64) :
    (∃ p : List Byte, p.length = 4 ∧ (leValue p : Int) = twosComplement 32 v32.val ∧
      _serializedValue (.int32 v32) = some ⟨p, 4⟩ ∧
      bsonSerialize [(n, .int32 v32)] =
        some ⟨objectRepresentation 4 (strlen n + 4 + 7) ++ [0x10] ++ n.val ++ [0] ++ p ++ [0],
          strlen n + 4 + 7⟩) ∧
    (∃ p : List Byte, p.length = 8 ∧ (leValue p : Int) = twosComplement 64 v64.val ∧
      _serializedValue (.int64 v64) = some ⟨p, 8⟩ ∧
      bsonSerialize [(n, .int64 v64)] =
        some ⟨objectRepresentation 4 (strlen n + 8 + 7) ++ [0x12] ++ n.val ++ [0] ++ p ++ [0],
          strlen n + 8 + 7⟩) := by
  have h32 := bsonSerialize_single n (.int32 v32) _ (serializedValue_int32 v32)
  have h64 := bsonSerialize_single n (.int64 v64) _ (serializedValue_int64 v64)
  simp only [fieldType, BSON_TYPE_INT32, BSON_TYPE_INT64] at h32 h64
  have e32 := leValue_intRepresentation 4 v32.val
  have e64 := leValue_intRepresentation 8 v64.val
  have hb32 := v32.property
  have hb64 := v64.property
  constructor
  · refine ⟨intRepresentation 4 v32.val, intRepresentation_length _ _, ?_,
      serializedValue_int32 v32, h32⟩
    clear h32 h64 e64
    norm_num at e32
    unfold twosComplement
    split <;> omega
  · refine ⟨intRepresentation 8 v64.val, intRepresentation_length _ _, ?_,
      serializedValue_int64 v64, h64⟩
    clear h32 h64 e32
    norm_num at e64
    unfold twosComplement
    split <;> omega

/-- C8 (the code at the failing input). For the document obtained from `createBsonDocument` by
`bsonAddDate` with the name `d` and the value 0, whatever address `block` the allocation of the
value returned, `bsonSerialize` returns 16 bytes in which the payload of the field is eight bytes
that denote `block`, not the value 0. -/
theorem C8_date_payload_is_block_address (block : HeapPtr) :
    ∃ b : List Byte, b.length = 8 ∧ (leValue b : Int) = block.val ∧
      bsonSerialize (bsonAddDate createBsonDocument sampleD sampleZero64 block).2 =
        some ⟨[0x10, 0, 0, 0, 0x09, 0x64, 0] ++ b ++ [0], 16⟩ ∧
      (leValue b : Int) ≠ twosComplement 64 sampleZero64.val := by
  have hb := block.property
  have hne : (block.val : Int) ≠ 0 := by omega
  have hzero : twosComplement 64 sampleZero64.val = 0 := by decide
  have hv := leValue_block block
  refine ⟨intRepresentation 8 (htole64 (toInt64 block.val)), intRepresentation_length _ _,
    hv, ?_, ?_⟩
  · have hd : (bsonAddDate createBsonDocument sampleD sampleZero64 block).2 =
        [(sampleD, .utcDate block sampleZero64)] := by
      simp [bsonAddDate, createBsonDocument, appendField, fieldNameExists, strlen, sampleD]
    rewrite [hd, bsonSerialize_single sampleD _ _ (serializedValue_utcDate block sampleZero64)]
    have e1 : strlen sampleD + 8 + 7 = 16 := by decide
    have e2 : objectRepresentation 4 16 = [0x10, 0, 0, 0] := by decide
    have e3 : fieldType (.utcDate block sampleZero64) = 0x09 := rfl
    have e4 : sampleD.val = [0x64] := rfl
    simp only [e1, e2, e3, e4, List.append_assoc, List.cons_append, List.nil_append]
  · exact fun h => hne ((hv.symm.trans h).trans hzero)

/-! ## Bool and Null payloads, nested documents and arrays -/

theorem bsonSerialize_append (d : bsonDocument) (ps : List (List Byte)) (n : CStr)
    (v : bsonValue) (value : bsonSerializedValue) (hd : fieldPayloads d = some ps)
    (hv : _serializedValue v = some value) :
    bsonSerialize (d ++ [(n, v)]) = some
      { binaryValue := objectRepresentation 4
            (4 + (encodedFields d ps).length + (strlen n + value.length + 2) + 1) ++
          encodedFields d ps ++ [fieldType v] ++ n.val ++ [0] ++ value.binaryValue ++ [0],
        length := 4 + (encodedFields d ps).length + (strlen n + value.length + 2) + 1 } := by
  have hl := serializedValue_length hv
  have ha := fieldPayloads_append d n v value hv ps hd
  have he := encodedFields_append d n v value.binaryValue ps (fieldPayloads_length d ps hd)
  have h := bsonSerialize_some (d ++ [(n, v)]) (ps ++ [value.binaryValue]) ha
  have hB : (encodedFields (d ++ [(n, v)]) (ps ++ [value.binaryValue])).length =
      (encodedFields d ps).length + (strlen n + value.length + 2) := by
    rewrite [he]
    simp only [List.length_cons, List.length_append, List.length_nil, hl, strlen]
    omega
  rewrite [hB, he] at h
  rewrite [h]
  have e : 4 + ((encodedFields d ps).length + (strlen n + value.length + 2)) + 1 =
      4 + (encodedFields d ps).length + (strlen n + value.length + 2) + 1 := by omega
  rewrite [e]
  simp only [List.append_assoc, List.cons_append, List.nil_append, List.singleton_append]

theorem bsonSerialize_shape {d : bsonDocument} {r : bsonSerializedValue}
    (h : bsonSerialize d = some r) :
    ∃ ps, fieldPayloads d = some ps ∧ r.length = 4 + (encodedFields d ps).length + 1 ∧
      (r.binaryValue.drop 4).dropLast = encodedFields d ps := by
  obtain ⟨ps, hp⟩ := fieldPayloads_of_bsonSerialize h
  have h2 := bsonSerialize_some d ps hp
  rewrite [h] at h2
  have h3 := Option.some.inj h2
  refine ⟨ps, hp, ?_, ?_⟩
  · rewrite [h3]
    rfl
  · rewrite [h3]
    dsimp only
    rewrite [List.append_assoc, List.drop_left' (objectRepresentation_length _ _)]
    exact List.dropLast_concat

/-- C9. The payload of a Bool field is the single byte 0x01 for true and 0x00 for false; the
payload of a Null field is empty; and adding a Null field of name `n` at the end of a document
adds exactly `strlen n + 2` bytes to its encoding: the tag 0x0A, the name and its NUL, placed
between the fields already encoded and the final 0x00. -/
theorem C9_bool_and_null_payload (d : bsonDocument) (n : CStr) (r : bsonSerializedValue)
    (h : bsonSerialize d = some r) :
    _serializedValue (.bool true) = some ⟨[0x01], 1⟩ ∧
    _serializedValue (.bool false) = some ⟨[0x00], 1⟩ ∧
    _serializedValue .null = some ⟨[], 0⟩ ∧
    ∃ L : List Byte, L.length = 4 ∧
      bsonSerialize (d ++ [(n, .null)]) =
        some ⟨L ++ (r.binaryValue.drop 4).dropLast ++ [0x0A] ++ n.val ++ [0] ++ [0],
          r.length + (strlen n + 2)⟩ := by
  have hnull : _serializedValue .null = some ⟨[], 0⟩ := by rw [_serializedValue]
  refine ⟨by decide, by decide, hnull, ?_⟩
  obtain ⟨ps, hp, hlen, hbody⟩ := bsonSerialize_shape h
  have ha := bsonSerialize_append d ps n .null _ hp hnull
  simp only [fieldType, BSON_TYPE_NULL, List.append_nil] at ha
  have e : 4 + (encodedFields d ps).length + (strlen n + 0 + 2) + 1 =
      4 + (encodedFields d ps).length + 1 + (strlen n + 2) := by omega
  rewrite [e] at ha
  refine ⟨objectRepresentation 4 (4 + (encodedFields d ps).length + 1 + (strlen n + 2)),
    objectRepresentation_length 4 _, ?_⟩
  rewrite [ha, hbody, hlen]
  rfl

/-- Witness of C9: a Null field `id` is added to the empty document. -/
theorem C9_bool_and_null_payload_witness :
    bsonSerialize createBsonDocument = some ⟨[5, 0, 0, 0, 0], 5⟩ ∧
    ∃ L : List Byte, L.length = 4 ∧
      bsonSerialize (createBsonDocument ++ [(sampleId, bsonValue.null)]) =
        some ⟨L ++ (([5, 0, 0, 0, 0] : List Byte).drop 4).dropLast ++ [0x0A] ++ sampleId.val ++
          [0] ++ [0], 5 + (strlen sampleId + 2)⟩ :=
  ⟨by decide,
   (C9_bool_and_null_payload createBsonDocument sampleId ⟨[5, 0, 0, 0, 0], 5⟩
      (by decide)).2.2.2⟩

theorem addSubDocument_fresh (d : bsonDocument) (n : CStr) (s : bsonDocument)
    (hne : n.val ≠ []) (hnew : n ∉ fieldNames d) :
    (bsonAddSubDocument d n s).2 = d ++ [(n, .document s)] ∧
    (bsonAddArray d n s).2 = d ++ [(n, .array s)] := by
  have h0 : strlen n ≠ 0 := fun h => hne ((strlen_eq_zero_iff n).1 h)
  have h1 : fieldNameExists d n = false := by
    cases hx : fieldNameExists d n
    · rfl
    · exact absurd ((fieldNameExists_iff d n).1 hx) hnew
  constructor
  · simp [bsonAddSubDocument, h0, h1, appendField]
  · simp [bsonAddArray, h0, h1, appendField]

/-- C10. When the document `s` is held under the name `n` (non-empty, not yet in the parent)
through `bsonAddSubDocument` or through `bsonAddArray`, the payload of the field is in both cases
exactly what `bsonSerialize s` returns, and the two encodings of the parent are the same bytes
except for the tag of that field, 0x03 against 0x04. -/
theorem C10_array_and_document_differ_in_tag (d : bsonDocument) (n : CStr) (s : bsonDocument)
    (ps : List (List Byte)) (p : bsonSerializedValue)
    (hne : n.val ≠ []) (hnew : n ∉ fieldNames d) (hd : fieldPayloads d = some ps)
    (hp : _serializedValue (.document s) = some p) :
    bsonSerialize s = some p ∧ _serializedValue (.array s) = some p ∧
    ∃ L : List Byte, L.length = 4 ∧
      bsonSerialize (bsonAddSubDocument d n s).2 =
        some ⟨L ++ encodedFields d ps ++ [0x03] ++ n.val ++ [0] ++ p.binaryValue ++ [0],
          4 + (encodedFields d ps).length + (strlen n + p.length + 2) + 1⟩ ∧
      bsonSerialize (bsonAddArray d n s).2 =
        some ⟨L ++ encodedFields d ps ++ [0x04] ++ n.val ++ [0] ++ p.binaryValue ++ [0],
          4 + (encodedFields d ps).length + (strlen n + p.length + 2) + 1⟩ := by
  have hs := bsonSerialize_of_document_payload hp
  have ha : _serializedValue (.array s) = some p := by
    rewrite [serializedValue_array]
    rewrite [serializedValue_document] at hp
    exact hp
  obtain ⟨f1, f2⟩ := addSubDocument_fresh d n s hne hnew
  have e1 := bsonSerialize_append d ps n (.document s) p hd hp
  have e2 := bsonSerialize_append d ps n (.array s) p hd ha
  simp only [fieldType, BSON_TYPE_DOCUMENT, BSON_TYPE_ARRAY] at e1 e2
  refine ⟨hs, ha, _, objectRepresentation_length 4
    (4 + (encodedFields d ps).length + (strlen n + p.length + 2) + 1), ?_, ?_⟩
  · rewrite [f1]
    exact e1
  · rewrite [f2]
    exact e2

/-- Witness of C10: the document holding a Null field `d` is held under the name `id` by an
empty parent. -/
theorem C10_array_and_document_differ_in_tag_witness :
    (sampleId.val ≠ [] ∧ sampleId ∉ fieldNames createBsonDocument ∧
      fieldPayloads createBsonDocument = some [] ∧
      _serializedValue (.document [(sampleD, bsonValue.null)]) =
        some ⟨[8, 0, 0, 0, 0x0A, 0x64, 0, 0], 8⟩) ∧
    bsonSerialize [(sampleD, bsonValue.null)] = some ⟨[8, 0, 0, 0, 0x0A, 0x64, 0, 0], 8⟩ ∧
    _serializedValue (.array [(sampleD, bsonValue.null)]) =
      some ⟨[8, 0, 0, 0, 0x0A, 0x64, 0, 0], 8⟩ :=
  ⟨⟨by decide, by decide, by decide, by decide⟩,
   (C10_array_and_document_differ_in_tag createBsonDocument sampleId
      [(sampleD, bsonValue.null)] [] ⟨[8, 0, 0, 0, 0x0A, 0x64, 0, 0], 8⟩
      (by decide) (by decide) (by decide) (by decide)).1,
   (C10_array_and_document_differ_in_tag createBsonDocument sampleId
      [(sampleD, bsonValue.null)] [] ⟨[8, 0, 0, 0, 0x0A, 0x64, 0, 0], 8⟩
      (by decide) (by decide) (by decide) (by decide)).2.1⟩

/-! ## The encoder against the wire format -/

theorem wireFields_cons (name : CStr) (v : bsonValue) (rest : bsonDocument) :
    wireFields ((name, v) :: rest) =
      fieldType v :: (name.val ++ [0] ++ wirePayload v) ++ wireFields rest := by
  rw [wireFields]

theorem fieldsHaveNoDate_cons (name : CStr) (v : bsonValue) (rest : bsonDocument) :
    fieldsHaveNoDate ((name, v) :: rest) = (valueHasNoDate v && fieldsHaveNoDate rest) := by
  rw [fieldsHaveNoDate]

theorem le_PTRDIFF_MAX_of_lt {n : Nat} (h : n < 2147483648) : n ≤ PTRDIFF_MAX := by
  unfold PTRDIFF_MAX
  omega

theorem serializedValue_wire_nested (s : bsonDocument)
    (hs : fieldPayloads s = some (wirePayloads s))
    (he : encodedFields s (wirePayloads s) = wireFields s)
    (hsz : 4 + (wireFields s).length + 1 < 2147483648) :
    (bsonSerialize s).bind (fun sub => serializedCopy sub.length sub.binaryValue) =
      some ⟨objectRepresentation 4 (4 + (wireFields s).length + 1) ++ wireFields s ++ [0],
        (objectRepresentation 4 (4 + (wireFields s).length + 1) ++ wireFields s ++ [0]).length⟩ := by
  have h := bsonSerialize_some s (wirePayloads s) hs
  rewrite [he] at h
  rewrite [h]
  simp only [Option.some_bind]
  have hl : (objectRepresentation 4 (4 + (wireFields s).length + 1) ++ wireFields s ++ [0]).length =
      4 + (wireFields s).length + 1 := by
    simp only [List.length_append, objectRepresentation_length, List.length_singleton]
  rewrite [serializedCopy_eq _ _ (le_PTRDIFF_MAX_of_lt hsz) hl, hl]
  rfl

theorem serializedValue_wire (v : bsonValue) (hnd : valueHasNoDate v = true)
    (hsz : (wirePayload v).length < 2147483648)
    (ih : ∀ s, (v = .document s ∨ v = .array s) →
      fieldPayloads s = some (wirePayloads s) ∧ encodedFields s (wirePayloads s) = wireFields s) :
    _serializedValue v = some ⟨wirePayload v, (wirePayload v).length⟩ := by
  cases v with
  | double value =>
    rewrite [_serializedValue, wirePayload, objectRepresentation_length]
    exact serializedCopy_eq 8 _ le_PTRDIFF_MAX_8 (objectRepresentation_length _ _)
  | int64 value =>
    rewrite [_serializedValue, wirePayload, intRepresentation_length]
    exact serializedCopy_eq 8 _ le_PTRDIFF_MAX_8 (intRepresentation_length _ _)
  | string value =>
    rewrite [wirePayload] at hsz
    simp only [List.length_append, intRepresentation_length, List.length_singleton] at hsz
    have hlen : value.val.length = strlen value := rfl
    rewrite [serializedValue_string, wirePayload, serializedString_eq value (by omega)]
    simp only [List.length_append, intRepresentation_length, List.length_singleton,
      Option.some.injEq, bsonSerializedValue.mk.injEq, true_and]
    omega
  | document value =>
    obtain ⟨h1, h2⟩ := ih value (Or.inl rfl)
    rewrite [wirePayload] at hsz
    simp only [List.length_append, objectRepresentation_length, List.length_singleton] at hsz
    rewrite [serializedValue_document, wirePayload]
    exact serializedValue_wire_nested value h1 h2 hsz
  | array value =>
    obtain ⟨h1, h2⟩ := ih value (Or.inr rfl)
    rewrite [wirePayload] at hsz
    simp only [List.length_append, objectRepresentation_length, List.length_singleton] at hsz
    rewrite [serializedValue_array, wirePayload]
    exact serializedValue_wire_nested value h1 h2 hsz
  | objectId value =>
    rewrite [_serializedValue, wirePayload, value.property]
    exact serializedCopy_eq 12 _ (by decide) value.property
  | bool value =>
    rewrite [_serializedValue, wirePayload]
    exact serializedCopy_eq 1 _ (by decide) rfl
  | utcDate block value =>
    rewrite [valueHasNoDate] at hnd
    cases hnd
  | null =>
    rewrite [_serializedValue, wirePayload]
    rfl
  | int32 value =>
    rewrite [_serializedValue, wirePayload, intRepresentation_length]
    exact serializedCopy_eq 4 _ (by decide) (intRepresentation_length _ _)

theorem wire_refinement_aux (k : Nat) :
    ∀ d : bsonDocument, (wireFields d).length < k → fieldsHaveNoDate d = true →
      wireSize d < 2147483648 →
      fieldPayloads d = some (wirePayloads d) ∧ encodedFields d (wirePayloads d) = wireFields d := by
  induction k with
  | zero =>
    intro d h
    omega
  | succ k ih =>
    intro d hk hnd hsz
    cases d with
    | nil =>
      constructor
      · rw [fieldPayloads]
        rfl
      · rfl
    | cons f rest =>
      obtain ⟨name, v⟩ := f
      rewrite [fieldsHaveNoDate_cons, Bool.and_eq_true] at hnd
      unfold wireSize at hsz
      rewrite [wireFields_cons] at hk hsz
      simp only [List.length_cons, List.length_append, List.length_nil] at hk hsz
      have hrest := ih rest (by omega) hnd.2 (by unfold wireSize; omega)
      have hv : _serializedValue v = some ⟨wirePayload v, (wirePayload v).length⟩ := by
        apply serializedValue_wire v hnd.1 (by omega)
        intro s hs
        have hnds : fieldsHaveNoDate s = true := by
          have h1 := hnd.1
          rcases hs with hs | hs
          · rewrite [hs, valueHasNoDate] at h1
            exact h1
          · rewrite [hs, valueHasNoDate] at h1
            exact h1
        have hlen : (wirePayload v).length = 4 + (wireFields s).length + 1 := by
          rcases hs with hs | hs
          · rewrite [hs, wirePayload]
            simp only [List.length_append, objectRepresentation_length, List.length_singleton]
          · rewrite [hs, wirePayload]
            simp only [List.length_append, objectRepresentation_length, List.length_singleton]
        exact ih s (by omega) hnds (by unfold wireSize; omega)
      constructor
      · rewrite [fieldPayloads, hv, hrest.1]
        simp only [Option.some_bind, Option.map_some', List.take_of_length_le (Nat.le_refl _)]
        rfl
      · unfold wirePayloads
        rewrite [List.map_cons, encodedFields, wireFields_cons]
        have := hrest.2
        unfold wirePayloads at this
        rewrite [this]
        rfl

theorem wire_refinement (d : bsonDocument) (hnd : fieldsHaveNoDate d = true)
    (hsz : wireSize d < 2147483648) :
    bsonSerialize d = some ⟨wireDocument d, wireSize d⟩ := by
  obtain ⟨h1, h2⟩ := wire_refinement_aux ((wireFields d).length + 1) d (by omega) hnd hsz
  have h := bsonSerialize_some d (wirePayloads d) h1
  rewrite [h2] at h
  exact h

/-! ## Reading back an encoding -/

theorem readCString_append_aux (l : List Byte) :
    ∀ (hl : ∀ b ∈ l, b ≠ 0) (rest : List Byte),
      readCString (l ++ 0 :: rest) = some (⟨l, hl⟩, rest) := by
  induction l with
  | nil =>
    intro hl rest
    simp [readCString]
  | cons b bs ih =>
    intro hl rest
    have hb : b ≠ 0 := hl b (List.mem_cons_self _ _)
    have hbs : ∀ x ∈ bs, x ≠ 0 := fun x hx => hl x (List.mem_cons_of_mem _ hx)
    rewrite [List.cons_append, readCString, dif_neg hb, ih hbs rest]
    rfl

theorem readCString_append (n : CStr) (rest : List Byte) :
    readCString (n.val ++ 0 :: rest) = some (n, rest) :=
  readCString_append_aux n.val n.property rest

theorem readBytes_append (p rest : List Byte) (size : Nat) (h : p.length = size) :
    readBytes size (p ++ rest) = some (p, rest) := by
  unfold readBytes
  rewrite [if_pos (by rw [List.length_append]; omega)]
  subst h
  rewrite [List.take_left, List.drop_left]
  rfl

theorem pow_256_4 : (256 : Int) ^ 4 = 4294967296 := by norm_num

theorem int32OfWord_leValue (v : bsonInt32) :
    int32OfWord (leValue (intRepresentation 4 v.val)) = v := by
  apply Subtype.ext
  have h := leValue_intRepresentation 4 v.val
  rewrite [pow_256_4] at h
  have hb := v.property
  show toInt32 (leValue (intRepresentation 4 v.val) : Int) = v.val
  rewrite [h]
  unfold toInt32
  omega

theorem int64OfWord_leValue (v : bsonInt64) :
    int64OfWord (leValue (intRepresentation 8 v.val)) = v := by
  apply Subtype.ext
  have h := leValue_intRepresentation 8 v.val
  rewrite [pow_256_8] at h
  have hb := v.property
  show toInt64 (leValue (intRepresentation 8 v.val) : Int) = v.val
  rewrite [h]
  unfold toInt64
  omega

theorem doubleOfWord_leValue (v : bsonDouble) :
    doubleOfWord (leValue (objectRepresentation 8 v.val)) = v := by
  apply Subtype.ext
  have hb := v.property
  show leValue (objectRepresentation 8 v.val) % 18446744073709551616 = v.val
  rewrite [leValue_objectRepresentation]
  have e : (256 : Nat) ^ 8 = 18446744073709551616 := by norm_num
  rewrite [e]
  omega

theorem leValue_length_word (n : Nat) (h : n < 2147483648) :
    leValue (objectRepresentation 4 n) = n := by
  rewrite [leValue_objectRepresentation]
  have e : (256 : Nat) ^ 4 = 4294967296 := by norm_num
  rewrite [e]
  omega

theorem leValue_length_int (n : Nat) (h : n < 2147483648) :
    leValue (intRepresentation 4 (n : Int)) = n := by
  have h1 := leValue_intRepresentation 4 (n : Int)
  rewrite [pow_256_4] at h1
  omega

theorem fieldType_ne_zero (v : bsonValue) : fieldType v ≠ 0 := by
  cases v <;> (rewrite [fieldType]; decide)

theorem readDocument_wire (sub : List Byte → Option (bsonDocument × List Byte))
    (s : bsonDocument) (rest : List Byte) (hsub : sub (wireFields s ++ [0]) = some (s, []))
    (hsz : 4 + (wireFields s).length + 1 < 2147483648) :
    readDocument sub
      (objectRepresentation 4 (4 + (wireFields s).length + 1) ++ wireFields s ++ [0] ++ rest) =
      some (s, rest) := by
  have hb := readBytes_append (objectRepresentation 4 (4 + (wireFields s).length + 1))
    (wireFields s ++ [0] ++ rest) 4 (objectRepresentation_length _ _)
  have hl := leValue_length_word (4 + (wireFields s).length + 1) hsz
  have ht : (wireFields s ++ [0] ++ rest).take (4 + (wireFields s).length + 1 - 4) =
      wireFields s ++ [0] := by
    apply List.take_left'
    simp only [List.length_append, List.length_singleton]
    omega
  have hd : (wireFields s ++ [0] ++ rest).drop (4 + (wireFields s).length + 1 - 4) = rest := by
    apply List.drop_left'
    simp only [List.length_append, List.length_singleton]
    omega
  unfold readDocument
  simp only [List.append_assoc] at hb ht hd ⊢
  rewrite [hb]
  simp only [hl]
  rewrite [if_pos (by simp only [List.length_append, List.length_singleton]; omega), ht, hsub]
  simp only [hd]

theorem readValue_double (block : HeapPtr) (sub : List Byte → Option (bsonDocument × List Byte))
    (bytes : List Byte) :
    readValue block sub BSON_TYPE_DOUBLE bytes =
      (readBytes 8 bytes).map fun (b, rest) => (.double (doubleOfWord (leValue b)), rest) := rfl

theorem readValue_int32 (block : HeapPtr) (sub : List Byte → Option (bsonDocument × List Byte))
    (bytes : List Byte) :
    readValue block sub BSON_TYPE_INT32 bytes =
      (readBytes 4 bytes).map fun (b, rest) => (.int32 (int32OfWord (leValue b)), rest) := rfl

theorem readValue_int64 (block : HeapPtr) (sub : List Byte → Option (bsonDocument × List Byte))
    (bytes : List Byte) :
    readValue block sub BSON_TYPE_INT64 bytes =
      (readBytes 8 bytes).map fun (b, rest) => (.int64 (int64OfWord (leValue b)), rest) := rfl

theorem readValue_document (block : HeapPtr)
    (sub : List Byte → Option (bsonDocument × List Byte)) (bytes : List Byte) :
    readValue block sub BSON_TYPE_DOCUMENT bytes =
      (readDocument sub bytes).map fun (document, rest) => (.document document, rest) := rfl

theorem readValue_array (block : HeapPtr) (sub : List Byte → Option (bsonDocument × List Byte))
    (bytes : List Byte) :
    readValue block sub BSON_TYPE_ARRAY bytes =
      (readDocument sub bytes).map fun (document, rest) => (.array document, rest) := rfl

theorem readValue_null (block : HeapPtr) (sub : List Byte → Option (bsonDocument × List Byte))
    (bytes : List Byte) : readValue block sub BSON_TYPE_NULL bytes = some (.null, bytes) := rfl

theorem readValue_bool (block : HeapPtr) (sub : List Byte → Option (bsonDocument × List Byte))
    (value : Bool) (rest : List Byte) :
    readValue block sub BSON_TYPE_BOOL ((if value then 0x01 else 0x00) :: rest) =
      some (.bool value, rest) := by
  cases value <;> rfl

theorem readValue_objectId (block : HeapPtr)
    (sub : List Byte → Option (bsonDocument × List Byte)) (value : bsonObjectId)
    (rest : List Byte) :
    readValue block sub BSON_TYPE_OBJECTID (value.val ++ rest) = some (.objectId value, rest) := by
  have h12 : 12 ≤ (value.val ++ rest).length := by
    rw [List.length_append, value.property]
    omega
  have e : readValue block sub BSON_TYPE_OBJECTID (value.val ++ rest) =
      if h : 12 ≤ (value.val ++ rest).length then
        some (.objectId ⟨(value.val ++ rest).take 12, by rw [List.length_take]; omega⟩,
          (value.val ++ rest).drop 12)
      else none := rfl
  rewrite [e, dif_pos h12]
  have ht : (value.val ++ rest).take 12 = value.val := List.take_left' value.property
  have hd : (value.val ++ rest).drop 12 = rest := List.drop_left' value.property
  have hv : (⟨(value.val ++ rest).take 12, by rw [List.length_take]; omega⟩ : bsonObjectId) =
      value := Subtype.ext ht
  rewrite [hv, hd]
  rfl

theorem readValue_string (block : HeapPtr) (sub : List Byte → Option (bsonDocument × List Byte))
    (value : CStr) (rest : List Byte) (h : strlen value + 1 < 2147483648) :
    readValue block sub BSON_TYPE_STRING
      (intRepresentation 4 ((strlen value : Int) + 1) ++ value.val ++ [0] ++ rest) =
      some (.string value, rest) := by
  have e : ∀ bytes, readValue block sub BSON_TYPE_STRING bytes =
      match readBytes 4 bytes with
      | none => none
      | some (l, rest) =>
        match readCString rest with
        | none => none
        | some (s, rest) =>
          if leValue l = strlen s + 1 ∧ leValue l < 2147483648 then some (.string s, rest)
          else none := fun _ => rfl
  have hb := readBytes_append (intRepresentation 4 ((strlen value : Int) + 1))
    (value.val ++ 0 :: rest) 4 (intRepresentation_length _ _)
  have hc := readCString_append value rest
  have hl : leValue (intRepresentation 4 ((strlen value : Int) + 1)) = strlen value + 1 := by
    have := leValue_length_int (strlen value + 1) h
    rewrite [Nat.cast_add, Nat.cast_one] at this
    exact this
  rewrite [e]
  simp only [List.append_assoc, List.singleton_append]
  rewrite [hb]
  simp only [hc, hl]
  rewrite [if_pos ⟨trivial, h⟩]
  rfl

theorem readValue_wire (block : HeapPtr) (sub : List Byte → Option (bsonDocument × List Byte))
    (v : bsonValue) (rest : List Byte) (hnd : valueHasNoDate v = true)
    (hsz : (wirePayload v).length < 2147483648)
    (ih : ∀ s, (v = .document s ∨ v = .array s) → sub (wireFields s ++ [0]) = some (s, [])) :
    readValue block sub (fieldType v) (wirePayload v ++ rest) = some (v, rest) := by
  cases v with
  | double value =>
    rewrite [fieldType, wirePayload, readValue_double,
      readBytes_append _ _ 8 (objectRepresentation_length _ _)]
    simp only [Option.map_some', doubleOfWord_leValue]
  | int64 value =>
    rewrite [fieldType, wirePayload, readValue_int64,
      readBytes_append _ _ 8 (intRepresentation_length _ _)]
    simp only [Option.map_some', int64OfWord_leValue]
  | int32 value =>
    rewrite [fieldType, wirePayload, readValue_int32,
      readBytes_append _ _ 4 (intRepresentation_length _ _)]
    simp only [Option.map_some', int32OfWord_leValue]
  | string value =>
    rewrite [wirePayload] at hsz
    simp only [List.length_append, intRepresentation_length, List.length_singleton] at hsz
    have hlen : value.val.length = strlen value := rfl
    rewrite [fieldType, wirePayload]
    exact readValue_string block sub value rest (by omega)
  | document value =>
    rewrite [wirePayload] at hsz
    simp only [List.length_append, objectRepresentation_length, List.length_singleton] at hsz
    rewrite [fieldType, wirePayload, readValue_document,
      readDocument_wire sub value rest (ih value (Or.inl rfl)) hsz]
    rfl
  | array value =>
    rewrite [wirePayload] at hsz
    simp only [List.length_append, objectRepresentation_length, List.length_singleton] at hsz
    rewrite [fieldType, wirePayload, readValue_array,
      readDocument_wire sub value rest (ih value (Or.inr rfl)) hsz]
    rfl
  | objectId value =>
    rewrite [fieldType, wirePayload]
    exact readValue_objectId block sub value rest
  | bool value =>
    rewrite [fieldType, wirePayload]
    exact readValue_bool block sub value rest
  | utcDate b value =>
    rewrite [valueHasNoDate] at hnd
    cases hnd
  | null =>
    rewrite [fieldType, wirePayload, readValue_null]
    rfl

theorem readFields_wire (block : HeapPtr) (fuel : Nat) :
    ∀ (d : bsonDocument) (rest : List Byte), (wireFields d).length + 1 ≤ fuel →
      fieldsHaveNoDate d = true → wireSize d < 2147483648 →
      readFields block fuel (wireFields d ++ 0 :: rest) = some (d, rest) := by
  induction fuel with
  | zero =>
    intro d rest h
    omega
  | succ fuel ih =>
    intro d rest hk hnd hsz
    cases d with
    | nil =>
      rewrite [wireFields, List.nil_append, readFields, if_pos rfl]
      rfl
    | cons f ds =>
      obtain ⟨name, v⟩ := f
      rewrite [fieldsHaveNoDate_cons, Bool.and_eq_true] at hnd
      unfold wireSize at hsz
      rewrite [wireFields_cons] at hk hsz
      simp only [List.length_cons, List.length_append, List.length_nil] at hk hsz
      have hds := ih ds rest (by omega) hnd.2 (by unfold wireSize; omega)
      have hv : readValue block (readFields block fuel) (fieldType v)
          (wirePayload v ++ (wireFields ds ++ 0 :: rest)) =
          some (v, wireFields ds ++ 0 :: rest) := by
        apply readValue_wire block _ v _ hnd.1 (by omega)
        intro s hs
        have hnds : fieldsHaveNoDate s = true := by
          have h1 := hnd.1
          rcases hs with hs | hs
          · rewrite [hs, valueHasNoDate] at h1
            exact h1
          · rewrite [hs, valueHasNoDate] at h1
            exact h1
        have hlen : (wirePayload v).length = 4 + (wireFields s).length + 1 := by
          rcases hs with hs | hs
          · rewrite [hs, wirePayload]
            simp only [List.length_append, objectRepresentation_length, List.length_singleton]
          · rewrite [hs, wirePayload]
            simp only [List.length_append, objectRepresentation_length, List.length_singleton]
        exact ih s [] (by omega) hnds (by unfold wireSize; omega)
      have hn := readCString_append name (wirePayload v ++ (wireFields ds ++ 0 :: rest))
      rewrite [wireFields_cons]
      simp only [List.cons_append, List.append_assoc, List.singleton_append, List.nil_append]
      rewrite [readFields, if_neg (fieldType_ne_zero v), hn]
      simp only [hv, hds]

theorem bsonDecode_wire (block : HeapPtr) (d : bsonDocument)
    (hnd : fieldsHaveNoDate d = true) (hsz : wireSize d < 2147483648) :
    bsonDecode block (wireDocument d) = some (d, []) := by
  have hf := readFields_wire block (wireDocument d).length d [] (by
    unfold wireDocument
    simp only [List.length_append, objectRepresentation_length, List.length_singleton]
    omega) hnd hsz
  have h := readDocument_wire (readFields block (wireDocument d).length) d [] hf hsz
  rewrite [List.append_nil] at h
  exact h

/-- C5, counterexample. A document built by `bsonAddString` with a value of 2147483647 letters
has no encoding at all (`bsonSerialize` stops in `error`), so no reader can return its field. -/
theorem C5_document_without_encoding :
    (bsonAddString createBsonDocument sampleB (lettersA 2147483647)).1 = true ∧
    ¬ ∃ r, bsonSerialize (bsonAddString createBsonDocument sampleB (lettersA 2147483647)).2 =
      some r := by
  have hd : bsonAddString createBsonDocument sampleB (lettersA 2147483647) =
      (true, [(sampleB, .string (lettersA 2147483647))]) := by
    simp [bsonAddString, createBsonDocument, appendField, fieldNameExists, strlen, sampleB]
  have h : _serializedValue (.string (lettersA 2147483647)) = none := by
    rewrite [serializedValue_string]
    apply serializedString_none
    rewrite [strlen_lettersA]
    omega
  have hn : bsonSerialize [(sampleB, .string (lettersA 2147483647))] = none := by
    apply bsonSerialize_none
    rewrite [fieldPayloads, h]
    rfl
  rewrite [hd]
  refine ⟨rfl, ?_⟩
  rintro ⟨r, hr⟩
  rewrite [hn] at hr
  cases hr

/-- C5 (amended). Round trip with the reader `bsonDecode`, which handles the ten supported tags:
for every document (nested documents and arrays included) that holds no UTCDate field at any
depth and whose wire format has fewer than `2^31` bytes, `bsonSerialize` returns that wire
format, of that length, and reading it back succeeds, leaves no byte over, and returns the
document: the same names, tags and values in the same order. -/
theorem C5_round_trip (block : HeapPtr) (d : bsonDocument)
    (hnd : fieldsHaveNoDate d = true) (hsz : wireSize d < 2147483648) :
    ∃ r, bsonSerialize d = some r ∧ r.binaryValue = wireDocument d ∧
      r.length = r.binaryValue.length ∧ bsonDecode block r.binaryValue = some (d, []) := by
  refine ⟨⟨wireDocument d, wireSize d⟩, wire_refinement d hnd hsz, rfl, ?_,
    bsonDecode_wire block d hnd hsz⟩
  unfold wireDocument wireSize
  simp only [List.length_append, objectRepresentation_length, List.length_singleton]

/-- Witness of C5: a document with an embedded document and an embedded array. -/
theorem C5_round_trip_witness :
    (fieldsHaveNoDate sampleDocument = true ∧ wireSize sampleDocument < 2147483648) ∧
    ∃ r, bsonSerialize sampleDocument = some r ∧ r.binaryValue = wireDocument sampleDocument ∧
      r.length = r.binaryValue.length ∧
      bsonDecode sampleBlock r.binaryValue = some (sampleDocument, []) :=
  ⟨⟨by decide, by decide⟩, C5_round_trip sampleBlock sampleDocument (by decide) (by decide)⟩

/-! ## Decimal tokens and `strtol` -/

/-- The byte of a decimal digit is a digit. -/
theorem isdigit_byteOf (d : Nat) (hd : d < 10) : isdigit (byteOf (48 + d)) = true := by
  have h : (byteOf (48 + d)).val = 48 + d := by
    show (48 + d) % 256 = 48 + d
    omega
  simp only [isdigit, h, decide_eq_true_eq, Bool.decide_and, Bool.and_eq_true]
  omega

/-- The value of the byte of a decimal digit. -/
theorem val_byteOf_digit (d : Nat) (hd : d < 10) : (byteOf (48 + d)).val - 48 = d := by
  have h : (byteOf (48 + d)).val = 48 + d := by
    show (48 + d) % 256 = 48 + d
    omega
  omega

/-- Scanning a run of digits accumulates their value. -/
theorem scanDigits_append (ds rest : List Byte) (a : Nat)
    (hds : ∀ d ∈ ds, isdigit d = true) :
    scanDigits (ds ++ rest) a = scanDigits rest (ds.foldl (fun a d => a * 10 + (d.val - 48)) a) := by
  induction ds generalizing a with
  | nil => rfl
  | cons d ds ih =>
    rw [List.cons_append, scanDigits, if_pos (hds d (List.mem_cons_self _ _)), List.foldl_cons]
    exact ih _ fun x hx => hds x (List.mem_cons_of_mem _ hx)

/-- The bytes of `natDecimal` are digits. -/
theorem natDecimal_digits (fuel n : Nat) : ∀ d ∈ natDecimal fuel n, isdigit d = true := by
  induction fuel generalizing n with
  | zero => intro d hd; simp [natDecimal] at hd
  | succ fuel ih =>
    intro d hd
    rw [natDecimal] at hd
    split at hd
    · rw [List.mem_singleton] at hd
      rw [hd]; exact isdigit_byteOf n (by omega)
    · rw [List.mem_append, List.mem_singleton] at hd
      rcases hd with hd | hd
      · exact ih _ d hd
      · rw [hd]; exact isdigit_byteOf _ (Nat.mod_lt _ (by decide))

/-- The digits of `natDecimal` denote the number. -/
theorem natDecimal_value (fuel n : Nat) (h : n < fuel) :
    (natDecimal fuel n).foldl (fun a d => a * 10 + (d.val - 48)) 0 = n := by
  induction fuel generalizing n with
  | zero => omega
  | succ fuel ih =>
    rw [natDecimal]
    split
    · rename_i h10
      rw [List.foldl_cons, List.foldl_nil, val_byteOf_digit n h10]; omega
    · rw [List.foldl_append, List.foldl_cons, List.foldl_nil, ih (n / 10) (by omega),
        val_byteOf_digit _ (Nat.mod_lt _ (by decide))]
      omega

/-- A number has at least one digit. -/
theorem natDecimal_ne_nil (fuel n : Nat) : natDecimal (fuel + 1) n ≠ [] := by
  rw [natDecimal]
  split
  · exact List.cons_ne_nil _ _
  · exact List.append_ne_nil_of_right_ne_nil _ (List.cons_ne_nil _ _)

/-- Scanning the digits of a number gives the number and leaves nothing. -/
theorem scanDigits_natDecimal (n : Nat) : scanDigits (natDecimal (n + 1) n) 0 = (n, []) := by
  have h := scanDigits_append (natDecimal (n + 1) n) [] 0 (natDecimal_digits _ _)
  rw [List.append_nil, natDecimal_value _ _ (Nat.lt_succ_self n)] at h
  rw [h, scanDigits]

/-- A digit is neither white space nor a sign. -/
theorem isdigit_not_space (c : Byte) (h : isdigit c = true) :
    isspace c = false ∧ c ≠ 45 ∧ c ≠ 43 := by
  simp only [isdigit, Bool.decide_and, Bool.and_eq_true, decide_eq_true_eq] at h
  refine ⟨?_, ?_, ?_⟩
  · simp only [isspace, Bool.decide_or, Bool.decide_and, Bool.or_eq_false_iff,
      decide_eq_false_iff_not, Bool.and_eq_false_iff]
    constructor
    · intro hc; rw [hc] at h; revert h; decide
    · omega
  · intro hc; rw [hc] at h; revert h; decide
  · intro hc; rw [hc] at h; revert h; decide

/-- The value `strtol` reads from the digits of a natural number. -/
theorem strtolValue_natDecimal (n : Nat) : strtolValue (natDecimal (n + 1) n) = n := by
  obtain ⟨c, cs, hcs⟩ := List.exists_cons_of_ne_nil (natDecimal_ne_nil n n)
  have hc := isdigit_not_space c (natDecimal_digits (n + 1) n c (by rw [hcs]; exact List.mem_cons_self _ _))
  have hdrop : (natDecimal (n + 1) n).dropWhile isspace = natDecimal (n + 1) n := by
    rw [hcs, List.dropWhile_cons, hc.1]; rfl
  unfold strtolValue
  simp only [hdrop]
  have h45 : (natDecimal (n + 1) n).head? ≠ some 45 := by
    rw [hcs]; simpa using hc.2.1
  have h43 : (natDecimal (n + 1) n).head? ≠ some 43 := by
    rw [hcs]; simpa using hc.2.2
  rw [if_neg h45, if_neg (by simp [h45, h43]), scanDigits_natDecimal]

/-- The value `strtol` reads from the decimal representation of an integer. -/
theorem strtolValue_decimal (v : Int) : strtolValue (decimal v) = v := by
  unfold decimal
  split
  · rename_i hneg
    unfold strtolValue
    have hdrop : (45 :: natDecimal (v.natAbs + 1) v.natAbs).dropWhile isspace
        = 45 :: natDecimal (v.natAbs + 1) v.natAbs := by
      rw [List.dropWhile_cons]; rfl
    simp only [hdrop, List.head?_cons, true_or, if_true, List.tail_cons, scanDigits_natDecimal]
    omega
  · rename_i hpos
    rw [strtolValue_natDecimal]
    omega

/-- A value of the 64-bit range is not changed when fitted to a `long`. -/
theorem clampLong_val (v : Int) (h : -9223372036854775808 ≤ v ∧ v < 9223372036854775808) :
    (clampLong v).val = v := by
  unfold clampLong
  rw [dif_neg (by omega), dif_neg (by omega)]

/-- The call `strtol(token, NULL, 10)` on the decimal representation of a 64-bit integer. -/
theorem strtol_decimal (token : CStr) (v : Int) (htoken : token.val = decimal v)
    (h : -9223372036854775808 ≤ v ∧ v < 9223372036854775808) : (strtol token).val = v := by
  unfold strtol
  rw [htoken, strtolValue_decimal, clampLong_val v h]

/-! ## The transcoding of one token -/

/-- The function `epfGetFieldType` on a column of the schema. -/
theorem epfGetFieldType_column (file : EPFFile) (i : Nat) (field : EPFField)
    (hcount : file.fieldsCount = some file.fields.length)
    (hcol : file.fields.get? i = some field) :
    epfGetFieldType file i = .ok field.fieldType := by
  have hi : i < file.fields.length := by
    rcases Nat.lt_or_ge i file.fields.length with h | h
    · exact h
    · rw [List.get?_eq_none.mpr h] at hcol; cases hcol
  unfold epfGetFieldType
  rw [hcount, Option.getD_some, if_neg (by omega), hcol]

/-- The body of `transcodeField` for a token that is not empty. -/
theorem transcodeField_of_column (host : Host) (file : EPFFile) (j : Nat) (doc : bsonDocument)
    (i : Nat) (field : EPFField) (token : CStr)
    (hcount : file.fieldsCount = some file.fields.length)
    (hcol : file.fields.get? i = some field) (htoken : token.val ≠ []) :
    transcodeField host file j doc i token =
      (Outcome.ok field.fieldType).bind fun fieldType =>
      if fieldType = EPF_FIELDTYPE_BIGINT ∨ fieldType = EPF_FIELDTYPE_INTEGER then
        if h : -2147483648 ≤ (strtol token).val ∧ (strtol token).val ≤ 2147483647 then
          .ok (bsonAddInt32 doc field.fieldName ⟨(strtol token).val, by omega⟩).2
        else .ok (bsonAddInt64 doc field.fieldName (strtol token)).2
      else if fieldType = EPF_FIELDTYPE_BOOLEAN then
        if strncmpEq (ascii "0") token.val 1 then .ok (bsonAddBool doc field.fieldName false).2
        else .ok (bsonAddBool doc field.fieldName true).2
      else if fieldType = EPF_FIELDTYPE_VARCHAR ∨ fieldType = EPF_FIELDTYPE_LONGTEXT then
        .ok (bsonAddString doc field.fieldName token).2
      else if fieldType = EPF_FIELDTYPE_DATETIME then
        .ok (bsonAddDate doc field.fieldName (wrapInt64 ((strtol token).val * 1000))
          (host.dateBlock j i)).2
      else if fieldType = EPF_FIELDTYPE_DECIMAL then
        .ok (bsonAddDouble doc field.fieldName (host.strtod token)).2
      else .fatal := by
  have hlen : strlen token ≠ 0 := by
    unfold strlen
    exact fun h => htoken (List.length_eq_zero.mp h)
  unfold transcodeField
  simp only [hcol, if_neg hlen, epfGetFieldType_column file i field hcount hcol]

/-- A setter given a name that is not empty and not in the document appends the field. -/
theorem setter_fresh (doc : bsonDocument) (name : CStr) (hname : name.val ≠ [])
    (hfresh : fieldNameExists doc name = false) :
    (bsonAddNull doc name).2 = doc ++ [(name, .null)]
    ∧ (∀ v, (bsonAddInt32 doc name v).2 = doc ++ [(name, .int32 v)])
    ∧ (∀ v, (bsonAddInt64 doc name v).2 = doc ++ [(name, .int64 v)])
    ∧ (∀ v, (bsonAddBool doc name v).2 = doc ++ [(name, .bool v)])
    ∧ (∀ v, (bsonAddString doc name v).2 = doc ++ [(name, .string v)])
    ∧ (∀ v, (bsonAddDouble doc name v).2 = doc ++ [(name, .double v)])
    ∧ (∀ v block, (bsonAddDate doc name v block).2 = doc ++ [(name, .utcDate block v)]) := by
  have hlen : strlen name ≠ 0 := by
    unfold strlen
    exact fun h => hname (List.length_eq_zero.mp h)
  refine ⟨?_, ?_, ?_, ?_, ?_, ?_, ?_⟩
  · simp [bsonAddNull, hlen, hfresh, appendField]
  · intro v; simp [bsonAddInt32, hlen, hfresh, appendField]
  · intro v; simp [bsonAddInt64, hlen, hfresh, appendField]
  · intro v; simp [bsonAddBool, hlen, hfresh, appendField]
  · intro v; simp [bsonAddString, hlen, hfresh, appendField]
  · intro v; simp [bsonAddDouble, hlen, hfresh, appendField]
  · intro v block; simp [bsonAddDate, hlen, hfresh, appendField]

/-- C11. For a column of type Integer or BigInt and a token that is the decimal
representation of an integer `v` of the signed 64-bit range, the transcoder calls
`bsonAddInt32` with the value `v` when `-2^31 ≤ v < 2^31` and `bsonAddInt64` with the value
`v` otherwise; the call appends the field to the document when the name of the column is not
empty and not yet in the document. -/
theorem C11_integer_token_becomes_int32_or_int64 (host : Host) (file : EPFFile) (j : Nat)
    (doc : bsonDocument) (i : Nat) (field : EPFField) (token : CStr) (v : Int)
    (hcount : file.fieldsCount = some file.fields.length)
    (hcol : file.fields.get? i = some field)
    (htype : field.fieldType = EPF_FIELDTYPE_INTEGER ∨ field.fieldType = EPF_FIELDTYPE_BIGINT)
    (htoken : token.val = decimal v)
    (hv : -9223372036854775808 ≤ v ∧ v < 9223372036854775808) :
    (∀ h32 : -2147483648 ≤ v ∧ v < 2147483648,
      transcodeField host file j doc i token
          = .ok (bsonAddInt32 doc field.fieldName ⟨v, h32⟩).2
        ∧ (field.fieldName.val ≠ [] → fieldNameExists doc field.fieldName = false →
            transcodeField host file j doc i token
              = .ok (doc ++ [(field.fieldName, .int32 ⟨v, h32⟩)])))
    ∧ (¬(-2147483648 ≤ v ∧ v < 2147483648) →
      transcodeField host file j doc i token
          = .ok (bsonAddInt64 doc field.fieldName ⟨v, hv⟩).2
        ∧ (field.fieldName.val ≠ [] → fieldNameExists doc field.fieldName = false →
            transcodeField host file j doc i token
              = .ok (doc ++ [(field.fieldName, .int64 ⟨v, hv⟩)]))) := by
  have hne : token.val ≠ [] := by
    rw [htoken]; unfold decimal
    split
    · exact List.cons_ne_nil _ _
    · exact natDecimal_ne_nil _ _
  have hval := strtol_decimal token v htoken hv
  have hstep := transcodeField_of_column host file j doc i field token hcount hcol hne
  have hcase : field.fieldType = EPF_FIELDTYPE_BIGINT ∨ field.fieldType = EPF_FIELDTYPE_INTEGER :=
    htype.symm
  simp only [Outcome.bind, if_pos hcase] at hstep
  constructor
  · intro h32
    have h : -2147483648 ≤ (strtol token).val ∧ (strtol token).val ≤ 2147483647 := by
      rw [hval]; omega
    rw [dif_pos h] at hstep
    have hx : (⟨(strtol token).val, by omega⟩ : bsonInt32) = ⟨v, h32⟩ := Subtype.ext hval
    rw [hx] at hstep
    refine ⟨hstep, fun hname hfresh => ?_⟩
    rw [hstep, (setter_fresh doc field.fieldName hname hfresh).2.1]
  · intro h32
    have h : ¬(-2147483648 ≤ (strtol token).val ∧ (strtol token).val ≤ 2147483647) := by
      rw [hval]; omega
    rw [dif_neg h] at hstep
    have hx : strtol token = ⟨v, hv⟩ := Subtype.ext hval
    rw [hx] at hstep
    refine ⟨hstep, fun hname hfresh => ?_⟩
    rw [hstep, (setter_fresh doc field.fieldName hname hfresh).2.2.1]

/-- Witness of C11: the token `-42` on an Integer column and the token `2147483648` on a
BigInt column. -/
theorem C11_integer_token_becomes_int32_or_int64_witness :
    transcodeField sampleHost (columnFile EPF_FIELDTYPE_INTEGER []) 0 [] 0 (cstr "-42")
        = .ok ([] ++ [(sampleD, .int32 ⟨-42, by decide⟩)])
    ∧ transcodeField sampleHost (columnFile EPF_FIELDTYPE_BIGINT []) 0 [] 0 (cstr "2147483648")
        = .ok ([] ++ [(sampleD, .int64 ⟨2147483648, by decide⟩)]) :=
  ⟨((C11_integer_token_becomes_int32_or_int64 sampleHost (columnFile EPF_FIELDTYPE_INTEGER [])
      0 [] 0 ⟨sampleD, EPF_FIELDTYPE_INTEGER, 1, false⟩ (cstr "-42") (-42) rfl rfl (Or.inl rfl)
      (by decide) (by decide)).1 (by decide)).2 (by decide) rfl,
   ((C11_integer_token_becomes_int32_or_int64 sampleHost (columnFile EPF_FIELDTYPE_BIGINT [])
      0 [] 0 ⟨sampleD, EPF_FIELDTYPE_BIGINT, 1, false⟩ (cstr "2147483648") 2147483648 rfl rfl
      (Or.inr rfl) (by decide) (by decide)).2 (by decide)).2 (by decide) rfl⟩

/-- C12. Whatever the type of the column, an empty token makes the transcoder call
`bsonAddNull` with the name of the column, and nothing else: where that name is not empty
and not yet in the document, the document gains the Null field of that name, and only
it. -/
theorem C12_empty_token_becomes_null (host : Host) (file : EPFFile) (j : Nat)
    (doc : bsonDocument) (i : Nat) (field : EPFField) (token : CStr)
    (hcol : file.fields.get? i = some field) (htoken : token.val = []) :
    transcodeField host file j doc i token = .ok (bsonAddNull doc field.fieldName).2
    ∧ (field.fieldName.val ≠ [] → fieldNameExists doc field.fieldName = false →
        transcodeField host file j doc i token = .ok (doc ++ [(field.fieldName, .null)])) := by
  have hlen : strlen token = 0 := by
    unfold strlen; rw [htoken]; rfl
  have hstep : transcodeField host file j doc i token
      = .ok (bsonAddNull doc field.fieldName).2 := by
    unfold transcodeField
    simp only [hcol, if_pos hlen]
  refine ⟨hstep, fun hname hfresh => ?_⟩
  rw [hstep, (setter_fresh doc field.fieldName hname hfresh).1]

/-- Witness of C12: the empty token on a Boolean column and on a Decimal column. -/
theorem C12_empty_token_becomes_null_witness :
    transcodeField sampleHost (columnFile EPF_FIELDTYPE_BOOLEAN []) 0 [] 0 (cstr "")
        = .ok ([] ++ [(sampleD, .null)])
    ∧ transcodeField sampleHost (columnFile EPF_FIELDTYPE_DECIMAL []) 0 [] 0 (cstr "")
        = .ok ([] ++ [(sampleD, .null)]) :=
  ⟨(C12_empty_token_becomes_null sampleHost (columnFile EPF_FIELDTYPE_BOOLEAN []) 0 [] 0
      ⟨sampleD, EPF_FIELDTYPE_BOOLEAN, 1, false⟩ (cstr "") rfl rfl).2 (by decide) rfl,
   (C12_empty_token_becomes_null sampleHost (columnFile EPF_FIELDTYPE_DECIMAL []) 0 [] 0
      ⟨sampleD, EPF_FIELDTYPE_DECIMAL, 1, false⟩ (cstr "") rfl rfl).2 (by decide) rfl⟩

/-- C13, counterexample. On a Boolean column the token `01`, which is not the token `0`,
gives the Bool field the value false. -/
theorem C13_token_01_is_false :
    transcodeField sampleHost (columnFile EPF_FIELDTYPE_BOOLEAN []) 0 [] 0 (cstr "01")
      = .ok [(sampleD, .bool false)] := by
  rfl

/-- C13 (amended). On a Boolean column a token that is not empty makes the transcoder call
`bsonAddBool` with the value false when its first byte is `0` (so for the token `0`), and
with the value true otherwise. -/
theorem C13_boolean_token_tests_first_byte (host : Host) (file : EPFFile) (j : Nat)
    (doc : bsonDocument) (i : Nat) (field : EPFField) (token : CStr)
    (hcount : file.fieldsCount = some file.fields.length)
    (hcol : file.fields.get? i = some field)
    (htype : field.fieldType = EPF_FIELDTYPE_BOOLEAN) (htoken : token.val ≠ []) :
    transcodeField host file j doc i token
        = .ok (bsonAddBool doc field.fieldName (decide (token.val.head? ≠ some 48))).2
    ∧ (field.fieldName.val ≠ [] → fieldNameExists doc field.fieldName = false →
        transcodeField host file j doc i token
          = .ok (doc ++ [(field.fieldName, .bool (decide (token.val.head? ≠ some 48)))])) := by
  have hstep := transcodeField_of_column host file j doc i field token hcount hcol htoken
  have h1 : ¬(field.fieldType = EPF_FIELDTYPE_BIGINT ∨ field.fieldType = EPF_FIELDTYPE_INTEGER) := by
    rw [htype]; decide
  simp only [Outcome.bind, if_neg h1, if_pos htype] at hstep
  have hcmp : strncmpEq (ascii "0") token.val 1 = decide (token.val.head? = some 48) := by
    obtain ⟨c, cs, hcs⟩ := List.exists_cons_of_ne_nil htoken
    rw [hcs]
    simp only [strncmpEq, List.head?_cons, Option.some.injEq]
    have h0 : ascii "0" = [48] := by decide
    rw [h0]
    simp only [List.take_succ_cons, List.take_zero, List.cons.injEq, and_true]
    by_cases hc : c = 48
    · simp [hc]
    · have hc' : ¬((48 : Byte) = c) := fun h => hc h.symm
      simp [hc, hc']
  have hfinal : transcodeField host file j doc i token
      = .ok (bsonAddBool doc field.fieldName (decide (token.val.head? ≠ some 48))).2 := by
    rw [hstep, hcmp]
    by_cases hh : token.val.head? = some 48
    · simp [hh]
    · simp [hh]
  refine ⟨hfinal, fun hname hfresh => ?_⟩
  rw [hfinal, (setter_fresh doc field.fieldName hname hfresh).2.2.2.1]

/-- Witness of C13: the tokens `0` and `1` on a Boolean column. -/
theorem C13_boolean_token_tests_first_byte_witness :
    transcodeField sampleHost (columnFile EPF_FIELDTYPE_BOOLEAN []) 0 [] 0 (cstr "0")
        = .ok ([] ++ [(sampleD, .bool (decide ((cstr "0").val.head? ≠ some 48)))])
    ∧ transcodeField sampleHost (columnFile EPF_FIELDTYPE_BOOLEAN []) 0 [] 0 (cstr "1")
        = .ok ([] ++ [(sampleD, .bool (decide ((cstr "1").val.head? ≠ some 48)))]) :=
  ⟨(C13_boolean_token_tests_first_byte sampleHost (columnFile EPF_FIELDTYPE_BOOLEAN []) 0 [] 0
      ⟨sampleD, EPF_FIELDTYPE_BOOLEAN, 1, false⟩ (cstr "0") rfl rfl rfl (by decide)).2
      (by decide) rfl,
   (C13_boolean_token_tests_first_byte sampleHost (columnFile EPF_FIELDTYPE_BOOLEAN []) 0 [] 0
      ⟨sampleD, EPF_FIELDTYPE_BOOLEAN, 1, false⟩ (cstr "1") rfl rfl rfl (by decide)).2
      (by decide) rfl⟩

/-- A value of the 64-bit range does not wrap. -/
theorem toInt64_of_range (x : Int) (h : -9223372036854775808 ≤ x ∧ x < 9223372036854775808) :
    toInt64 x = x := by
  unfold toInt64
  omega

/-- C14. For a Datetime column and a token that is the decimal representation of an integer
`n` with `1000 * n` in the signed 64-bit range, the transcoder calls `bsonAddDate` with the
value `1000 * n`, which appends a UTCDate field of that value when the name of the column is
not empty and not yet in the document; for the token `1700000000` the value is
`1700000000000`. -/
theorem C14_datetime_token_times_1000 (host : Host) (file : EPFFile) (j : Nat)
    (doc : bsonDocument) (i : Nat) (field : EPFField)
    (hcount : file.fieldsCount = some file.fields.length)
    (hcol : file.fields.get? i = some field)
    (htype : field.fieldType = EPF_FIELDTYPE_DATETIME) :
    (∀ (token : CStr) (n : Int), token.val = decimal n →
      ∀ hn : -9223372036854775808 ≤ 1000 * n ∧ 1000 * n < 9223372036854775808,
        transcodeField host file j doc i token
            = .ok (bsonAddDate doc field.fieldName ⟨1000 * n, hn⟩ (host.dateBlock j i)).2
        ∧ (field.fieldName.val ≠ [] → fieldNameExists doc field.fieldName = false →
            transcodeField host file j doc i token
              = .ok (doc ++ [(field.fieldName,
                  .utcDate (host.dateBlock j i) ⟨1000 * n, hn⟩)])))
    ∧ transcodeField host file j doc i (cstr "1700000000")
        = .ok (bsonAddDate doc field.fieldName ⟨1700000000000, by decide⟩
            (host.dateBlock j i)).2 := by
  have hgen : ∀ (token : CStr) (n : Int), token.val = decimal n →
      ∀ hn : -9223372036854775808 ≤ 1000 * n ∧ 1000 * n < 9223372036854775808,
        transcodeField host file j doc i token
            = .ok (bsonAddDate doc field.fieldName ⟨1000 * n, hn⟩ (host.dateBlock j i)).2 := by
    intro token n htoken hn
    have hne : token.val ≠ [] := by
      rw [htoken]; unfold decimal
      split
      · exact List.cons_ne_nil _ _
      · exact natDecimal_ne_nil _ _
    have hval := strtol_decimal token n htoken (by omega)
    have hstep := transcodeField_of_column host file j doc i field token hcount hcol hne
    have h1 : ¬(field.fieldType = EPF_FIELDTYPE_BIGINT ∨ field.fieldType = EPF_FIELDTYPE_INTEGER) := by
      rw [htype]; decide
    have h2 : ¬(field.fieldType = EPF_FIELDTYPE_BOOLEAN) := by rw [htype]; decide
    have h3 : ¬(field.fieldType = EPF_FIELDTYPE_VARCHAR ∨ field.fieldType = EPF_FIELDTYPE_LONGTEXT) := by
      rw [htype]; decide
    simp only [Outcome.bind, if_neg h1, if_neg h2, if_neg h3, if_pos htype] at hstep
    have hx : wrapInt64 ((strtol token).val * 1000) = ⟨1000 * n, hn⟩ := by
      apply Subtype.ext
      show toInt64 ((strtol token).val * 1000) = 1000 * n
      rw [hval, Int.mul_comm, toInt64_of_range _ hn]
    rw [hx] at hstep
    exact hstep
  refine ⟨fun token n htoken hn => ⟨hgen token n htoken hn, fun hname hfresh => ?_⟩, ?_⟩
  · rw [hgen token n htoken hn, (setter_fresh doc field.fieldName hname hfresh).2.2.2.2.2.2]
  · exact hgen (cstr "1700000000") 1700000000 (by decide) (by decide)

/-- Witness of C14: the token `-86400` on a Datetime column. -/
theorem C14_datetime_token_times_1000_witness :
    transcodeField sampleHost (columnFile EPF_FIELDTYPE_DATETIME []) 0 [] 0 (cstr "-86400")
        = .ok ([] ++ [(sampleD, .utcDate (sampleHost.dateBlock 0 0) ⟨1000 * -86400, by decide⟩)]) :=
  (((C14_datetime_token_times_1000 sampleHost (columnFile EPF_FIELDTYPE_DATETIME []) 0 [] 0
      ⟨sampleD, EPF_FIELDTYPE_DATETIME, 1, false⟩ rfl rfl rfl).1
      (cstr "-86400") (-86400) (by decide) (by decide)).2 (by decide) rfl)

/-- C15. For a Varchar or LongText column and a token `t` that is not empty, the transcoder
calls `bsonAddString` with `t`, which appends a String field whose value is `t`, with the
same bytes in the same number, when the name of the column is not empty and not yet in the
document. -/
theorem C15_text_token_becomes_string (host : Host) (file : EPFFile) (j : Nat)
    (doc : bsonDocument) (i : Nat) (field : EPFField) (token : CStr)
    (hcount : file.fieldsCount = some file.fields.length)
    (hcol : file.fields.get? i = some field)
    (htype : field.fieldType = EPF_FIELDTYPE_VARCHAR ∨ field.fieldType = EPF_FIELDTYPE_LONGTEXT)
    (htoken : token.val ≠ []) :
    transcodeField host file j doc i token = .ok (bsonAddString doc field.fieldName token).2
    ∧ (field.fieldName.val ≠ [] → fieldNameExists doc field.fieldName = false →
        transcodeField host file j doc i token
          = .ok (doc ++ [(field.fieldName, .string token)])) := by
  have hstep := transcodeField_of_column host file j doc i field token hcount hcol htoken
  have h1 : ¬(field.fieldType = EPF_FIELDTYPE_BIGINT ∨ field.fieldType = EPF_FIELDTYPE_INTEGER) := by
    rcases htype with h | h <;> rw [h] <;> decide
  have h2 : ¬(field.fieldType = EPF_FIELDTYPE_BOOLEAN) := by
    rcases htype with h | h <;> rw [h] <;> decide
  simp only [Outcome.bind, if_neg h1, if_neg h2, if_pos htype] at hstep
  refine ⟨hstep, fun hname hfresh => ?_⟩
  rw [hstep, (setter_fresh doc field.fieldName hname hfresh).2.2.2.2.1]

/-- Witness of C15: the token `Hello` on a Varchar column and on a LongText column. -/
theorem C15_text_token_becomes_string_witness :
    transcodeField sampleHost (columnFile EPF_FIELDTYPE_VARCHAR []) 0 [] 0 sampleHello
        = .ok ([] ++ [(sampleD, .string sampleHello)])
    ∧ transcodeField sampleHost (columnFile EPF_FIELDTYPE_LONGTEXT []) 0 [] 0 sampleHello
        = .ok ([] ++ [(sampleD, .string sampleHello)]) :=
  ⟨(C15_text_token_becomes_string sampleHost (columnFile EPF_FIELDTYPE_VARCHAR []) 0 [] 0
      ⟨sampleD, EPF_FIELDTYPE_VARCHAR, 1, false⟩ sampleHello rfl rfl (Or.inl rfl)
      (by decide)).2 (by decide) rfl,
   (C15_text_token_becomes_string sampleHost (columnFile EPF_FIELDTYPE_LONGTEXT []) 0 [] 0
      ⟨sampleD, EPF_FIELDTYPE_LONGTEXT, 1, false⟩ sampleHello rfl rfl (Or.inr rfl)
      (by decide)).2 (by decide) rfl⟩

/-! ## The document of a record -/

/-- On a column of one of the seven types, with a name that is not empty and not in the
document, the transcoding of a token appends one field of that name. -/
theorem transcodeField_appends (host : Host) (file : EPFFile) (j : Nat) (doc : bsonDocument)
    (i : Nat) (field : EPFField) (token : CStr)
    (hcount : file.fieldsCount = some file.fields.length)
    (hcol : file.fields.get? i = some field)
    (htype : 1 ≤ field.fieldType ∧ field.fieldType ≤ 7)
    (hname : field.fieldName.val ≠ []) (hfresh : fieldNameExists doc field.fieldName = false) :
    ∃ value, transcodeField host file j doc i token = .ok (doc ++ [(field.fieldName, value)]) := by
  have hset := setter_fresh doc field.fieldName hname hfresh
  by_cases htoken : token.val = []
  · have hlen : strlen token = 0 := by
      unfold strlen; rw [htoken]; rfl
    refine ⟨.null, ?_⟩
    unfold transcodeField
    simp only [hcol, if_pos hlen, hset.1]
  · have hstep := transcodeField_of_column host file j doc i field token hcount hcol htoken
    simp only [Outcome.bind] at hstep
    rw [hstep]
    have hcases : field.fieldType = 1 ∨ field.fieldType = 2 ∨ field.fieldType = 3
        ∨ field.fieldType = 4 ∨ field.fieldType = 5 ∨ field.fieldType = 6
        ∨ field.fieldType = 7 := by omega
    simp only [EPF_FIELDTYPE_BIGINT, EPF_FIELDTYPE_INTEGER, EPF_FIELDTYPE_BOOLEAN,
      EPF_FIELDTYPE_VARCHAR, EPF_FIELDTYPE_DATETIME, EPF_FIELDTYPE_LONGTEXT,
      EPF_FIELDTYPE_DECIMAL]
    rcases hcases with h | h | h | h | h | h | h <;> rw [h] <;>
      simp only [Nat.reduceEqDiff, or_true, true_or, or_self, if_true, if_false,
        OfNat.ofNat_ne_one, Nat.succ_ne_self, reduceIte, Nat.reduceEqDiff]
    · split
      · exact ⟨_, by rw [hset.2.1]⟩
      · exact ⟨_, by rw [hset.2.2.1]⟩
    · split
      · exact ⟨_, by rw [hset.2.1]⟩
      · exact ⟨_, by rw [hset.2.2.1]⟩
    · split
      · exact ⟨_, by rw [hset.2.2.2.1]⟩
      · exact ⟨_, by rw [hset.2.2.2.1]⟩
    · exact ⟨_, by rw [hset.2.2.2.2.1]⟩
    · exact ⟨_, by rw [hset.2.2.2.2.2.2]⟩
    · exact ⟨_, by rw [hset.2.2.2.2.1]⟩
    · exact ⟨_, by rw [hset.2.2.2.2.2.1]⟩

/-- In a list without repetition, the element at index `i` is not among the first `i`. -/
theorem not_mem_take_of_nodup {α : Type} (l : List α) (i : Nat) (x : α) (h : l.Nodup)
    (hx : l.get? i = some x) : x ∉ l.take i := by
  induction l generalizing i with
  | nil => cases hx
  | cons a l ih =>
    cases i with
    | zero => simp
    | succ i =>
      rw [List.get?_cons_succ] at hx
      rw [List.take_succ_cons, List.mem_cons]
      rw [List.nodup_cons] at h
      rintro (hxa | hmem)
      · exact h.1 (hxa ▸ List.get?_mem hx)
      · exact ih i h.2 hx hmem

/-- The first `i + 1` elements are the first `i` and the element at index `i`. -/
theorem take_succ_of_get? {α : Type} (l : List α) (i : Nat) (x : α) (hx : l.get? i = some x) :
    l.take (i + 1) = l.take i ++ [x] := by
  induction l generalizing i with
  | nil => cases hx
  | cons a l ih =>
    cases i with
    | zero =>
      rw [List.get?_cons_zero] at hx
      cases hx
      rfl
    | succ i =>
      rw [List.get?_cons_succ] at hx
      rw [List.take_succ_cons, List.take_succ_cons, ih i hx, List.cons_append]

/-- The loop over the tokens of an entry, from a column `i` on: where the tokens that remain
are as many as the columns that remain, the document ends with one field per column. -/
theorem transcodeEntry_names (host : Host) (file : EPFFile) (j : Nat)
    (hcount : file.fieldsCount = some file.fields.length)
    (hnames : (file.fields.map EPFField.fieldName).Nodup)
    (hnonempty : ∀ f ∈ file.fields, f.fieldName.val ≠ [])
    (htypes : ∀ f ∈ file.fields, 1 ≤ f.fieldType ∧ f.fieldType ≤ 7)
    (entry : List CStr) (i : Nat) (doc : bsonDocument)
    (hlen : i + entry.length = file.fields.length)
    (hdoc : fieldNames doc = (file.fields.take i).map EPFField.fieldName) :
    ∃ result, transcodeEntry host file j entry i doc = .ok result
      ∧ fieldNames result = file.fields.map EPFField.fieldName := by
  induction entry generalizing i doc with
  | nil =>
    refine ⟨doc, rfl, ?_⟩
    rw [hdoc, List.take_of_length_le (by simp at hlen; omega)]
  | cons token rest ih =>
    have hi : i < file.fields.length := by
      rw [List.length_cons] at hlen; omega
    obtain ⟨field, hcol⟩ : ∃ field, file.fields.get? i = some field :=
      ⟨file.fields.get ⟨i, hi⟩, List.get?_eq_get hi⟩
    have hmem : field ∈ file.fields := List.get?_mem hcol
    have hcolName : (file.fields.map EPFField.fieldName).get? i = some field.fieldName := by
      rw [List.get?_eq_getElem?, List.getElem?_map, ← List.get?_eq_getElem?, hcol]; rfl
    have hfresh : fieldNameExists doc field.fieldName = false := by
      rw [Bool.eq_false_iff, Ne, fieldNameExists_iff, hdoc, List.map_take]
      exact not_mem_take_of_nodup _ i _ hnames hcolName
    obtain ⟨value, hvalue⟩ := transcodeField_appends host file j doc i field token hcount hcol
      (htypes field hmem) (hnonempty field hmem) hfresh
    have hnext : fieldNames (doc ++ [(field.fieldName, value)])
        = (file.fields.take (i + 1)).map EPFField.fieldName := by
      rw [take_succ_of_get? _ i field hcol, List.map_append]
      unfold fieldNames at hdoc ⊢
      rw [List.map_append, hdoc]
      rfl
    obtain ⟨result, hresult, hres⟩ := ih (i + 1) (doc ++ [(field.fieldName, value)])
      (by rw [List.length_cons] at hlen; omega) hnext
    refine ⟨result, ?_, hres⟩
    rw [transcodeEntry, hcount, Option.getD_some, if_neg (by omega), hvalue]
    exact hresult

/-- C16. For a schema whose field names are pairwise distinct and not empty (and whose types
are among the seven), and an entry with as many tokens as the schema has fields, the
transcoder ends with a document that has one field per column, named by the schema and in
the order of the schema.  For the schema (`id`: Integer, `name`: Varchar) and the record
`42\x01Hello`, the entry read holds the two tokens and the document is
`{id: Int32(42), name: String("Hello")}`. -/
theorem C16_one_field_per_column (host : Host) (file : EPFFile) (j : Nat) (entry : List CStr)
    (hcount : file.fieldsCount = some file.fields.length)
    (hnames : (file.fields.map EPFField.fieldName).Nodup)
    (hnonempty : ∀ f ∈ file.fields, f.fieldName.val ≠ [])
    (htypes : ∀ f ∈ file.fields, 1 ≤ f.fieldType ∧ f.fieldType ≤ 7)
    (hlen : entry.length = file.fields.length) :
    (∃ doc, transcodeEntry host file j entry 0 createBsonDocument = .ok doc
      ∧ fieldNames doc = file.fields.map EPFField.fieldName
      ∧ doc.length = file.fields.length)
    ∧ ((epfNextEntry (sampleFile (ascii "42" ++ [1] ++ ascii "Hello" ++ terminator))).bind
        fun next => Outcome.ok next.fields) = .ok (some [cstr "42", cstr "Hello"])
    ∧ transcodeEntry host (sampleFile (ascii "42" ++ [1] ++ ascii "Hello" ++ terminator)) j
        [cstr "42", cstr "Hello"] 0 createBsonDocument
        = .ok [(sampleId, .int32 sample42), (sampleName, .string sampleHello)] := by
  refine ⟨?_, by decide, by rfl⟩
  obtain ⟨doc, hdoc, hnamesDoc⟩ := transcodeEntry_names host file j hcount hnames hnonempty
    htypes entry 0 createBsonDocument (by omega) rfl
  refine ⟨doc, hdoc, hnamesDoc, ?_⟩
  have h := congrArg List.length hnamesDoc
  unfold fieldNames at h
  rw [List.length_map, List.length_map] at h
  exact h

/-- Witness of C16: the tokens `7` and the empty token, for the schema (`id`, `name`). -/
theorem C16_one_field_per_column_witness :
    ∃ doc, transcodeEntry sampleHost (sampleFile []) 0 [cstr "7", cstr ""] 0 createBsonDocument
        = .ok doc
      ∧ fieldNames doc = [sampleId, sampleName] ∧ doc.length = 2 :=
  (C16_one_field_per_column sampleHost (sampleFile []) 0 [cstr "7", cstr ""] rfl (by decide)
    (by decide) (by decide) rfl).1

/-! ## The reading of a record -/

/-- One turn of the loop of `_readRecord`. -/
theorem readLoop_cons (character : Byte) (rest record : List Byte)
    (lastCharacter : Option Byte) (consumed : Nat) :
    readLoop (character :: rest) record lastCharacter consumed =
      if character = 255 then .endOfFile (consumed + 1)
      else if record.length ≠ 0 ∧ record.length % 4096 = 0 ∧
          2147483648 ≤ record.length + 4096 then .fatal
      else if record.length ≠ 0 ∧ record.length % 4096 = 0 ∧ 0 ∉ record then .undefined
      else if character = 10 then
        match lastCharacter with
        | none => .undefined
        | some last =>
          if last = 2 then .record record (consumed + 1)
          else readLoop rest (record ++ [character]) (some character) (consumed + 1)
      else readLoop rest (record ++ [character]) (some character) (consumed + 1) := by
  rfl

/-- The loop of `_readRecord` on a record that holds neither `0x0A` nor `0xFF` and fits the
first buffer: it stores the record and the first byte of the terminator, and takes the
terminator. -/
theorem readLoop_record (r rest : List Byte) (h10 : (10 : Byte) ∉ r) (h255 : (255 : Byte) ∉ r)
    (record : List Byte) (lastCharacter : Option Byte) (consumed : Nat)
    (hlen : record.length + r.length + 1 < 4096) :
    readLoop (r ++ 2 :: 10 :: rest) record lastCharacter consumed
      = .record (record ++ r ++ [2]) (consumed + r.length + 2) := by
  induction r generalizing record lastCharacter consumed with
  | nil =>
    have hfull : ∀ k : Nat, k < 4096 → ¬(k ≠ 0 ∧ k % 4096 = 0 ∧ 2147483648 ≤ k + 4096) := by
      intro k hk; omega
    have hfull' : ∀ (l : List Byte), l.length < 4096 → ¬(l.length ≠ 0 ∧ l.length % 4096 = 0 ∧ 0 ∉ l) := by
      intro l hl h
      have := h.1; have := h.2.1
      omega
    rw [List.nil_append, readLoop_cons, if_neg (by decide), if_neg (hfull _ (by simp at hlen; omega)),
      if_neg (hfull' _ (by simp at hlen; omega)), if_neg (by decide), readLoop_cons,
      if_neg (by decide),
      if_neg (hfull _ (by rw [List.length_append]; simp at hlen ⊢; omega)),
      if_neg (hfull' _ (by rw [List.length_append]; simp at hlen ⊢; omega)), if_pos rfl]
    simp only [if_true, List.append_nil, List.length_nil, Nat.add_zero]
  | cons c r ih =>
    have hc10 : c ≠ 10 := fun h => h10 (h ▸ List.mem_cons_self _ _)
    have hc255 : c ≠ 255 := fun h => h255 (h ▸ List.mem_cons_self _ _)
    rw [List.length_cons] at hlen
    have h1 : ¬(record.length ≠ 0 ∧ record.length % 4096 = 0
        ∧ 2147483648 ≤ record.length + 4096) := by omega
    have h2 : ¬(record.length ≠ 0 ∧ record.length % 4096 = 0 ∧ 0 ∉ record) := by
      intro h
      have := h.1; have := h.2.1
      omega
    rw [List.cons_append, readLoop_cons, if_neg hc255, if_neg h1, if_neg h2, if_neg hc10,
      ih (fun h => h10 (List.mem_cons_of_mem _ h)) (fun h => h255 (List.mem_cons_of_mem _ h))
        (record ++ [c]) (some c) (consumed + 1)
        (by rw [List.length_append, List.length_singleton]; omega)]
    simp only [List.append_assoc, List.singleton_append, List.cons_append, List.nil_append,
      List.length_cons]
    congr 1
    omega

/-- The function `_readRecord` on a file whose next record is such a record `r`. -/
theorem readRecord_record (file : EPFFile) (r rest : List Byte)
    (hdrop : file.fp.contents.drop file.fp.position = r ++ 2 :: 10 :: rest)
    (h10 : (10 : Byte) ∉ r) (h255 : (255 : Byte) ∉ r) (hlen : r.length < 4095) :
    _readRecord file = .ok (some (cstrOf (r ++ [2])),
      { file with
          lastEntryOffset := file.fp.position
          fp := { file.fp with position := file.fp.position + (r.length + 2) }
          readLines := file.readLines + 1 }) := by
  unfold _readRecord
  simp only [hdrop, readLoop_record r rest h10 h255 [] none 0 (by simp; omega),
    List.nil_append, Nat.zero_add]

/-- The function `_readRecord` at the end of the file. -/
theorem readRecord_end (file : EPFFile)
    (hdrop : file.fp.contents.drop file.fp.position = []) :
    _readRecord file = .ok (none,
      { file with
          lastEntryOffset := file.fp.position
          fp := { file.fp with position := file.fp.position + 0 } }) := by
  unfold _readRecord
  simp only [hdrop, readLoop]

/-- The function `_getNextRecord` on a file whose next record is such a record `r`. -/
theorem getNextRecord_record (file : EPFFile) (r rest : List Byte)
    (fields : Option (List CStr)) (flag : Bool) (fieldsCount : Option Nat)
    (hdrop : file.fp.contents.drop file.fp.position = r ++ 2 :: 10 :: rest)
    (h10 : (10 : Byte) ∉ r) (h255 : (255 : Byte) ∉ r) (hlen : r.length < 4095)
    (hsplit : splitRecord file.fieldsCount (cstrOf (r ++ [2])) = .ok (fields, flag, fieldsCount)) :
    _getNextRecord file = .ok ⟨fields, flag,
      { file with
          lastEntryOffset := file.fp.position
          fp := { file.fp with position := file.fp.position + (r.length + 2) }
          readLines := file.readLines + 1
          fieldsCount := fieldsCount }⟩ := by
  unfold _getNextRecord
  rw [readRecord_record file r rest hdrop h10 h255 hlen]
  simp only [Outcome.bind, hsplit]

/-! ## The header -/

/-- C18, counterexample. On the four header records `id\x01name`, `primaryKey:id`,
`dbTypes:INTEGER\x01VARCHAR(255)` and `exportMode:FULL`, none of which starts with `#`,
followed by a data record, `epfInit` ends in `error(...)`: the record `primaryKey:id` has one
field where the arity is two, so `_getNextRecord` returns `NULL` for it. -/
theorem C18_header_without_marks_is_fatal :
    epfInit ⟨unmarkedHeader ++ sampleRow, 0⟩ = .fatal
    ∧ (_parseFieldNames (newFile ⟨unmarkedHeader ++ sampleRow, 0⟩)).bind
        (fun file => (_getNextRecord file).bind fun next =>
          Outcome.ok (next.fields, next.epfRecoverableReadEmpty))
        = .ok (none, true) := by
  decide

/-- Dropping the first part of a header that is followed by more bytes. -/
theorem drop_append_closed (header pre post rest : List Byte) (k : Nat)
    (h : header = pre ++ post) (hk : pre.length = k) :
    (header ++ rest).drop k = post ++ rest := by
  rw [h, List.append_assoc, List.drop_left' hk]

/-- A record that does not start with `##` fails the test of `_parseSkipComments`. -/
theorem strncmpEq_marks (r : List Byte) (h : r.take 2 ≠ ascii "##") :
    strncmpEq (cstrOf (r ++ [2])).val (ascii "##") 2 = false := by
  have hmarks : ascii "##" = [35, 35] := by decide
  rw [hmarks] at h
  unfold strncmpEq cstrOf
  rw [hmarks]
  simp only [List.take_succ_cons, List.take_zero, decide_eq_false_iff_not]
  match r, h with
  | [], _ => decide
  | [a], _ =>
    by_cases ha : a = 0
    · subst ha; decide
    · rw [List.singleton_append, List.takeWhile_cons_of_pos (by simpa using ha)]
      have h2 : List.takeWhile (fun b => decide (b ≠ 0)) [(2 : Byte)] = [2] := by decide
      rw [h2]
      intro h'
      simp only [List.take_succ_cons, List.take_zero, List.cons.injEq, and_true] at h'
      exact absurd h'.2 (by decide)
  | a :: b :: r, h =>
    simp only [List.take_succ_cons, List.take_zero] at h
    simp only [List.cons_append]
    by_cases ha : a = 0
    · subst ha; simp
    · rw [List.takeWhile_cons_of_pos (by simpa using ha)]
      by_cases hb : b = 0
      · subst hb; simp
      · rw [List.takeWhile_cons_of_pos (by simpa using hb)]
        simp only [List.take_succ_cons, List.take_zero]
        exact h

/-- The function `_getNextRecord` on a file given by its members. -/
theorem getNextRecord_members (schema : List EPFField) (known : Option Nat) (incremental : Bool)
    (contents : List Byte) (position lines entries last : Nat) (ready : Bool)
    (r rest : List Byte) (fields : Option (List CStr)) (flag : Bool) (fieldsCount : Option Nat)
    (hdrop : contents.drop position = r ++ 2 :: 10 :: rest)
    (h10 : (10 : Byte) ∉ r) (h255 : (255 : Byte) ∉ r) (hlen : r.length < 4095)
    (hsplit : splitRecord known (cstrOf (r ++ [2])) = .ok (fields, flag, fieldsCount)) :
    _getNextRecord ⟨schema, known, incremental, ⟨contents, position⟩, lines, entries, last, ready⟩
      = .ok ⟨fields, flag, ⟨schema, fieldsCount, incremental,
          ⟨contents, position + (r.length + 2)⟩, lines + 1, entries, position, ready⟩⟩ :=
  getNextRecord_record
    ⟨schema, known, incremental, ⟨contents, position⟩, lines, entries, last, ready⟩ r rest
    fields flag fieldsCount hdrop h10 h255 hlen hsplit

/-- The function `_parseFieldNames` on the sample header. -/
theorem parseFieldNames_sample (rest : List Byte) :
    _parseFieldNames ⟨[], none, false, ⟨sampleHeader ++ rest, 0⟩, 0, 0, 0, false⟩ = .ok
      ⟨[⟨sampleId, 0, 0, false⟩, ⟨sampleName, 0, 0, false⟩], some 2, false,
        ⟨sampleHeader ++ rest, 10⟩, 1, 0, 0, false⟩ := by
  have hdrop : (sampleHeader ++ rest).drop 0
      = headerNames ++ 2 :: 10 :: ((headerKey ++ terminator
          ++ (headerTypes ++ terminator ++ (headerMode ++ terminator))) ++ rest) := by
    rw [drop_append_closed sampleHeader [] (headerNames ++ 2 :: 10 :: (headerKey ++ terminator
          ++ (headerTypes ++ terminator ++ (headerMode ++ terminator)))) rest 0
        (by decide) rfl, List.append_assoc]
    rfl
  have hget := getNextRecord_members [] none false (sampleHeader ++ rest) 0 0 0 0 false
    headerNames _ (some [sampleId, sampleName]) false (some 2) hdrop (by decide) (by decide)
    (by decide) (by decide)
  have hdecl : declaredFields (some 2) (some [sampleId, sampleName])
      = .ok [⟨sampleId, 0, 0, false⟩, ⟨sampleName, 0, 0, false⟩] := by decide
  unfold _parseFieldNames
  simp only [ne_eq, not_true_eq_false, if_false, hget, Outcome.bind, hdecl]
  rfl

/-- The function `_parseIndexedFields` on the sample header. -/
theorem parseIndexedFields_sample (rest : List Byte) :
    _parseIndexedFields ⟨[⟨sampleId, 0, 0, false⟩, ⟨sampleName, 0, 0, false⟩], some 2, false,
        ⟨sampleHeader ++ rest, 10⟩, 1, 0, 0, false⟩ = .ok
      ⟨[⟨sampleId, 0, 0, true⟩, ⟨sampleName, 0, 0, false⟩], some 2, false,
        ⟨sampleHeader ++ rest, 26⟩, 2, 0, 10, false⟩ := by
  have hdrop : (sampleHeader ++ rest).drop 10
      = headerKey ++ 2 :: 10 :: ((headerTypes ++ terminator ++ (headerMode ++ terminator))
          ++ rest) := by
    rw [drop_append_closed sampleHeader (headerNames ++ terminator) (headerKey ++ 2 :: 10 ::
          (headerTypes ++ terminator ++ (headerMode ++ terminator))) rest 10
        (by decide) (by decide), List.append_assoc]
    rfl
  have hget := getNextRecord_members [⟨sampleId, 0, 0, false⟩, ⟨sampleName, 0, 0, false⟩]
    (some 2) false (sampleHeader ++ rest) 10 1 0 0 false
    headerKey _ (some [cstr "primaryKey:id"]) false (some 2) hdrop (by decide) (by decide)
    (by decide) (by decide)
  have hcore : indexedFields (some 2) [⟨sampleId, 0, 0, false⟩, ⟨sampleName, 0, 0, false⟩]
      (some [cstr "primaryKey:id"])
      = .ok [⟨sampleId, 0, 0, true⟩, ⟨sampleName, 0, 0, false⟩] := by decide
  unfold _parseIndexedFields
  simp only [ne_eq, not_true_eq_false, if_false, hget, Outcome.bind, hcore]
  rfl

/-- The function `_parseFieldsType` on the sample header. -/
theorem parseFieldsType_sample (rest : List Byte) :
    _parseFieldsType ⟨[⟨sampleId, 0, 0, true⟩, ⟨sampleName, 0, 0, false⟩], some 2, false,
        ⟨sampleHeader ++ rest, 26⟩, 2, 0, 10, false⟩ = .ok
      ⟨sampleSchema, some 2, false, ⟨sampleHeader ++ rest, 57⟩, 3, 0, 26, false⟩ := by
  have hdrop : (sampleHeader ++ rest).drop 26
      = headerTypes ++ 2 :: 10 :: ((headerMode ++ terminator) ++ rest) := by
    rw [drop_append_closed sampleHeader (headerNames ++ terminator ++ (headerKey ++ terminator))
        (headerTypes ++ 2 :: 10 :: (headerMode ++ terminator)) rest 26
        (by decide) (by decide), List.append_assoc]
    rfl
  have hget := getNextRecord_members [⟨sampleId, 0, 0, true⟩, ⟨sampleName, 0, 0, false⟩]
    (some 2) false (sampleHeader ++ rest) 26 2 0 10 false
    headerTypes _ (some [cstr "dbTypes:INTEGER", cstr "VARCHAR(255)"]) false (some 2) hdrop
    (by decide) (by decide) (by decide) (by decide)
  have hcore : typedFields (some 2) [⟨sampleId, 0, 0, true⟩, ⟨sampleName, 0, 0, false⟩]
      (some [cstr "dbTypes:INTEGER", cstr "VARCHAR(255)"]) = .ok sampleSchema := by decide
  unfold _parseFieldsType
  simp only [ne_eq, not_true_eq_false, if_false, hget, Outcome.bind, hcore]
  rfl

/-- The function `_parseExportMode` on the sample header. -/
theorem parseExportMode_sample (rest : List Byte) :
    _parseExportMode ⟨sampleSchema, some 2, false, ⟨sampleHeader ++ rest, 57⟩, 3, 0, 26, false⟩
      = .ok ⟨sampleSchema, some 2, false, ⟨sampleHeader ++ rest, 75⟩, 4, 0, 57, false⟩ := by
  have hdrop : (sampleHeader ++ rest).drop 57 = headerMode ++ 2 :: 10 :: ([] ++ rest) := by
    rw [drop_append_closed sampleHeader
        (headerNames ++ terminator ++ (headerKey ++ terminator ++ (headerTypes ++ terminator)))
        (headerMode ++ 2 :: 10 :: []) rest 57 (by decide) (by decide), List.append_assoc]
    rfl
  have hget := getNextRecord_members sampleSchema
    (some 2) false (sampleHeader ++ rest) 57 3 0 26 false
    headerMode _ (some [cstr "exportMode:FULL"]) false (some 2) hdrop
    (by decide) (by decide) (by decide) (by decide)
  have hcore : exportMode (some 2) (some [cstr "exportMode:FULL"]) = .ok false := by decide
  unfold _parseExportMode
  simp only [ne_eq, not_true_eq_false, if_false, hget, Outcome.bind, hcore]
  rfl

/-- One turn of the loop of `_parseSkipComments`. -/
theorem skipCommentsLoop_succ (fuel : Nat) (file : EPFFile) :
    skipCommentsLoop (fuel + 1) file =
      match _readRecord file with
      | .undefined => some .undefined
      | .fatal => some .fatal
      | .ok (none, file) => some (.ok file)
      | .ok (some record, file) =>
        if !strncmpEq record.val (ascii "##") 2 then
          some (.ok { file with fp := { file.fp with position := file.lastEntryOffset } })
        else skipCommentsLoop fuel file := by
  rfl

/-- The function `_parseSkipComments` after the sample header. -/
theorem parseSkipComments_sample (rest : List Byte)
    (hrest : rest = [] ∨ ∃ r rest', rest = r ++ terminator ++ rest'
      ∧ (10 : Byte) ∉ r ∧ (255 : Byte) ∉ r ∧ r.length < 4095 ∧ r.take 2 ≠ ascii "##") :
    ∃ lines,
      _parseSkipComments ⟨sampleSchema, some 2, false, ⟨sampleHeader ++ rest, 75⟩, 4, 0, 57, false⟩
        = .ok ⟨sampleSchema, some 2, false, ⟨sampleHeader ++ rest, 75⟩, lines, 0, 75, false⟩ := by
  unfold _parseSkipComments
  simp only [ne_eq, not_true_eq_false, if_false]
  rcases hrest with hnil | ⟨r, rest', hr, h10, h255, hlen, hmarks⟩
  · subst hnil
    have hend := readRecord_end
      ⟨sampleSchema, some 2, false, ⟨sampleHeader ++ [], 75⟩, 4, 0, 57, false⟩ (by decide)
    refine ⟨4, ?_⟩
    rw [skipCommentsLoop_succ, hend]
  · subst hr
    have hdrop : (sampleHeader ++ (r ++ terminator ++ rest')).drop 75 = r ++ 2 :: 10 :: rest' := by
      rw [drop_append_closed sampleHeader sampleHeader [] _ 75 (by decide) (by decide),
        List.nil_append, List.append_assoc]
      rfl
    have hread := readRecord_record
      ⟨sampleSchema, some 2, false, ⟨sampleHeader ++ (r ++ terminator ++ rest'), 75⟩, 4, 0, 57,
        false⟩ r rest' hdrop h10 h255 hlen
    refine ⟨5, ?_⟩
    rw [skipCommentsLoop_succ, hread]
    simp only [strncmpEq_marks r hmarks, Bool.not_false, if_true]

/-- C18 (amended). On the four header records `#id\x01name`, `#primaryKey:id`,
`#dbTypes:INTEGER\x01VARCHAR(255)` and `#exportMode:FULL`, each followed by the terminator,
and then either nothing or data records of which the first is shorter than 4095 bytes, holds
neither `0x0A` nor `0xFF` and does not start with `##`, `epfInit` returns a file that is
ready, positioned at the first data record, in full export mode, with exactly the two
fields `id` (Integer, indexed) and `name` (Varchar, not indexed). -/
theorem C18_header_with_marks (rest : List Byte)
    (hrest : rest = [] ∨ ∃ r rest', rest = r ++ terminator ++ rest'
      ∧ (10 : Byte) ∉ r ∧ (255 : Byte) ∉ r ∧ r.length < 4095 ∧ r.take 2 ≠ ascii "##") :
    ∃ file, epfInit ⟨sampleHeader ++ rest, 0⟩ = .ok file
      ∧ file.fields = [⟨sampleId, EPF_FIELDTYPE_INTEGER, 1, true⟩,
                       ⟨sampleName, EPF_FIELDTYPE_VARCHAR, 255, false⟩]
      ∧ file.fieldsCount = some 2 ∧ file.incremental = false ∧ file.ready = true
      ∧ file.fp = ⟨sampleHeader ++ rest, 75⟩ := by
  obtain ⟨lines, hskip⟩ := parseSkipComments_sample rest hrest
  refine ⟨⟨sampleSchema, some 2, false, ⟨sampleHeader ++ rest, 75⟩, lines, 0, 75, true⟩,
    ?_, rfl, rfl, rfl, rfl, rfl⟩
  unfold epfInit
  simp only [Outcome.bind, parseFieldNames_sample, parseIndexedFields_sample,
    parseFieldsType_sample, parseExportMode_sample, hskip]

/-- Witness of C18: the header followed by the data record `42\x01Hello`. -/
theorem C18_header_with_marks_witness :
    ∃ file, epfInit ⟨sampleHeader ++ sampleRow, 0⟩ = .ok file
      ∧ file.fields = [⟨sampleId, EPF_FIELDTYPE_INTEGER, 1, true⟩,
                       ⟨sampleName, EPF_FIELDTYPE_VARCHAR, 255, false⟩]
      ∧ file.fieldsCount = some 2 ∧ file.incremental = false ∧ file.ready = true
      ∧ file.fp = ⟨sampleHeader ++ sampleRow, 75⟩ :=
  C18_header_with_marks sampleRow
    (Or.inr ⟨ascii "42" ++ [1] ++ ascii "Hello", [], by decide, by decide, by decide, by decide,
      by decide⟩)

/-! ## Records of the wrong arity -/

/-- A sequence of two calls that returns: both have returned. -/
theorem bind_eq_ok {α β : Type} (x : Outcome α) (f : α → Outcome β) (b : β)
    (h : x.bind f = .ok b) : ∃ a, x = .ok a ∧ f a = .ok b := by
  cases x with
  | ok a => exact ⟨a, rfl, h⟩
  | fatal => cases h
  | undefined => cases h

/-- The end of `splitRecord`, for a call that sets `epfRecoverableReadEmpty`. -/
theorem skip_shape (slots counted : Nat) (arity known : Option Nat)
    (copied : Nat → Outcome (List CStr)) (fields : Option (List CStr)) (fieldsCount : Option Nat)
    (h : (if slots ≤ counted then Outcome.undefined
        else match arity with
          | none => Outcome.ok (none, true, known)
          | some k => (copied k).bind fun fs => Outcome.ok (some fs, false, some k))
      = Outcome.ok (fields, true, fieldsCount)) :
    fields = none ∧ fieldsCount = known := by
  by_cases hslots : slots ≤ counted
  · rw [if_pos hslots] at h; cases h
  · rw [if_neg hslots] at h
    cases arity with
    | none =>
      simp only at h
      cases h
      exact ⟨rfl, rfl⟩
    | some k =>
      simp only at h
      obtain ⟨fs, _, hfs⟩ := bind_eq_ok _ _ _ h
      cases hfs

/-- Where `splitRecord` sets `epfRecoverableReadEmpty`, it returns `NULL` and leaves
`fieldsCount` as it was. -/
theorem splitRecord_flag (known : Option Nat) (line : CStr) (fields : Option (List CStr))
    (fieldsCount : Option Nat)
    (h : splitRecord known line = .ok (fields, true, fieldsCount)) :
    fields = none ∧ fieldsCount = known := by
  unfold splitRecord at h
  by_cases h0 : strlen line = 0
  · rw [if_pos h0] at h; cases h
  · rw [if_neg h0] at h
    exact skip_shape _ _ _ _ _ _ _ h
/-- What `_readRecord` does to the file when it returns a record. -/
theorem readRecord_some (file file' : EPFFile) (record : CStr)
    (h : _readRecord file = .ok (some record, file')) :
    file'.readLines = file.readLines + 1 ∧ file'.readEntries = file.readEntries
      ∧ file'.fields = file.fields ∧ file'.fieldsCount = file.fieldsCount := by
  unfold _readRecord at h
  simp only at h
  split at h
  · cases h
  · cases h
  · cases h
  · injection h with h
    injection h with _ h
    subst h
    exact ⟨rfl, rfl, rfl, rfl⟩

/-- C20, counterexample. With the arity 2, the record `42` is skipped for its arity
(`NULL` is returned and `epfRecoverableReadEmpty` is set), and `readLines`, which was 5
before the record was read, is 6 after the skip. -/
theorem C20_skipped_record_is_counted :
    (sampleFile (shortRow ++ sampleRow)).readLines = 5
    ∧ (_getNextRecord (sampleFile (shortRow ++ sampleRow))).bind
        (fun next => Outcome.ok (next.fields, next.epfRecoverableReadEmpty,
          next.file.readLines, next.file.readEntries))
        = .ok (none, true, 6, 0) := by
  decide

/-- C20 (amended). A call of `_getNextRecord` that skips a record for its arity (it sets
`epfRecoverableReadEmpty`) returns `NULL`, leaves `readEntries`, the schema and the arity as
they were before the record was read, and adds one to `readLines`. -/
theorem C20_skip_adds_one_to_readLines (file : EPFFile) (next : NextRecord)
    (h : _getNextRecord file = .ok next) (hflag : next.epfRecoverableReadEmpty = true) :
    next.fields = none
    ∧ next.file.readLines = file.readLines + 1
    ∧ next.file.readEntries = file.readEntries
    ∧ next.file.fields = file.fields
    ∧ next.file.fieldsCount = file.fieldsCount := by
  unfold _getNextRecord at h
  cases hread : _readRecord file with
  | fatal => rw [hread] at h; cases h
  | undefined => rw [hread] at h; cases h
  | ok value =>
    obtain ⟨read, file'⟩ := value
    rw [hread] at h
    simp only [Outcome.bind] at h
    cases read with
    | none =>
      simp only at h
      cases h
      cases hflag
    | some line =>
      simp only at h
      cases hsplit : splitRecord file'.fieldsCount line with
      | fatal => rw [hsplit] at h; cases h
      | undefined => rw [hsplit] at h; cases h
      | ok value =>
        obtain ⟨fields, flag, fieldsCount⟩ := value
        rw [hsplit] at h
        simp only at h
        cases h
        simp only at hflag
        subst hflag
        obtain ⟨hfields, hcount⟩ := splitRecord_flag _ _ _ _ hsplit
        obtain ⟨h1, h2, h3, h4⟩ := readRecord_some file file' line hread
        exact ⟨hfields, h1, h2, h3, hcount.trans h4⟩

/-- Witness of C20: the record `42` read with the arity 2. -/
theorem C20_skip_adds_one_to_readLines_witness :
    ∃ next, _getNextRecord (sampleFile (shortRow ++ sampleRow)) = .ok next
      ∧ next.fields = none
      ∧ next.file.readLines = (sampleFile (shortRow ++ sampleRow)).readLines + 1
      ∧ next.file.readEntries = (sampleFile (shortRow ++ sampleRow)).readEntries
      ∧ next.file.fields = (sampleFile (shortRow ++ sampleRow)).fields
      ∧ next.file.fieldsCount = (sampleFile (shortRow ++ sampleRow)).fieldsCount :=
  ⟨⟨none, true, { sampleFile (shortRow ++ sampleRow) with
      fp := ⟨shortRow ++ sampleRow, 4⟩, readLines := 6 }⟩, by decide,
    C20_skip_adds_one_to_readLines (sampleFile (shortRow ++ sampleRow))
      ⟨none, true, { sampleFile (shortRow ++ sampleRow) with
        fp := ⟨shortRow ++ sampleRow, 4⟩, readLines := 6 }⟩ (by decide) rfl⟩

/-- C19 (the code at the failing input). With the arity 2, the record `a\x01b\x01c\x01d` has four fields;
`_getNextRecord` stores `separatorMarkers[3]` in a block of three slots before it compares
the arity, and the transcoder that reads a stream with this record has no defined output.
A record of three fields is skipped. -/
theorem C19_wide_record_overruns_separatorMarkers :
    _getNextRecord (sampleFile (wideRow ++ sampleRow)) = .undefined
    ∧ _writeEpfInBson sampleHost (sampleFile (wideRow ++ sampleRow)) = .undefined
    ∧ (_getNextRecord (sampleFile
          (ascii "a" ++ [1] ++ ascii "b" ++ [1] ++ ascii "c" ++ terminator))).bind
        (fun next => Outcome.ok (next.fields, next.epfRecoverableReadEmpty))
        = .ok (none, true) := by
  decide

/-- C17 (the code at the failing input). On the stream of the records `42\x01Hello`, `a\x01b\x01c\x01d` and
`42\x01Hello`, with the arity 2, `_writeEpfInBson` has no defined output: the second record
makes `_getNextRecord` write past the block `separatorMarkers`.  Without that record the
output is the encoding of the document of the first record, twice. -/
theorem C17_wide_record_in_stream :
    _writeEpfInBson sampleHost (sampleFile (sampleRow ++ wideRow ++ sampleRow)) = .undefined
    ∧ (bsonSerialize [(sampleId, .int32 sample42), (sampleName, .string sampleHello)]).bind
        (fun serialized => some (Outcome.ok
          (serialized.binaryValue ++ serialized.binaryValue)))
        = some (_writeEpfInBson sampleHost (sampleFile (sampleRow ++ sampleRow))) := by
  decide

/-! ## Termination of the reading loops -/

/-- The loop of `_readRecord` takes at least one byte, and no more than remain, when it
returns a record. -/
theorem readLoop_consumed (l record : List Byte) (lastCharacter : Option Byte) (consumed : Nat)
    (r : List Byte) (c : Nat) (h : readLoop l record lastCharacter consumed = .record r c) :
    consumed < c ∧ c ≤ consumed + l.length := by
  induction l generalizing record lastCharacter consumed with
  | nil => cases h
  | cons character rest ih =>
    rw [readLoop_cons] at h
    rw [List.length_cons]
    split at h
    · cases h
    · split at h
      · cases h
      · split at h
        · cases h
        · split at h
          · split at h
            · cases h
            · split at h
              · cases h
                omega
              · have := ih _ _ _ h
                omega
          · have := ih _ _ _ h
            omega

/-- A call of `_readRecord` that returns a record leaves the file shorter. -/
theorem readRecord_advance (file file' : EPFFile) (record : CStr)
    (h : _readRecord file = .ok (some record, file')) :
    file'.fp.contents.length - file'.fp.position
      < file.fp.contents.length - file.fp.position := by
  unfold _readRecord at h
  simp only at h
  split at h
  · cases h
  · cases h
  · cases h
  · rename_i r c hloop
    have hc := readLoop_consumed _ _ _ _ _ _ hloop
    rw [List.length_drop] at hc
    injection h with h
    injection h with _ h
    subst h
    show file.fp.contents.length - (file.fp.position + c)
      < file.fp.contents.length - file.fp.position
    omega

/-- The loop of `_parseSkipComments` ends within as many turns as bytes remain, plus one. -/
theorem skipCommentsLoop_terminates (fuel : Nat) (file : EPFFile)
    (h : file.fp.contents.length - file.fp.position < fuel) :
    ∃ outcome, skipCommentsLoop fuel file = some outcome := by
  induction fuel generalizing file with
  | zero => omega
  | succ fuel ih =>
    rw [skipCommentsLoop_succ]
    cases hread : _readRecord file with
    | fatal => exact ⟨_, rfl⟩
    | undefined => exact ⟨_, rfl⟩
    | ok value =>
      obtain ⟨read, file'⟩ := value
      cases read with
      | none => exact ⟨_, rfl⟩
      | some record =>
        simp only
        split
        · exact ⟨_, rfl⟩
        · exact ih file' (by have := readRecord_advance file file' record hread; omega)

/-- The function `_parseSkipComments` ends: its loop is given turns enough. -/
theorem parseSkipComments_terminates (file : EPFFile) :
    ∃ outcome, skipCommentsLoop (file.fp.contents.length - file.fp.position + 1) file
      = some outcome :=
  skipCommentsLoop_terminates _ file (Nat.lt_succ_self _)

/-- A call of `epfNextEntry` that returns an entry or skips a record leaves the file
shorter. -/
theorem epfNextEntry_advance (file : EPFFile) (next : NextRecord)
    (h : epfNextEntry file = .ok next)
    (hread : next.epfRecoverableReadEmpty = true ∨ next.fields ≠ none) :
    next.file.fp.contents.length - next.file.fp.position
      < file.fp.contents.length - file.fp.position := by
  unfold epfNextEntry at h
  split at h
  · cases h
  · unfold _getNextRecord at h
    obtain ⟨⟨read, file'⟩, hrec, hnext⟩ := bind_eq_ok _ _ _ h
    cases read with
    | none =>
      simp only at hnext
      cases hnext
      rcases hread with hflag | hfields
      · cases hflag
      · exact absurd rfl hfields
    | some line =>
      simp only at hnext
      obtain ⟨⟨fields, flag, fieldsCount⟩, _, hok⟩ := bind_eq_ok _ _ _ hnext
      cases hok
      exact readRecord_advance file file' line hrec

/-- One turn of the read loop of `_writeEpfInBson`. -/
theorem writeLoop_succ (host : Host) (fuel : Nat) (file : EPFFile) (written : List Byte)
    (j : Nat) :
    writeLoop host (fuel + 1) file written j =
      match epfNextEntry file with
      | .undefined => some .undefined
      | .fatal => some .fatal
      | .ok next =>
        match next.fields with
        | none =>
          if next.epfRecoverableReadEmpty then writeLoop host fuel next.file written j
          else some (.ok written)
        | some entry =>
          if next.epfRecoverableReadEmpty then writeLoop host fuel next.file written j
          else match writeEntry host next.file j entry with
            | .undefined => some .undefined
            | .fatal => some .fatal
            | .ok bytes => writeLoop host fuel next.file (written ++ bytes) (j + 1) := by
  rfl

/-- The read loop of `_writeEpfInBson` ends within as many turns as bytes remain, plus
one. -/
theorem writeLoop_terminates (host : Host) (fuel : Nat) (file : EPFFile) (written : List Byte)
    (j : Nat) (h : file.fp.contents.length - file.fp.position < fuel) :
    ∃ outcome, writeLoop host fuel file written j = some outcome := by
  induction fuel generalizing file written j with
  | zero => omega
  | succ fuel ih =>
    rw [writeLoop_succ]
    cases hnext : epfNextEntry file with
    | fatal => exact ⟨_, rfl⟩
    | undefined => exact ⟨_, rfl⟩
    | ok next =>
      simp only
      cases hfields : next.fields with
      | none =>
        simp only
        by_cases hflag : next.epfRecoverableReadEmpty = true
        · rw [if_pos hflag]
          exact ih next.file written j
            (by have := epfNextEntry_advance file next hnext (Or.inl hflag); omega)
        · rw [if_neg hflag]
          exact ⟨_, rfl⟩
      | some entry =>
        simp only
        have hadv := epfNextEntry_advance file next hnext
          (Or.inr (by rw [hfields]; exact Option.some_ne_none _))
        by_cases hflag : next.epfRecoverableReadEmpty = true
        · rw [if_pos hflag]
          exact ih next.file written j (by omega)
        · rw [if_neg hflag]
          cases writeEntry host next.file j entry with
          | fatal => exact ⟨_, rfl⟩
          | undefined => exact ⟨_, rfl⟩
          | ok bytes => exact ih next.file (written ++ bytes) (j + 1) (by omega)

/-- The function `_writeEpfInBson` ends: its read loop is given turns enough. -/
theorem writeEpfInBson_terminates (host : Host) (file : EPFFile) :
    ∃ outcome, writeLoop host (file.fp.contents.length - file.fp.position + 1) file [] 0
        = some outcome
      ∧ _writeEpfInBson host file = outcome := by
  obtain ⟨outcome, h⟩ := writeLoop_terminates host _ file [] 0 (Nat.lt_succ_self _)
  refine ⟨outcome, h, ?_⟩
  unfold _writeEpfInBson
  rw [h]

/-! ## The terminator of a record -/

/-- The loop of `_readRecord` on a record that holds no terminator and no `0xFF`, fits the
first buffer, and starts with `0x0A` only where `lastCharacter` is assigned and is not
`0x02`: it stores the record and the first byte of the terminator, and takes the
terminator. -/
theorem readLoop_terminated (r rest : List Byte) (hpair : hasTerminator r = false)
    (h255 : (255 : Byte) ∉ r) (record : List Byte) (lastCharacter : Option Byte)
    (consumed : Nat)
    (hfirst : r.head? = some 10 → ∃ last, lastCharacter = some last ∧ last ≠ 2)
    (hlen : record.length + r.length + 1 < 4096) :
    readLoop (r ++ 2 :: 10 :: rest) record lastCharacter consumed
      = .record (record ++ r ++ [2]) (consumed + r.length + 2) := by
  induction r generalizing record lastCharacter consumed with
  | nil =>
    exact readLoop_record [] rest (List.not_mem_nil _) (List.not_mem_nil _) record
      lastCharacter consumed hlen
  | cons c r ih =>
    have hc255 : c ≠ 255 := fun h => h255 (h ▸ List.mem_cons_self _ _)
    rw [List.length_cons] at hlen
    have h1 : ¬(record.length ≠ 0 ∧ record.length % 4096 = 0
        ∧ 2147483648 ≤ record.length + 4096) := by omega
    have h2 : ¬(record.length ≠ 0 ∧ record.length % 4096 = 0 ∧ 0 ∉ record) := by
      intro h
      have := h.1; have := h.2.1
      omega
    have hpair' : hasTerminator r = false := by
      cases r with
      | nil => rfl
      | cons b r =>
        rw [hasTerminator, Bool.or_eq_false_iff] at hpair
        exact hpair.2
    have hnext : r.head? = some 10 → ∃ last, some c = some last ∧ last ≠ 2 := by
      intro hr
      refine ⟨c, rfl, ?_⟩
      cases r with
      | nil => cases hr
      | cons b r =>
        rw [List.head?_cons, Option.some.injEq] at hr
        rw [hasTerminator, Bool.or_eq_false_iff] at hpair
        intro hc
        have := hpair.1
        rw [hr, hc] at this
        revert this
        decide
    have hrec := ih hpair' (fun h => h255 (List.mem_cons_of_mem _ h)) (record ++ [c]) (some c)
      (consumed + 1) hnext (by rw [List.length_append, List.length_singleton]; omega)
    have hgoal : ReadLoopEnd.record (record ++ [c] ++ r ++ [2]) (consumed + 1 + r.length + 2)
        = .record (record ++ c :: r ++ [2]) (consumed + (c :: r).length + 2) := by
      simp only [List.append_assoc, List.singleton_append, List.cons_append, List.nil_append,
        List.length_cons]
      congr 1
      omega
    rw [List.cons_append, readLoop_cons, if_neg hc255, if_neg h1, if_neg h2]
    by_cases hc10 : c = 10
    · obtain ⟨last, hlast, hne⟩ := hfirst (by rw [List.head?_cons, hc10])
      rw [if_pos hc10, hlast]
      simp only [if_neg hne]
      rw [hrec, hgoal]
    · rw [if_neg hc10, hrec, hgoal]

/-- The C string of bytes that hold no NUL is these bytes. -/
theorem cstrOf_val_of_not_mem (bytes : List Byte) (h : (0 : Byte) ∉ bytes) :
    (cstrOf bytes).val = bytes := by
  unfold cstrOf
  show List.takeWhile (fun b => decide (b ≠ 0)) bytes = bytes
  rw [List.takeWhile_eq_self_iff]
  intro b hb
  have hb0 : b ≠ 0 := fun hb0 => h (hb0 ▸ hb)
  simpa using hb0

/-- The function `_readRecord` on a file whose next record is shorter than 4095 bytes, holds
no terminator and no `0xFF`, and does not start with `0x0A`. -/
theorem readRecord_terminated (file : EPFFile) (r rest : List Byte)
    (hdrop : file.fp.contents.drop file.fp.position = r ++ terminator ++ rest)
    (hpair : hasTerminator r = false) (h255 : (255 : Byte) ∉ r)
    (hfirst : r.head? ≠ some 10) (hlen : r.length < 4095) :
    _readRecord file = .ok (some (cstrOf (r ++ [2])),
      { file with
          lastEntryOffset := file.fp.position
          fp := { file.fp with position := file.fp.position + (r.length + 2) }
          readLines := file.readLines + 1 }) := by
  have hdrop' : file.fp.contents.drop file.fp.position = r ++ 2 :: 10 :: rest := by
    rw [hdrop, List.append_assoc]; rfl
  unfold _readRecord
  simp only [hdrop', readLoop_terminated r rest hpair h255 [] none 0
    (fun h => absurd h hfirst) (by simp; omega), List.nil_append, Nat.zero_add]

/-- C21, counterexample. On the stream `42` followed by the terminator, `_readRecord`
returns the three bytes `42\x02`: the record holds the first byte of the terminator. -/
theorem C21_record_keeps_first_terminator_byte :
    (_readRecord (sampleFile (ascii "42" ++ terminator ++ sampleRow))).bind
        (fun read => Outcome.ok (read.1.map fun record => record.val))
      = .ok (some (ascii "42" ++ [2])) := by
  decide

/-- C21 (amended). For a stream `r ++ [0x02, 0x0A] ++ rest` in which `r` is shorter than 4095
bytes, holds no `0x02 0x0A` pair and no byte `0xFF` and does not start with `0x0A`,
`_readRecord` takes exactly `r` and the two bytes of the terminator, leaves `rest` unread,
adds one to `readLines`, and returns the C string of `r` followed by the byte `0x02`: where
`r` holds no NUL, the bytes of `r` and then `0x02`.  A `0x0A` in `r` does not end the
record. -/
theorem C21_readRecord_terminated (file : EPFFile) (r rest : List Byte)
    (hdrop : file.fp.contents.drop file.fp.position = r ++ terminator ++ rest)
    (hpair : hasTerminator r = false) (h255 : (255 : Byte) ∉ r)
    (hfirst : r.head? ≠ some 10) (hlen : r.length < 4095) :
    _readRecord file = .ok (some (cstrOf (r ++ [2])),
      { file with
          lastEntryOffset := file.fp.position
          fp := { file.fp with position := file.fp.position + (r.length + 2) }
          readLines := file.readLines + 1 })
    ∧ file.fp.contents.drop (file.fp.position + (r.length + 2)) = rest
    ∧ ((0 : Byte) ∉ r → (cstrOf (r ++ [2])).val = r ++ [2]) := by
  have hdrop' : file.fp.contents.drop file.fp.position = r ++ 2 :: 10 :: rest := by
    rw [hdrop, List.append_assoc]; rfl
  refine ⟨readRecord_terminated file r rest hdrop hpair h255 hfirst hlen, ?_, ?_⟩
  · rw [← List.drop_drop, hdrop']
    have : r ++ 2 :: 10 :: rest = (r ++ [2, 10]) ++ rest := by simp
    rw [this, List.drop_left' (by simp)]
  · intro h0
    apply cstrOf_val_of_not_mem
    intro h
    rw [List.mem_append, List.mem_singleton] at h
    rcases h with h | h
    · exact h0 h
    · exact absurd h (by decide)

/-- Witness of C21: the record `4\x0A2`, which holds a line feed, before the record
`42\x01Hello`. -/
theorem C21_readRecord_terminated_witness :
    _readRecord (sampleFile ([52, 10, 50] ++ terminator ++ sampleRow))
      = .ok (some (cstrOf ([52, 10, 50] ++ [2])),
          { sampleFile ([52, 10, 50] ++ terminator ++ sampleRow) with
              lastEntryOffset := 0
              fp := ⟨[52, 10, 50] ++ terminator ++ sampleRow, 0 + (3 + 2)⟩
              readLines := 5 + 1 })
    ∧ ([52, 10, 50] ++ terminator ++ sampleRow).drop (0 + (3 + 2)) = sampleRow
    ∧ ((0 : Byte) ∉ [(52 : Byte), 10, 50] → (cstrOf ([52, 10, 50] ++ [2])).val = [52, 10, 50] ++ [2]) :=
  C21_readRecord_terminated (sampleFile ([52, 10, 50] ++ terminator ++ sampleRow)) [52, 10, 50]
    sampleRow rfl (by decide) (by decide) (by decide) (by decide)

/-! ## The end of the stream -/

/-- The loop of `_readRecord` on a run of the letter `A` that fills the first buffer and goes
one byte beyond: at that byte the buffer is grown with `strcpy` from a block of 4096 bytes
that holds no NUL. -/
theorem readLoop_full (k : Nat) (record : List Byte) (lastCharacter : Option Byte)
    (consumed : Nat) (hrecord : (0 : Byte) ∉ record) (hlen : record.length + k = 4096) :
    readLoop (List.replicate (k + 1) 0x41) record lastCharacter consumed = .undefined := by
  induction k generalizing record lastCharacter consumed with
  | zero =>
    have h4096 : record.length = 4096 := hlen
    rw [List.replicate_succ, readLoop_cons, if_neg (by decide), if_neg, if_pos]
    · exact ⟨by rw [h4096]; decide, by rw [h4096], hrecord⟩
    · rw [h4096]
      decide
  | succ k ih =>
    have hmod : ¬ (record.length ≠ 0 ∧ record.length % 4096 = 0 ∧ (0 : Byte) ∉ record) := by
      rintro ⟨h0, hm, _⟩
      rw [Nat.mod_eq_of_lt (by omega)] at hm
      exact h0 hm
    have hfatal : ¬ (record.length ≠ 0 ∧ record.length % 4096 = 0 ∧
        2147483648 ≤ record.length + 4096) := by
      rintro ⟨_, _, h⟩
      omega
    rw [List.replicate_succ, readLoop_cons, if_neg (by decide), if_neg hfatal, if_neg hmod,
      if_neg (by decide)]
    apply ih
    · rw [List.mem_append, List.mem_singleton]
      rintro (h | h)
      · exact hrecord h
      · exact absurd h (by decide)
    · rw [List.length_append, List.length_singleton]
      omega

/-- C22 (the code at the failing inputs). When the bytes left in the file are 4097 letters
`A` without a terminator, `_readRecord` grows its buffer at the last of them with `strcpy`
from a block of 4096 bytes that holds no NUL; when they are the single byte `0x0A` (a line
feed after the last terminator), it compares `lastCharacter` with `0x02` before any value
was assigned to it.  In both cases neither it nor, for the second, the transcoder that
reaches this tail has a defined result.  On the tail `abc`, `_readRecord` returns `NULL` with
`readLines` unchanged and the transcoder writes the document of the record before it and
nothing more. -/
theorem C22_unterminated_tail_without_defined_result :
    _readRecord (sampleFile (List.replicate 4097 0x41)) = .undefined
    ∧ _readRecord (sampleFile [10]) = .undefined
    ∧ _writeEpfInBson sampleHost (sampleFile (sampleRow ++ [10])) = .undefined
    ∧ (_readRecord (sampleFile (ascii "abc"))).bind
        (fun read => Outcome.ok (read.1, read.2.readLines)) = .ok (none, 5)
    ∧ _writeEpfInBson sampleHost (sampleFile (sampleRow ++ ascii "abc"))
        = _writeEpfInBson sampleHost (sampleFile sampleRow) := by
  refine ⟨?_, by decide, by decide, by decide, by decide⟩
  unfold _readRecord
  have h := readLoop_full 4096 [] none 0 (List.not_mem_nil _) rfl
  have hdrop : (sampleFile (List.replicate 4097 0x41)).fp.contents.drop
      (sampleFile (List.replicate 4097 0x41)).fp.position = List.replicate (4096 + 1) 0x41 := rfl
  simp only [hdrop, h]

/-! ## The fields of a record -/

/-- The C string of the bytes of a C string is that C string. -/
theorem cstrOf_val (s : CStr) : cstrOf s.val = s :=
  Subtype.ext (cstrOf_val_of_not_mem s.val fun h => s.property 0 h rfl)

/-- The scan for separators passes over bytes that hold none. -/
theorem separatorOffsets_field (field rest : List Byte) (position : Nat)
    (h : (1 : Byte) ∉ field) :
    separatorOffsets (field ++ rest) position
      = separatorOffsets rest (position + field.length) := by
  induction field generalizing position with
  | nil => rfl
  | cons c field ih =>
    have hc : c ≠ EPFSeparator := fun hc => h (hc ▸ List.mem_cons_self _ _)
    rw [List.cons_append, separatorOffsets, if_neg hc,
      ih (position + 1) (fun hm => h (List.mem_cons_of_mem _ hm)), List.length_cons]
    congr 1
    omega

/-- The scan for separators on the end of a record finds none. -/
theorem separatorOffsets_end (position : Nat) : separatorOffsets [2] position = [] := by
  rw [separatorOffsets, if_neg (by decide), separatorOffsets]

/-- The markers that the scan of `_getNextRecord` stores for a record of fields joined by
the separator are the offsets at which the fields start. -/
theorem separatorOffsets_joinFields (fields : List (List Byte)) (position : Nat)
    (hne : fields ≠ []) (hsep : ∀ f ∈ fields, (1 : Byte) ∉ f) :
    position :: separatorOffsets (joinFields fields ++ [2]) position
      = fieldStarts fields position := by
  induction fields generalizing position with
  | nil => exact absurd rfl hne
  | cons f rest ih =>
    cases rest with
    | nil =>
      rw [joinFields, separatorOffsets_field f [2] position (hsep f (List.mem_cons_self _ _)),
        separatorOffsets_end]
      rfl
    | cons g rest =>
      rw [joinFields, List.append_assoc, List.cons_append,
        separatorOffsets_field f _ position (hsep f (List.mem_cons_self _ _)),
        separatorOffsets, if_pos rfl, fieldStarts,
        ih (position + f.length + 1) (List.cons_ne_nil _ _)
          (fun x hx => hsep x (List.mem_cons_of_mem _ hx))]

/-- There are as many offsets as fields. -/
theorem fieldStarts_length (fields : List (List Byte)) (position : Nat) :
    (fieldStarts fields position).length = fields.length := by
  induction fields generalizing position with
  | nil => rfl
  | cons f rest ih => rw [fieldStarts, List.length_cons, List.length_cons, ih]

/-- The element that follows a list `l` in `l ++ x :: rest`. -/
theorem getD_append_length {α : Type} (l rest : List α) (x d : α) :
    (l ++ x :: rest).getD l.length d = x := by
  induction l with
  | nil => rfl
  | cons a l ih => exact ih

/-- The loop of `_getNextRecord` that copies the fields, from the field at offset
`position` on: it copies each field without the separator or the `0x02` that follows
it. -/
theorem copyFields_fields (fields : List CStr) (body : List Byte) (markers : List Nat)
    (position countedFields : Nat) (hne : fields ≠ [])
    (hbody : body.drop position = joinFields (fieldBytes fields) ++ [2])
    (hcount : countedFields + 1 = markers.length + fields.length) :
    copyFields body (markers ++ fieldStarts (fieldBytes fields) position) countedFields
      (List.range' markers.length fields.length) = .ok fields := by
  induction fields generalizing markers position with
  | nil => exact absurd rfl hne
  | cons f rest ih =>
    have htake : ∀ tail : List Byte, (f.val ++ tail).take (f.val.length + 1 - 1) = f.val := by
      intro tail
      rw [Nat.add_sub_cancel, List.take_left' rfl]
    cases rest with
    | nil =>
      have hlast : markers.length = countedFields := by
        rw [List.length_singleton] at hcount; omega
      have hlength : body.length - position = f.val.length + 1 := by
        rw [← List.length_drop, hbody]
        simp [fieldBytes, joinFields]
      have hdrop : body.drop position = f.val ++ [2] := hbody
      show copyFields body (markers ++ position :: []) countedFields [markers.length]
        = .ok [f]
      rw [copyFields]
      simp only [hlast.symm, if_true, getD_append_length, hlength, copyField,
        Nat.add_one_ne_zero, if_false, hdrop, htake, cstrOf_val, Outcome.bind, copyFields]
    | cons g rest =>
      have hnot : markers.length ≠ countedFields := by
        rw [List.length_cons, List.length_cons] at hcount; omega
      have hdrop : body.drop position
          = f.val ++ EPFSeparator :: (joinFields (fieldBytes (g :: rest)) ++ [2]) := by
        rw [hbody]
        simp [fieldBytes, joinFields]
      have hnextM : (markers ++ position :: fieldStarts (fieldBytes (g :: rest))
            (position + f.val.length + 1)).getD (markers.length + 1) 0
          = position + f.val.length + 1 := by
        have h := getD_append_length (markers ++ [position])
          (fieldStarts (fieldBytes rest) (position + f.val.length + 1 + g.val.length + 1))
          (position + f.val.length + 1) 0
        rw [List.length_append, List.length_singleton, List.append_assoc,
          List.singleton_append] at h
        exact h
      have hrest := ih (markers ++ [position]) (position + f.val.length + 1)
        (List.cons_ne_nil _ _)
        (by
          rw [Nat.add_assoc, ← List.drop_drop, hdrop,
            show f.val ++ EPFSeparator :: (joinFields (fieldBytes (g :: rest)) ++ [2])
              = (f.val ++ [EPFSeparator]) ++ (joinFields (fieldBytes (g :: rest)) ++ [2])
              by simp,
            List.drop_left' (by simp)])
        (by
          rw [List.length_append, List.length_singleton]
          rw [List.length_cons] at hcount
          omega)
      rw [List.append_assoc, List.singleton_append, List.length_append,
        List.length_singleton] at hrest
      show copyFields body (markers ++ position :: fieldStarts (fieldBytes (g :: rest))
          (position + f.val.length + 1)) countedFields
          (markers.length :: List.range' (markers.length + 1) (g :: rest).length)
        = .ok (f :: g :: rest)
      rw [copyFields]
      simp only [if_neg hnot, getD_append_length, hnextM, copyField]
      rw [show position + f.val.length + 1 - position = f.val.length + 1 by omega]
      simp only [Nat.add_one_ne_zero, if_false, hdrop, htake, cstrOf_val, Outcome.bind, hrest]

/-- The fields that `_getNextRecord` copies from a record made of fields joined by the
separator, by either of its two branches. -/
theorem copied_fields (tokens : List CStr) (hne : tokens ≠ []) (bound : Nat)
    (hbound : tokens.length - 1 ≤ bound) :
    (if tokens.length - 1 ≠ 0 then
        copyFields (joinFields (fieldBytes tokens) ++ [2]) (fieldStarts (fieldBytes tokens) 0)
          (tokens.length - 1) (List.range (min bound (tokens.length - 1) + 1))
      else (copyField (joinFields (fieldBytes tokens) ++ [2]) 0
          (joinFields (fieldBytes tokens) ++ [2]).length).bind fun field => Outcome.ok [field])
      = .ok tokens := by
  have hpos : 0 < tokens.length := List.length_pos.mpr hne
  by_cases hone : tokens.length - 1 ≠ 0
  · have hcopy := copyFields_fields tokens (joinFields (fieldBytes tokens) ++ [2]) [] 0
      (tokens.length - 1) hne rfl (by simp; omega)
    rw [List.nil_append, List.length_nil, ← List.range_eq_range'] at hcopy
    rw [if_pos hone, Nat.min_eq_right hbound,
      show tokens.length - 1 + 1 = tokens.length by omega, hcopy]
  · rw [if_neg hone]
    match tokens, hne with
    | [f], _ =>
      have hjoin : joinFields (fieldBytes [f]) ++ [2] = f.val ++ [2] := rfl
      rw [hjoin, copyField, List.length_append, List.length_singleton,
        if_neg (Nat.add_one_ne_zero _), List.drop_zero, Nat.add_sub_cancel,
        List.take_left' rfl, cstrOf_val]
      rfl
    | f :: g :: rest, _ =>
      simp at hone

/-- The part of `_getNextRecord` that follows `_readRecord`, on a record made of fields
joined by the separator (after a `#` where `marked`): where the block `separatorMarkers` has
a slot for every field, and the number of fields is the arity unless the record is marked,
it returns the fields. -/
theorem splitRecord_fields (known : Option Nat) (marked : Bool) (tokens : List CStr)
    (line : CStr) (hne : tokens ≠ []) (hsep : ∀ t ∈ tokens, (1 : Byte) ∉ t.val)
    (hmark : marked = false → (joinFields (fieldBytes tokens) ++ [2]).head? ≠ some 0x23)
    (hline : line.val
      = (if marked then [0x23] else []) ++ (joinFields (fieldBytes tokens) ++ [2]))
    (hslots : tokens.length ≤ (match known with
      | none => 1024
      | some n => n + 1))
    (harity : marked = false → ∀ n, known = some n → tokens.length = n) :
    splitRecord known line = .ok (some tokens, false, some (known.getD tokens.length)) := by
  have hpos : 0 < tokens.length := List.length_pos.mpr hne
  have hlen : strlen line ≠ 0 := by
    unfold strlen
    rw [hline]
    simp
  have hcomment : decide (line.val.head? = some 0x23) = marked := by
    rw [hline]
    cases marked with
    | true => rfl
    | false =>
      simp only [Bool.false_eq_true, if_false, List.nil_append, decide_eq_false_iff_not]
      exact hmark rfl
  have hrecord : (if marked = true then line.val.tail else line.val)
      = joinFields (fieldBytes tokens) ++ [2] := by
    rw [hline]
    cases marked <;> rfl
  have hbytes : fieldBytes tokens ≠ [] := by
    unfold fieldBytes
    intro h
    exact hne (List.map_eq_nil_iff.mp h)
  have hmarkers : 0 :: separatorOffsets (joinFields (fieldBytes tokens) ++ [2]) 0
      = fieldStarts (fieldBytes tokens) 0 :=
    separatorOffsets_joinFields (fieldBytes tokens) 0 hbytes (by
      intro f hf
      unfold fieldBytes at hf
      obtain ⟨t, ht, rfl⟩ := List.mem_map.mp hf
      exact hsep t ht)
  have hcount : (fieldStarts (fieldBytes tokens) 0).length - 1 = tokens.length - 1 := by
    rw [fieldStarts_length]
    unfold fieldBytes
    rw [List.length_map]
  unfold splitRecord
  rw [if_neg hlen]
  simp only [hcomment, hrecord, hmarkers, hcount]
  rw [if_neg (by
    cases known with
    | none => simp only at hslots ⊢; omega
    | some n => simp only at hslots ⊢; omega)]
  cases known with
  | none =>
    simp only [Option.getD_none]
    have h := copied_fields tokens hne (tokens.length - 1 + 1) (by omega)
    rw [h, show tokens.length - 1 + 1 = tokens.length by omega]
    rfl
  | some n =>
    simp only [Option.getD_some]
    simp only at hslots
    have hcheck : ¬((!marked) = true ∧ tokens.length - 1 + 1 ≠ n) := by
      rintro ⟨hm, hn⟩
      have := harity (by simpa using hm) n rfl
      omega
    rw [if_neg hcheck]
    have h := copied_fields tokens hne n (by omega)
    simp only [h]
    rfl

/-- The bytes of fields joined by the separator hold no NUL. -/
theorem joinFields_no_nul (tokens : List CStr) : (0 : Byte) ∉ joinFields (fieldBytes tokens) := by
  induction tokens with
  | nil => exact List.not_mem_nil _
  | cons f rest ih =>
    cases rest with
    | nil => exact fun h => f.property 0 h rfl
    | cons g rest =>
      show (0 : Byte) ∉ f.val ++ EPFSeparator :: joinFields (fieldBytes (g :: rest))
      rw [List.mem_append, List.mem_cons]
      rintro (h | h | h)
      · exact f.property 0 h rfl
      · exact absurd h (by decide)
      · exact ih h

/-- The function `_getNextRecord` on a file whose next record is made of fields joined by
the separator (after a `#` where `marked`), is shorter than 4095 bytes, holds no terminator
and no `0xFF` and does not start with `0x0A`: where the block `separatorMarkers` has a slot
for every field, and the number of fields is the arity unless the record is marked, it
returns the fields. -/
theorem getNextRecord_fields (file : EPFFile) (marked : Bool) (tokens : List CStr)
    (rest : List Byte) (hne : tokens ≠ []) (hsep : ∀ t ∈ tokens, (1 : Byte) ∉ t.val)
    (hmark : marked = false → (joinFields (fieldBytes tokens) ++ [2]).head? ≠ some 0x23)
    (hdrop : file.fp.contents.drop file.fp.position
      = (if marked then [0x23] else []) ++ joinFields (fieldBytes tokens) ++ terminator ++ rest)
    (hpair : hasTerminator
      ((if marked then [0x23] else []) ++ joinFields (fieldBytes tokens)) = false)
    (h255 : (255 : Byte) ∉ (if marked then [0x23] else []) ++ joinFields (fieldBytes tokens))
    (hfirst : ((if marked then [0x23] else []) ++ joinFields (fieldBytes tokens)).head?
      ≠ some 10)
    (hlen : ((if marked then [0x23] else []) ++ joinFields (fieldBytes tokens)).length < 4095)
    (hslots : tokens.length ≤ (match file.fieldsCount with
      | none => 1024
      | some n => n + 1))
    (harity : marked = false → ∀ n, file.fieldsCount = some n → tokens.length = n) :
    _getNextRecord file = .ok ⟨some tokens, false,
      { file with
          lastEntryOffset := file.fp.position
          fp := { file.fp with position := file.fp.position
            + (((if marked then [0x23] else []) ++ joinFields (fieldBytes tokens)).length + 2) }
          readLines := file.readLines + 1
          fieldsCount := some (file.fieldsCount.getD tokens.length) }⟩ := by
  have hread := (readRecord_terminated file _ rest hdrop hpair h255 hfirst hlen)
  have hnul : (0 : Byte) ∉ (if marked then [0x23] else []) ++ joinFields (fieldBytes tokens)
      ++ [2] := by
    rw [List.mem_append, List.mem_append]
    rintro ((h | h) | h)
    · cases marked with
      | true => exact absurd h (by decide)
      | false => exact absurd h (List.not_mem_nil _)
    · exact joinFields_no_nul tokens h
    · exact absurd h (by decide)
  have hsplit := splitRecord_fields file.fieldsCount marked tokens
    (cstrOf ((if marked then [0x23] else []) ++ joinFields (fieldBytes tokens) ++ [2]))
    hne hsep hmark (by rw [cstrOf_val_of_not_mem _ hnul, List.append_assoc]) hslots harity
  unfold _getNextRecord
  rw [hread]
  simp only [Outcome.bind, hsplit]

/-- C23 (the code at the failing input). With the arity 2, the record `42\x01\xFFes` has the
two fields `42` and `\xFFes`, neither of which holds `0x01` or `0x00`.  `_readRecord` stores
the byte `0xFF` read by `fgetc` in a `char` and takes it for `EOF`: `_getNextRecord` returns
`NULL` without `epfRecoverableReadEmpty`, as at the end of the stream, and the transcoder
writes nothing, not even for the record `42\x01Hello` that follows. -/
theorem C23_byte_0xFF_is_taken_for_end_of_file :
    (_getNextRecord (sampleFile (highByteRow ++ sampleRow))).bind
        (fun next => Outcome.ok (next.fields, next.epfRecoverableReadEmpty))
      = .ok (none, false)
    ∧ _writeEpfInBson sampleHost (sampleFile (highByteRow ++ sampleRow)) = .ok [] := by
  decide

/-- C24, counterexample. With the arity 2, the record `#a\x01b\x01c\x01d` makes
`_getNextRecord` store `separatorMarkers[3]` in a block of three slots: it has no defined
result, so it does not return the four fields.  The record `#a\x00b\x01c` is cut at its NUL
and one empty field is returned. -/
theorem C24_marked_record_of_four_fields :
    _getNextRecord (sampleFile (markedWideRow ++ sampleRow)) = .undefined
    ∧ (_getNextRecord (sampleFile (markedNulRow ++ sampleRow))).bind
        (fun next => Outcome.ok (next.fields, next.epfRecoverableReadEmpty))
      = .ok (some [cstr ""], false) := by
  decide

/-- C24 (amended). For a record that starts with `#`, followed by fields joined by `0x01` of
which there are at most the arity plus one (at most 1024 while the arity is unknown), that
is shorter than 4095 bytes and holds no NUL, no `0xFF` and no terminator, `_getNextRecord`
does not set `epfRecoverableReadEmpty` and returns the fields, the first without the `#`.
The arity is not compared. -/
theorem C24_marked_record_is_split (file : EPFFile) (tokens : List CStr) (rest : List Byte)
    (hne : tokens ≠ []) (hsep : ∀ t ∈ tokens, (1 : Byte) ∉ t.val)
    (hdrop : file.fp.contents.drop file.fp.position
      = [0x23] ++ joinFields (fieldBytes tokens) ++ terminator ++ rest)
    (hpair : hasTerminator ([0x23] ++ joinFields (fieldBytes tokens)) = false)
    (h255 : (255 : Byte) ∉ joinFields (fieldBytes tokens))
    (hlen : ([0x23] ++ joinFields (fieldBytes tokens)).length < 4095)
    (hslots : tokens.length ≤ (match file.fieldsCount with
      | none => 1024
      | some n => n + 1)) :
    ∃ next, _getNextRecord file = .ok next
      ∧ next.fields = some tokens ∧ next.epfRecoverableReadEmpty = false
      ∧ next.file.fieldsCount = some (file.fieldsCount.getD tokens.length)
      ∧ next.file.fields = file.fields := by
  have h := getNextRecord_fields file true tokens rest hne hsep (fun h => by cases h) hdrop
    hpair
    (by
      show (255 : Byte) ∉ [(0x23 : Byte)] ++ joinFields (fieldBytes tokens)
      rw [List.mem_append]
      rintro (h | h)
      · exact absurd h (by decide)
      · exact h255 h)
    (by
      show ((0x23 : Byte) :: joinFields (fieldBytes tokens)).head? ≠ some 10
      intro h
      rw [List.head?_cons] at h
      exact absurd (Option.some.inj h) (by decide))
    hlen hslots (fun h => by cases h)
  exact ⟨_, h, rfl, rfl, rfl, rfl⟩

/-- Witness of C24: the record `#a\x01b\x01c`, of three fields, read with the arity 2. -/
theorem C24_marked_record_is_split_witness :
    ∃ next, _getNextRecord (sampleFile (markedRow ++ sampleRow)) = .ok next
      ∧ next.fields = some [sampleA, sampleB, sampleC]
      ∧ next.epfRecoverableReadEmpty = false
      ∧ next.file.fieldsCount = some ((sampleFile (markedRow ++ sampleRow)).fieldsCount.getD
          [sampleA, sampleB, sampleC].length)
      ∧ next.file.fields = (sampleFile (markedRow ++ sampleRow)).fields :=
  C24_marked_record_is_split (sampleFile (markedRow ++ sampleRow)) [sampleA, sampleB, sampleC]
    sampleRow (by decide) (by decide) (by decide) (by decide) (by decide) (by decide)
    (by decide)

/-! ## The schema while records are read -/

/-- A call of `_readRecord` that returns leaves the schema, the flags and the bytes of the
file as they were. -/
theorem readRecord_frame (file file' : EPFFile) (read : Option CStr)
    (h : _readRecord file = .ok (read, file')) :
    file'.fields = file.fields ∧ file'.fieldsCount = file.fieldsCount
      ∧ file'.incremental = file.incremental ∧ file'.ready = file.ready
      ∧ file'.readEntries = file.readEntries ∧ file'.fp.contents = file.fp.contents := by
  unfold _readRecord at h
  simp only at h
  split at h
  · cases h
  · cases h
  · injection h with h
    injection h with _ h
    subst h
    exact ⟨rfl, rfl, rfl, rfl, rfl, rfl⟩
  · injection h with h
    injection h with _ h
    subst h
    exact ⟨rfl, rfl, rfl, rfl, rfl, rfl⟩

/-- The end of `splitRecord` when the arity is known: the arity stays. -/
theorem known_shape (slots counted n : Nat) (test : Prop) [Decidable test]
    (copied : Nat → Outcome (List CStr)) (fields : Option (List CStr)) (flag : Bool)
    (fieldsCount : Option Nat)
    (h : (if slots ≤ counted then Outcome.undefined
        else match (if test then none else some n : Option Nat) with
          | none => Outcome.ok (none, true, some n)
          | some k => (copied k).bind fun fs => Outcome.ok (some fs, false, some k))
      = Outcome.ok (fields, flag, fieldsCount)) :
    fieldsCount = some n := by
  by_cases hslots : slots ≤ counted
  · rw [if_pos hslots] at h; cases h
  · rw [if_neg hslots] at h
    by_cases htest : test
    · rw [if_pos htest] at h
      cases h
      rfl
    · rw [if_neg htest] at h
      simp only at h
      obtain ⟨fs, _, hfs⟩ := bind_eq_ok _ _ _ h
      cases hfs
      rfl

/-- Once the arity is known, `splitRecord` leaves it as it is. -/
theorem splitRecord_known (n : Nat) (line : CStr) (fields : Option (List CStr)) (flag : Bool)
    (fieldsCount : Option Nat)
    (h : splitRecord (some n) line = .ok (fields, flag, fieldsCount)) :
    fieldsCount = some n := by
  unfold splitRecord at h
  by_cases h0 : strlen line = 0
  · rw [if_pos h0] at h
    cases h
    rfl
  · rw [if_neg h0] at h
    exact known_shape _ _ _ _ _ _ _ _ h

/-- Once the arity is known, a call of `_getNextRecord` that returns leaves the schema, the
arity and the flags as they were. -/
theorem getNextRecord_frame (file : EPFFile) (next : NextRecord) (n : Nat)
    (hknown : file.fieldsCount = some n) (h : _getNextRecord file = .ok next) :
    next.file.fields = file.fields ∧ next.file.fieldsCount = some n
      ∧ next.file.incremental = file.incremental ∧ next.file.ready = file.ready := by
  unfold _getNextRecord at h
  obtain ⟨⟨read, file'⟩, hread, hnext⟩ := bind_eq_ok _ _ _ h
  obtain ⟨h1, h2, h3, h4, _, _⟩ := readRecord_frame file file' read hread
  cases read with
  | none =>
    simp only at hnext
    cases hnext
    exact ⟨h1, h2.trans hknown, h3, h4⟩
  | some line =>
    simp only at hnext
    obtain ⟨⟨fields, flag, fieldsCount⟩, hsplit, hok⟩ := bind_eq_ok _ _ _ hnext
    cases hok
    rw [h2, hknown] at hsplit
    exact ⟨h1, splitRecord_known n line fields flag fieldsCount hsplit, h3, h4⟩

/-- Once the arity is known, a call of `epfNextEntry` that returns leaves the schema, the
arity and the flags as they were. -/
theorem epfNextEntry_frame (file : EPFFile) (next : NextRecord) (n : Nat)
    (hknown : file.fieldsCount = some n) (h : epfNextEntry file = .ok next) :
    next.file.fields = file.fields ∧ next.file.fieldsCount = some n
      ∧ next.file.incremental = file.incremental ∧ next.file.ready = file.ready := by
  unfold epfNextEntry at h
  split at h
  · cases h
  · exact getNextRecord_frame file next n hknown h

/-- Once the arity is known, any number of calls of `epfNextEntry` that return leave the
schema, the arity and the flags as they were. -/
theorem afterEntries_frame (calls : Nat) (file file' : EPFFile) (n : Nat)
    (hknown : file.fieldsCount = some n) (h : afterEntries calls file = .ok file') :
    file'.fields = file.fields ∧ file'.fieldsCount = some n
      ∧ file'.incremental = file.incremental ∧ file'.ready = file.ready := by
  induction calls generalizing file with
  | zero =>
    cases h
    exact ⟨rfl, hknown, rfl, rfl⟩
  | succ calls ih =>
    rw [afterEntries] at h
    obtain ⟨next, hnext, hrest⟩ := bind_eq_ok _ _ _ h
    obtain ⟨h1, h2, h3, h4⟩ := epfNextEntry_frame file next n hknown hnext
    obtain ⟨g1, g2, g3, g4⟩ := ih next.file h2 hrest
    exact ⟨g1.trans h1, g2, g3.trans h3, g4.trans h4⟩

/-! ## The schema that `epfInit` builds -/

/-- Where `declaredFields` returns, the record held at least one name and every name has
its field, with the type, the capacity and the flag that `calloc` leaves. -/
theorem declaredFields_ok (fieldsCount : Option Nat) (fieldNames : Option (List CStr))
    (fields : List EPFField) (h : declaredFields fieldsCount fieldNames = .ok fields) :
    ∃ names, fieldNames = some names ∧ 1 ≤ names.length
      ∧ fields = names.map fun fieldName => ⟨fieldName, 0, 0, false⟩ := by
  unfold declaredFields at h
  cases fieldNames with
  | none => cases h
  | some names =>
    simp only at h
    split at h
    · cases h
    · split at h
      · cases h
      · split at h
        · cases h
        · cases h
          exact ⟨names, rfl, by omega, rfl⟩

/-- The loop that marks a field as indexed keeps the number of fields. -/
theorem markIndexed_length (fields : List EPFField) (name : CStr) :
    (markIndexed fields name).length = fields.length := by
  induction fields with
  | nil => rfl
  | cons f rest ih =>
    rw [markIndexed]
    split
    · rfl
    · rw [List.length_cons, List.length_cons, ih]

/-- Marking the fields of a list of names keeps the number of fields. -/
theorem foldl_markIndexed_length (names : List CStr) (fields : List EPFField) :
    (names.foldl markIndexed fields).length = fields.length := by
  induction names generalizing fields with
  | nil => rfl
  | cons name rest ih => rw [List.foldl_cons, ih, markIndexed_length]

/-- Where `indexedFields` returns, the fields are as many as before. -/
theorem indexedFields_length (fieldsCount : Option Nat) (declared : List EPFField)
    (fields : Option (List CStr)) (result : List EPFField)
    (h : indexedFields fieldsCount declared fields = .ok result) :
    result.length = declared.length := by
  unfold indexedFields at h
  split at h
  · cases h
  · cases h
  · split at h
    · cases h
    · split at h
      · cases h
      · split at h
        · cases h
        · cases h
          exact foldl_markIndexed_length _ _

/-- A type code given by `fieldTypeOfName` is one of the seven. -/
theorem fieldTypeOfName_range (name : List Byte) (fieldType : Nat)
    (h : fieldTypeOfName name = some fieldType) : 1 ≤ fieldType ∧ fieldType ≤ 7 := by
  unfold fieldTypeOfName at h
  repeat' split at h
  all_goals first
    | (cases h; decide)
    | cases h

/-- Where the loop of `_parseFieldsType` returns: the fields are as many as before, those
before index `i` and after the last token are as they were, and the field at index `i + k`
has the type and the capacity read from the token `k`. -/
theorem parseFieldsTypeLoop_ok (tokens : List CStr) (i : Nat) (fields result : List EPFField)
    (h : parseFieldsTypeLoop tokens i fields = .ok result) :
    result.length = fields.length
    ∧ (∀ j, j < i → result.get? j = fields.get? j)
    ∧ (∀ j, i + tokens.length ≤ j → result.get? j = fields.get? j)
    ∧ ∀ k token, tokens.get? k = some token →
        ∃ name capacity fieldType declared,
          scanFieldType token = .ok (name, capacity)
          ∧ fieldTypeOfName name = some fieldType
          ∧ fields.get? (i + k) = some declared
          ∧ result.get? (i + k)
              = some { declared with fieldType := fieldType, capacity := capacity } := by
  induction tokens generalizing i fields with
  | nil =>
    rw [parseFieldsTypeLoop] at h
    cases h
    exact ⟨rfl, fun _ _ => rfl, fun _ _ => rfl, fun k token hk => by cases hk⟩
  | cons token rest ih =>
    rw [parseFieldsTypeLoop] at h
    split at h
    · cases h
    · obtain ⟨⟨name, capacity⟩, hscan, hrest⟩ := bind_eq_ok _ _ _ h
      simp only at hrest
      cases htype : fieldTypeOfName name with
      | none => rw [htype] at hrest; cases hrest
      | some fieldType =>
        rw [htype] at hrest
        simp only at hrest
        cases hget : fields.get? i with
        | none => rw [hget] at hrest; cases hrest
        | some declared =>
          rw [hget] at hrest
          simp only at hrest
          obtain ⟨hlen, hbefore, hafter, hat⟩ := ih (i + 1) _ hrest
          have hset : ∀ j, j ≠ i →
              (fields.set i { declared with fieldType := fieldType, capacity := capacity }).get? j
                = fields.get? j := by
            intro j hj
            rw [List.get?_eq_getElem?, List.get?_eq_getElem?, List.getElem?_set_ne (Ne.symm hj)]
          have hi : i < fields.length := by
            rcases Nat.lt_or_ge i fields.length with hlt | hge
            · exact hlt
            · rw [List.get?_eq_none.mpr hge] at hget; cases hget
          refine ⟨by rw [hlen, List.length_set], ?_, ?_, ?_⟩
          · intro j hj
            rw [hbefore j (by omega), hset j (by omega)]
          · intro j hj
            rw [List.length_cons] at hj
            rw [hafter j (by omega), hset j (by omega)]
          · intro k tok hk
            cases k with
            | zero =>
              rw [List.get?_cons_zero] at hk
              cases hk
              refine ⟨name, capacity, fieldType, declared, hscan, htype, hget, ?_⟩
              rw [Nat.add_zero, hbefore i (by omega), List.get?_eq_getElem?,
                List.getElem?_set_self hi]
            | succ k =>
              rw [List.get?_cons_succ] at hk
              obtain ⟨name', capacity', fieldType', declared', h1, h2, h3, h4⟩ := hat k tok hk
              rw [hset (i + 1 + k) (by omega)] at h3
              refine ⟨name', capacity', fieldType', declared', h1, h2, ?_, ?_⟩
              · rw [← h3]; congr 1; omega
              · rw [← h4]; congr 1; omega

/-- Where `typedFields` returns: the record held as many tokens as the arity, the first
starts with `dbTypes:`, and the fields come from the loop over the tokens. -/
theorem typedFields_ok (fieldsCount : Option Nat) (declared : List EPFField)
    (fields : Option (List CStr)) (typed : List EPFField)
    (h : typedFields fieldsCount declared fields = .ok typed) :
    ∃ first rest, fields = some (first :: rest)
      ∧ first.val.take 8 = ascii "dbTypes:"
      ∧ (first :: rest).length = fieldsCount.getD 0
      ∧ parseFieldsTypeLoop (cstrOf (first.val.drop 8) :: rest) 0 declared = .ok typed := by
  unfold typedFields at h
  split at h
  · cases h
  · cases h
  · rename_i first rest
    split at h
    · cases h
    · rename_i hstarts
      obtain ⟨result, hloop, hcheck⟩ := bind_eq_ok _ _ _ h
      split at hcheck
      · cases hcheck
      · split at hcheck
        · cases hcheck
        · rename_i hcount
          cases hcheck
          refine ⟨first, rest, rfl, ?_, by simpa using hcount, hloop⟩
          have hp : strncmpEq first.val (ascii "dbTypes:") 8 = true := by
            by_contra hne
            exact hstarts (Or.inr (by simpa using hne))
          unfold strncmpEq at hp
          have h8 : (ascii "dbTypes:").take 8 = ascii "dbTypes:" := by decide
          rw [h8] at hp
          exact of_decide_eq_true hp

/-- Where `typedFields` returns over as many fields as the arity, every field has one of
the seven types. -/
theorem typedFields_types (n : Nat) (declared : List EPFField) (fields : Option (List CStr))
    (typed : List EPFField) (hlen : declared.length = n)
    (h : typedFields (some n) declared fields = .ok typed) :
    typed.length = n ∧ ∀ f ∈ typed, 1 ≤ f.fieldType ∧ f.fieldType ≤ 7 := by
  obtain ⟨first, rest, _, _, hcount, hloop⟩ := typedFields_ok _ _ _ _ h
  obtain ⟨hlength, _, _, hat⟩ := parseFieldsTypeLoop_ok _ _ _ _ hloop
  rw [Option.getD_some] at hcount
  refine ⟨hlength.trans hlen, ?_⟩
  intro f hf
  obtain ⟨j, hj⟩ := List.mem_iff_get?.mp hf
  have hjlt : j < typed.length := by
    rcases Nat.lt_or_ge j typed.length with hlt | hge
    · exact hlt
    · rw [List.get?_eq_none.mpr hge] at hj; cases hj
  have htok : j < (cstrOf (first.val.drop 8) :: rest).length := by
    rw [List.length_cons] at hcount ⊢
    omega
  obtain ⟨name, capacity, fieldType, d, _, htype, _, hres⟩ :=
    hat j _ (List.get?_eq_get htok)
  rw [Nat.zero_add, hj] at hres
  cases hres
  exact fieldTypeOfName_range name fieldType htype

/-- A run of the loop of `_parseSkipComments` that returns leaves the schema, the arity and
the flags as they were. -/
theorem skipCommentsLoop_frame (fuel : Nat) (file file' : EPFFile)
    (h : skipCommentsLoop fuel file = some (.ok file')) :
    file'.fields = file.fields ∧ file'.fieldsCount = file.fieldsCount
      ∧ file'.incremental = file.incremental ∧ file'.ready = file.ready := by
  induction fuel generalizing file with
  | zero => cases h
  | succ fuel ih =>
    rw [skipCommentsLoop_succ] at h
    cases hread : _readRecord file with
    | fatal => rw [hread] at h; cases h
    | undefined => rw [hread] at h; cases h
    | ok value =>
      obtain ⟨read, file1⟩ := value
      obtain ⟨h1, h2, h3, h4, _, _⟩ := readRecord_frame file file1 read hread
      rw [hread] at h
      cases read with
      | none =>
        simp only at h
        cases h
        exact ⟨h1, h2, h3, h4⟩
      | some record =>
        simp only at h
        split at h
        · cases h
          exact ⟨h1, h2, h3, h4⟩
        · obtain ⟨g1, g2, g3, g4⟩ := ih file1 h
          exact ⟨g1.trans h1, g2.trans h2, g3.trans h3, g4.trans h4⟩

/-- The schema after `epfInit`: the arity is at least one, the fields are as many as the
arity, every field has one of the seven types, and the file is ready. -/
theorem epfInit_schema (fp : FILE) (file : EPFFile) (h : epfInit fp = .ok file) :
    ∃ n, 1 ≤ n ∧ file.fieldsCount = some n ∧ file.fields.length = n
      ∧ (∀ f ∈ file.fields, 1 ≤ f.fieldType ∧ f.fieldType ≤ 7) ∧ file.ready = true := by
  unfold epfInit at h
  simp only at h
  obtain ⟨file1, h1, h⟩ := bind_eq_ok _ _ _ h
  obtain ⟨file2, h2, h⟩ := bind_eq_ok _ _ _ h
  obtain ⟨file3, h3, h⟩ := bind_eq_ok _ _ _ h
  obtain ⟨file4, h4, h⟩ := bind_eq_ok _ _ _ h
  obtain ⟨file5, h5, h⟩ := bind_eq_ok _ _ _ h
  cases h
  -- the field names
  unfold _parseFieldNames at h1
  split at h1
  · cases h1
  obtain ⟨next1, _, h1⟩ := bind_eq_ok _ _ _ h1
  obtain ⟨fields1, hdecl, h1⟩ := bind_eq_ok _ _ _ h1
  obtain ⟨names, _, hnames, hfields1⟩ := declaredFields_ok _ _ _ hdecl
  have hlen1 : 1 ≤ fields1.length := by rw [hfields1, List.length_map]; exact hnames
  cases h1
  -- the indexed fields
  unfold _parseIndexedFields at h2
  split at h2
  · cases h2
  obtain ⟨next2, hnext2, h2⟩ := bind_eq_ok _ _ _ h2
  obtain ⟨fields2, hindexed, h2⟩ := bind_eq_ok _ _ _ h2
  obtain ⟨f2, c2, _, _⟩ := getNextRecord_frame _ next2 fields1.length (by exact rfl) hnext2
  have hlen2 : fields2.length = fields1.length := by
    rw [indexedFields_length _ _ _ _ hindexed, f2]
  cases h2
  -- the types
  unfold _parseFieldsType at h3
  split at h3
  · cases h3
  obtain ⟨next3, hnext3, h3⟩ := bind_eq_ok _ _ _ h3
  obtain ⟨fields3, htyped, h3⟩ := bind_eq_ok _ _ _ h3
  obtain ⟨f3, c3, _, _⟩ := getNextRecord_frame _ next3 fields1.length (by exact c2) hnext3
  rw [c3, f3] at htyped
  obtain ⟨hlen3, htypes⟩ := typedFields_types fields1.length fields2 _ fields3 hlen2 htyped
  cases h3
  -- the export mode
  unfold _parseExportMode at h4
  split at h4
  · cases h4
  obtain ⟨next4, hnext4, h4⟩ := bind_eq_ok _ _ _ h4
  obtain ⟨incremental, _, h4⟩ := bind_eq_ok _ _ _ h4
  obtain ⟨f4, c4, _, _⟩ := getNextRecord_frame _ next4 fields1.length (by exact c3) hnext4
  cases h4
  -- the comments
  unfold _parseSkipComments at h5
  split at h5
  · cases h5
  split at h5
  · rename_i outcome hloop
    subst h5
    obtain ⟨f5, c5, _, _⟩ := skipCommentsLoop_frame _ _ file5 hloop
    refine ⟨fields1.length, hlen1, c5.trans c4, ?_, ?_, rfl⟩
    · show file5.fields.length = fields1.length
      rw [f5]
      show next4.file.fields.length = fields1.length
      rw [f4]
      exact hlen3
    · intro f hf
      have hf' : f ∈ file5.fields := hf
      rw [f5] at hf'
      have hf'' : f ∈ next4.file.fields := hf'
      rw [f4] at hf''
      exact htypes f hf''
  · cases h5

/-- C25. After `epfInit` has returned a file, the arity is at least one, and every call of
`epfNextEntry` that returns (with fields, with a skip or at the end of the stream), after
any number of such calls, leaves `fieldsCount`, the fields (name, type, capacity and indexed
flag of each) and the incremental flag as `epfInit` left them. -/
theorem C25_entries_leave_the_schema (fp : FILE) (file : EPFFile)
    (hinit : epfInit fp = .ok file) :
    (∃ n, 1 ≤ n ∧ file.fieldsCount = some n)
    ∧ ∀ (calls : Nat) (file' : EPFFile) (next : NextRecord),
        afterEntries calls file = .ok file' → epfNextEntry file' = .ok next →
          next.file.fieldsCount = file.fieldsCount ∧ next.file.fields = file.fields
            ∧ next.file.incremental = file.incremental := by
  obtain ⟨n, hn, hcount, _, _, _⟩ := epfInit_schema fp file hinit
  refine ⟨⟨n, hn, hcount⟩, ?_⟩
  intro calls file' next hcalls hnext
  obtain ⟨h1, h2, h3, _⟩ := afterEntries_frame calls file file' n hcount hcalls
  obtain ⟨g1, g2, g3, _⟩ := epfNextEntry_frame file' next n h2 hnext
  exact ⟨g2.trans hcount.symm, g1.trans h1, g3.trans h3⟩

/-- Witness of C25: after the sample header and one call that returns the record
`42\x01Hello`, the call that skips the record `42` leaves the schema of `epfInit`. -/
theorem C25_entries_leave_the_schema_witness :
    epfInit ⟨sampleHeader ++ (sampleRow ++ shortRow), 0⟩
      = .ok ⟨sampleSchema, some 2, false, ⟨sampleHeader ++ (sampleRow ++ shortRow), 75⟩, 5, 0,
          75, true⟩
    ∧ epfNextEntry ⟨sampleSchema, some 2, false, ⟨sampleHeader ++ (sampleRow ++ shortRow), 85⟩,
          6, 0, 75, true⟩
      = .ok ⟨none, true, ⟨sampleSchema, some 2, false,
          ⟨sampleHeader ++ (sampleRow ++ shortRow), 89⟩, 7, 0, 85, true⟩⟩
    ∧ (some 2 : Option Nat) = some 2 ∧ sampleSchema = sampleSchema ∧ false = false :=
  ⟨by decide, by decide,
   (C25_entries_leave_the_schema ⟨sampleHeader ++ (sampleRow ++ shortRow), 0⟩
      ⟨sampleSchema, some 2, false, ⟨sampleHeader ++ (sampleRow ++ shortRow), 75⟩, 5, 0, 75,
        true⟩ (by decide)).2 1
      ⟨sampleSchema, some 2, false, ⟨sampleHeader ++ (sampleRow ++ shortRow), 85⟩, 6, 0, 75,
        true⟩
      ⟨none, true, ⟨sampleSchema, some 2, false, ⟨sampleHeader ++ (sampleRow ++ shortRow), 89⟩,
        7, 0, 85, true⟩⟩
      (by decide) (by decide)⟩

/-- Comparing the first bytes of `name` with all of `typeName` tests whether `typeName` is a
prefix of `name`. -/
theorem strncmpEq_starts (name typeName : List Byte) (n : Nat) (hn : typeName.length = n) :
    strncmpEq name typeName n = true ↔ typeName <+: name := by
  unfold strncmpEq
  rw [decide_eq_true_iff, ← hn, List.take_length, List.prefix_iff_eq_take]
  exact eq_comm

/-- The scan of digits stops at once before a byte that is not a digit. -/
theorem scanDigits_stop (rest : List Byte) (value : Nat)
    (h : ∀ c, rest.head? = some c → isdigit c = false) :
    scanDigits rest value = (value, rest) := by
  cases rest with
  | nil => rfl
  | cons c rest =>
    rw [scanDigits, if_neg]
    rw [h c rfl]
    decide

/-- The directive `%d` on the decimal digits of a number, followed by a byte that is not a
digit, reads the number and stops before that byte. -/
theorem scanInt_natDecimal (n : Nat) (rest : List Byte)
    (h : ∀ c, rest.head? = some c → isdigit c = false) :
    scanInt (natDecimal (n + 1) n ++ rest) = some ((n : Int), rest) := by
  have hdigits := natDecimal_digits (n + 1) n
  have hscan : scanDigits (natDecimal (n + 1) n ++ rest) 0 = (n, rest) := by
    rw [scanDigits_append _ _ _ hdigits, natDecimal_value _ _ (Nat.lt_succ_self n),
      scanDigits_stop rest n h]
  cases hds : natDecimal (n + 1) n with
  | nil => exact absurd hds (natDecimal_ne_nil n n)
  | cons d ds =>
    rw [hds] at hscan hdigits
    have hd := hdigits d (List.mem_cons_self d ds)
    obtain ⟨hspace, h45, h43⟩ := isdigit_not_space d hd
    have hdrop : (d :: ds ++ rest).dropWhile isspace = d :: ds ++ rest := by
      rw [List.cons_append, List.dropWhile_cons, hspace]
      rfl
    unfold scanInt
    simp only [hdrop]
    have hhead : (d :: ds ++ rest).head? = some d := rfl
    have hsign : ¬ ((d :: ds ++ rest).head? = some 45 ∨ (d :: ds ++ rest).head? = some 43) := by
      rw [hhead]
      rintro (h' | h')
      · exact h45 (Option.some.inj h')
      · exact h43 (Option.some.inj h')
    have hneg : ¬ (d :: ds ++ rest).head? = some 45 := fun h' => hsign (Or.inl h')
    rw [if_neg hsign, hhead, Option.map_some', hd, if_pos rfl, hscan]
    simp only [Option.some.injEq, Prod.mk.injEq, and_true]
    rw [if_neg]
    simpa using h45

/-- The directive `%[^(]` on a name that holds no `(`, at the end of the input. -/
theorem scanSet_bare (name : List Byte) (hne : name ≠ []) (h40 : (40 : Byte) ∉ name) :
    scanSet name = some (name, []) := by
  have htake : name.takeWhile (fun c => c ≠ 40) = name := by
    rw [List.takeWhile_eq_self_iff]
    intro c hc
    exact decide_eq_true (fun h => h40 (h ▸ hc))
  have hdrop : name.dropWhile (fun c => c ≠ 40) = [] := by
    rw [List.dropWhile_eq_nil_iff]
    intro c hc
    exact decide_eq_true (fun h => h40 (h ▸ hc))
  unfold scanSet
  rw [htake, hdrop, if_neg hne]

/-- The directive `%[^(]` on a name that holds no `(`, followed by a `(`. -/
theorem scanSet_name (name rest : List Byte) (hne : name ≠ []) (h40 : (40 : Byte) ∉ name) :
    scanSet (name ++ 40 :: rest) = some (name, 40 :: rest) := by
  have hall : ∀ c ∈ name, decide (c ≠ 40) = true :=
    fun c hc => decide_eq_true (fun h => h40 (h ▸ hc))
  have htake : (name ++ 40 :: rest).takeWhile (fun c => c ≠ 40) = name := by
    rw [List.takeWhile_append_of_pos hall, List.takeWhile_cons_of_neg (by decide),
      List.append_nil]
  have hdrop : (name ++ 40 :: rest).dropWhile (fun c => c ≠ 40) = 40 :: rest := by
    rw [List.dropWhile_append_of_pos hall, List.dropWhile_cons_of_neg (by decide)]
  unfold scanSet
  rw [htake, hdrop, if_neg hne]

/-- The part `%[^(](%d` on `name(n` followed by a byte that is not a digit. -/
theorem scanNameCapacity_number (name rest : List Byte) (n : Nat) (hne : name ≠ [])
    (h40 : (40 : Byte) ∉ name) (h : ∀ c, rest.head? = some c → isdigit c = false) :
    scanNameCapacity (name ++ 40 :: (natDecimal (n + 1) n ++ rest))
      = (⟨2, some name, some (n : Int)⟩, rest) := by
  unfold scanNameCapacity
  rw [if_neg (List.append_ne_nil_of_left_ne_nil hne _), scanSet_name name _ hne h40]
  simp only [List.head?_cons, List.tail_cons, if_true]
  rw [scanInt_natDecimal n rest h]

/-- What `_parseFieldsType` scans from a token that holds no `(`: the token itself and the
capacity 1. -/
theorem scanFieldType_bare (token : CStr) (h40 : (40 : Byte) ∉ token.val) :
    scanFieldType token = .ok (token.val, 1) := by
  have hscan : scanNameCapacity token.val = (⟨-1, none, none⟩, [])
      ∨ scanNameCapacity token.val = (⟨1, some token.val, none⟩, []) := by
    unfold scanNameCapacity
    by_cases hnil : token.val = []
    · left; rw [if_pos hnil]
    · right
      rw [if_neg hnil, scanSet_bare _ hnil h40]
      rfl
  unfold scanFieldType sscanfNameCapacityScale sscanfNameCapacity
  rcases hscan with hscan | hscan <;> rw [hscan] <;> rfl

/-- What `_parseFieldsType` scans from a token `name(n)` with `n` below `2^31`: the name and
the capacity `n`. -/
theorem scanFieldType_capacity (token : CStr) (name : List Byte) (n : Nat) (hne : name ≠ [])
    (h40 : (40 : Byte) ∉ name) (hn : n < 2147483648)
    (htoken : token.val = name ++ 40 :: (natDecimal (n + 1) n ++ [41])) :
    scanFieldType token = .ok (name, n) := by
  have hscan := scanNameCapacity_number name [41] n hne h40
    (fun c hc => by cases hc; decide)
  have hrep : Scanned.representable ⟨2, some name, some (n : Int)⟩ = true := by
    unfold Scanned.representable
    simp only [decide_eq_true_eq]
    omega
  have hscale : sscanfNameCapacityScale token.val = ⟨2, some name, some (n : Int)⟩ := by
    unfold sscanfNameCapacityScale
    simp only [htoken, hscan]
    rw [if_neg]
    rintro ⟨_, _, h44⟩
    exact absurd (Option.some.inj h44) (by decide)
  have hplain : sscanfNameCapacity token.val = ⟨2, some name, some (n : Int)⟩ := by
    unfold sscanfNameCapacity
    rw [htoken, hscan]
  unfold scanFieldType
  simp only [hscale, hplain, hrep]
  have hmod : ((n : Int) % 4294967296).toNat = n := by omega
  simp [hmod]

/-- What `_parseFieldsType` scans from a token `name(n,m)` with `n` and `m` below `2^31`: the
name and the capacity 1. -/
theorem scanFieldType_scale (token : CStr) (name : List Byte) (n m : Nat) (hne : name ≠ [])
    (h40 : (40 : Byte) ∉ name) (hn : n < 2147483648) (hm : m < 2147483648)
    (htoken : token.val
      = name ++ 40 :: (natDecimal (n + 1) n ++ 44 :: (natDecimal (m + 1) m ++ [41]))) :
    scanFieldType token = .ok (name, 1) := by
  have hscan := scanNameCapacity_number name (44 :: (natDecimal (m + 1) m ++ [41])) n hne h40
    (fun c hc => by cases hc; decide)
  have hsecond := scanInt_natDecimal m [41] (fun c hc => by cases hc; decide)
  have hrep : Scanned.representable ⟨2, some name, some (n : Int)⟩ = true := by
    unfold Scanned.representable
    simp only [decide_eq_true_eq]
    omega
  have hrep3 : Scanned.representable ⟨3, some name, some (m : Int)⟩ = true := by
    unfold Scanned.representable
    simp only [decide_eq_true_eq]
    omega
  have hscale : sscanfNameCapacityScale token.val = ⟨3, some name, some (m : Int)⟩ := by
    unfold sscanfNameCapacityScale
    simp only [htoken, hscan, hrep, List.head?_cons, List.tail_cons, hsecond, and_self,
      if_true]
  unfold scanFieldType
  simp only [hscale, hrep3]
  rfl

/-- C28, counterexample.  The token `VARCHAR(-1)` is of the form `TYPE(n)` with `n = -1`; the
capacity is an `unsigned int`, and the field `name` declared by it has the capacity
4294967295 after `epfInit`. -/
theorem C28_negative_capacity_wraps :
    scanFieldType (cstr "VARCHAR(-1)") = .ok (ascii "VARCHAR", 4294967295)
    ∧ epfInit ⟨negativeCapacityHeader ++ sampleRow, 0⟩
        = .ok ⟨[⟨sampleId, EPF_FIELDTYPE_INTEGER, 1, true⟩,
                ⟨sampleName, EPF_FIELDTYPE_VARCHAR, 4294967295, false⟩],
            some 2, false, ⟨negativeCapacityHeader ++ sampleRow, 74⟩, 5, 0, 74, true⟩ := by
  decide

/-- C28, amended.  For a type name without `(` and numbers `n`, `m` with
`0 ≤ n, m < 2^31` written in decimal digits: the bare token sets the capacity to 1, the
token `name(n)` sets it to `n`, the token `name(n,m)` sets it to 1, and `VARCHAR(255)` sets
it to 255; the capacity scanned from the token at index `k` is the one the field at that
index has after the loop of `_parseFieldsType`. -/
theorem C28_capacity_of_token (name : List Byte) (n m : Nat) (bare one two : CStr)
    (hne : name ≠ []) (h40 : (40 : Byte) ∉ name) (hn : n < 2147483648) (hm : m < 2147483648)
    (hbare : bare.val = name)
    (hone : one.val = name ++ 40 :: (natDecimal (n + 1) n ++ [41]))
    (htwo : two.val
      = name ++ 40 :: (natDecimal (n + 1) n ++ 44 :: (natDecimal (m + 1) m ++ [41]))) :
    scanFieldType bare = .ok (name, 1)
    ∧ scanFieldType one = .ok (name, n)
    ∧ scanFieldType two = .ok (name, 1)
    ∧ scanFieldType (cstr "VARCHAR(255)") = .ok (ascii "VARCHAR", 255)
    ∧ ∀ (tokens : List CStr) (i : Nat) (fields result : List EPFField),
        parseFieldsTypeLoop tokens i fields = .ok result →
        ∀ k token, tokens.get? k = some token →
          ∃ scanned capacity field, scanFieldType token = .ok (scanned, capacity)
            ∧ result.get? (i + k) = some field ∧ field.capacity = capacity := by
  refine ⟨?_, scanFieldType_capacity one name n hne h40 hn hone,
    scanFieldType_scale two name n m hne h40 hn hm htwo, by decide, ?_⟩
  · have h := scanFieldType_bare bare (by rw [hbare]; exact h40)
    rw [hbare] at h
    exact h
  · intro tokens i fields result hloop k token htoken
    obtain ⟨_, _, _, hat⟩ := parseFieldsTypeLoop_ok tokens i fields result hloop
    obtain ⟨scanned, capacity, fieldType, declared, hscan, _, _, hres⟩ := hat k token htoken
    exact ⟨scanned, capacity, _, hscan, hres, rfl⟩

/-- Witness of C28: the tokens `DECIMAL`, `DECIMAL(9)` and `DECIMAL(9,2)`. -/
theorem C28_capacity_of_token_witness :
    scanFieldType (cstr "DECIMAL") = .ok (ascii "DECIMAL", 1)
    ∧ scanFieldType (cstr "DECIMAL(9)") = .ok (ascii "DECIMAL", 9)
    ∧ scanFieldType (cstr "DECIMAL(9,2)") = .ok (ascii "DECIMAL", 1) :=
  have h := C28_capacity_of_token (ascii "DECIMAL") 9 2 (cstr "DECIMAL") (cstr "DECIMAL(9)")
    (cstr "DECIMAL(9,2)") (by decide) (by decide) (by decide) (by decide) (by decide)
    (by decide) (by decide)
  ⟨h.1, h.2.1, h.2.2.1⟩

/-- C30.  The header of two field names whose `dbTypes` record has three type tokens does
not make `epfInit` fatal: the third token is stored through `file->fields[2]`, past the two
fields, before the counts are compared.  With one type token `epfInit` is fatal. -/
theorem C30_third_type_token_indexes_past_the_fields :
    epfInit ⟨threeTypesHeader ++ sampleRow, 0⟩ = .undefined
    ∧ epfInit ⟨oneTypeHeader ++ sampleRow, 0⟩ = .fatal := by
  decide

/-- The accessors at an index below the arity return the type and the capacity of that
field, and at an index above the arity they return 0. -/
theorem epfGetField_in_range (file : EPFFile) (i : Nat) (field : EPFField)
    (hcount : file.fieldsCount = some file.fields.length) :
    (file.fields.get? i = some field →
      epfGetFieldType file i = .ok field.fieldType
        ∧ epfGetFieldCapacity file i = .ok field.capacity)
    ∧ (file.fields.length < i →
      epfGetFieldType file i = .ok 0 ∧ epfGetFieldCapacity file i = .ok 0) := by
  constructor
  · intro hcol
    have hi : i < file.fields.length := by
      rcases Nat.lt_or_ge i file.fields.length with h | h
      · exact h
      · rw [List.get?_eq_none.mpr h] at hcol; cases hcol
    have hnot : ¬ file.fields.length < i := by omega
    unfold epfGetFieldType epfGetFieldCapacity
    simp only [hcount, Option.getD_some, hnot, if_false, hcol, and_self]
  · intro hi
    unfold epfGetFieldType epfGetFieldCapacity
    simp only [hcount, Option.getD_some, hi, if_true, and_self]

/-- The accessors at the index equal to the arity pass the test `index > fieldsCount` and
read `file->fields[fieldsCount]`, one element past the array. -/
theorem epfGetField_at_fieldsCount (file : EPFFile)
    (hcount : file.fieldsCount = some file.fields.length) :
    epfGetFieldType file file.fields.length = .undefined
      ∧ epfGetFieldCapacity file file.fields.length = .undefined := by
  unfold epfGetFieldType epfGetFieldCapacity
  simp only [hcount, Option.getD_some, Nat.lt_irrefl, if_false,
    List.get?_eq_none.mpr (Nat.le_refl file.fields.length), and_self]

/-- C35.  With the two fields `id` (INTEGER, capacity 1) and `name` (VARCHAR, capacity 255),
the index 2 is not a field position, and `epfGetFieldType` and `epfGetFieldCapacity` do not
return 0 for it: the test `index > file->fieldsCount` lets it through and
`file->fields[2]` is read past the array of two fields.  At the indices 0 and 1 they return
the declared type and capacity, and at the index 3 they return 0. -/
theorem C35_index_equal_to_arity_reads_past_the_fields :
    epfGetFieldType (sampleFile []) 2 = .undefined
    ∧ epfGetFieldCapacity (sampleFile []) 2 = .undefined
    ∧ epfGetFieldType (sampleFile []) 0 = .ok EPF_FIELDTYPE_INTEGER
    ∧ epfGetFieldType (sampleFile []) 1 = .ok EPF_FIELDTYPE_VARCHAR
    ∧ epfGetFieldCapacity (sampleFile []) 0 = .ok 1
    ∧ epfGetFieldCapacity (sampleFile []) 1 = .ok 255
    ∧ epfGetFieldType (sampleFile []) 3 = .ok 0
    ∧ epfGetFieldCapacity (sampleFile []) 3 = .ok 0 := by
  decide

/-! ## The export mode -/

/-- The comparison of the first 15 (22) bytes with `exportMode:FULL`
(`exportMode:INCREMENTAL`) decides the result of `exportMode` on a record that fits its
array. -/
theorem exportMode_eq (fieldsCount : Option Nat) (first : CStr) (rest : List CStr)
    (hslots : (first :: rest).length ≤ fieldsCount.getD 0) :
    exportMode fieldsCount (some (first :: rest))
      = if ascii "exportMode:FULL" <+: first.val then .ok false
        else if ascii "exportMode:INCREMENTAL" <+: first.val then .ok true
        else .fatal := by
  have hnull : nullTerminated fieldsCount (first :: rest) = true := by
    unfold nullTerminated
    exact decide_eq_true hslots
  have e0 := strncmpEq_starts first.val (ascii "exportMode:") 11 (by decide)
  have e1 := strncmpEq_starts first.val (ascii "exportMode:FULL") 15 (by decide)
  have e2 := strncmpEq_starts first.val (ascii "exportMode:INCREMENTAL") 22 (by decide)
  have hmode : ∀ value : List Byte, ascii "exportMode:" <+: value →
      value <+: first.val → ¬ (strlen first < 11 ∨ (!strncmpEq first.val (ascii "exportMode:") 11) = true) := by
    intro value hv hfirst
    have hp : ascii "exportMode:" <+: first.val := hv.trans hfirst
    have hlen := hp.length_le
    rw [show (ascii "exportMode:").length = 11 by decide] at hlen
    rintro (h | h)
    · unfold strlen at h
      omega
    · rw [e0.mpr hp] at h
      exact absurd h (by decide)
  simp only [exportMode]
  by_cases h1 : ascii "exportMode:FULL" <+: first.val
  · rw [if_neg (hmode _ (by decide) h1), if_pos (e1.mpr h1), hnull, if_pos h1]
    rfl
  · by_cases h2 : ascii "exportMode:INCREMENTAL" <+: first.val
    · rw [if_neg (hmode _ (by decide) h2), if_neg (fun h => h1 (e1.mp h)),
        if_pos (e2.mpr h2), hnull, if_neg h1, if_pos h2]
      rfl
    · rw [if_neg h1, if_neg h2]
      split
      · rfl
      · rw [if_neg (fun h => h1 (e1.mp h)), if_neg (fun h => h2 (e2.mp h))]

/-- C31, counterexample.  The header whose fourth record is `#exportMode:FULLY` is accepted
by `epfInit`, with `incremental = false`, and the first field `exportMode:INCREMENTALLY` is
accepted with `incremental = true`: neither value is exactly `FULL` or `INCREMENTAL`. -/
theorem C31_export_mode_FULLY_is_accepted :
    epfInit ⟨looseModeHeader ++ sampleRow, 0⟩
      = .ok ⟨sampleSchema, some 2, false, ⟨looseModeHeader ++ sampleRow, 76⟩, 5, 0, 76, true⟩
    ∧ exportMode (some 2) (some [cstr "exportMode:INCREMENTALLY"]) = .ok true := by
  decide

/-- C31 (amended).  On line 3, when `_getNextRecord` returns the fields `first :: rest`, at
most as many as the arity: `_parseExportMode` returns with `incremental = false` where
`first` begins with `exportMode:FULL`, with `incremental = true` where it begins with
`exportMode:INCREMENTAL`, and is fatal for every other `first`; the bytes are compared as
they are, and nothing else of the file is changed. -/
theorem C31_export_mode_by_first_bytes (file : EPFFile) (next : NextRecord) (first : CStr)
    (rest : List CStr) (hlines : file.readLines = 3)
    (hnext : _getNextRecord file = .ok next) (hfields : next.fields = some (first :: rest))
    (hslots : (first :: rest).length ≤ next.file.fieldsCount.getD 0) :
    (ascii "exportMode:FULL" <+: first.val →
      _parseExportMode file = .ok { next.file with incremental := false })
    ∧ (ascii "exportMode:INCREMENTAL" <+: first.val →
      _parseExportMode file = .ok { next.file with incremental := true })
    ∧ (¬ ascii "exportMode:FULL" <+: first.val →
        ¬ ascii "exportMode:INCREMENTAL" <+: first.val → _parseExportMode file = .fatal)
    ∧ exportMode (some 1) (some [cstr "exportMode:full"]) = .fatal := by
  have hmode := exportMode_eq next.file.fieldsCount first rest hslots
  have hstage : _parseExportMode file
      = (exportMode next.file.fieldsCount (some (first :: rest))).bind fun incremental =>
          .ok { next.file with incremental := incremental } := by
    unfold _parseExportMode
    rw [if_neg (by rw [hlines]; decide), hnext, ← hfields]
    rfl
  have hexclusive : ascii "exportMode:INCREMENTAL" <+: first.val →
      ¬ ascii "exportMode:FULL" <+: first.val := by
    intro h2 h1
    have := List.prefix_or_prefix_of_prefix h1 h2
    revert this
    decide
  refine ⟨?_, ?_, ?_, by decide⟩
  · intro h1
    rw [hstage, hmode, if_pos h1]
    rfl
  · intro h2
    rw [hstage, hmode, if_neg (hexclusive h2), if_pos h2]
    rfl
  · intro h1 h2
    rw [hstage, hmode, if_neg h1, if_neg h2]
    rfl

/-- Witness of C31: the fourth record of the sample header, `#exportMode:FULL`. -/
theorem C31_export_mode_by_first_bytes_witness :
    _parseExportMode ⟨sampleSchema, some 2, false, ⟨sampleHeader ++ sampleRow, 57⟩, 3, 0, 26,
        false⟩
      = .ok ⟨sampleSchema, some 2, false, ⟨sampleHeader ++ sampleRow, 75⟩, 4, 0, 57, false⟩ :=
  (C31_export_mode_by_first_bytes
    ⟨sampleSchema, some 2, false, ⟨sampleHeader ++ sampleRow, 57⟩, 3, 0, 26, false⟩
    ⟨some [cstr "exportMode:FULL"], false,
      ⟨sampleSchema, some 2, false, ⟨sampleHeader ++ sampleRow, 75⟩, 4, 0, 57, false⟩⟩
    (cstr "exportMode:FULL") [] rfl (by decide) rfl (by decide)).1 (by decide)

/-! ## The keywords of the header records -/

/-- The stages of `epfInit`, one after the other. -/
theorem epfInit_eq (fp : FILE) :
    epfInit fp = (_parseFieldNames (newFile fp)).bind fun named =>
      (_parseIndexedFields named).bind fun keyed =>
      (_parseFieldsType keyed).bind fun typed =>
      (_parseExportMode typed).bind fun moded =>
      (_parseSkipComments moded).bind fun file =>
      .ok { file with ready := true } :=
  rfl

/-- A first field that does not begin with the keyword fails the test of the keyword. -/
theorem keyword_test (first : CStr) (keyword : List Byte) (n : Nat)
    (hn : keyword.length = n) (hno : ¬ keyword <+: first.val) :
    (strlen first < n ∨ (!strncmpEq first.val keyword n) = true) := by
  right
  cases hcmp : strncmpEq first.val keyword n with
  | false => rfl
  | true => exact absurd ((strncmpEq_starts first.val keyword n hn).mp hcmp) hno

/-- The record of line 1 whose first field does not begin with `primaryKey:` is fatal. -/
theorem parseIndexedFields_fatal (file : EPFFile) (next : NextRecord) (first : CStr)
    (rest : List CStr) (hnext : _getNextRecord file = .ok next)
    (hfields : next.fields = some (first :: rest))
    (hno : ¬ ascii "primaryKey:" <+: first.val) : _parseIndexedFields file = .fatal := by
  unfold _parseIndexedFields
  split
  · rfl
  · rw [hnext]
    show Outcome.bind (indexedFields next.file.fieldsCount next.file.fields next.fields) _ = _
    rw [hfields]
    simp only [indexedFields]
    rw [if_pos (keyword_test first _ 11 (by decide) hno)]
    rfl

/-- The record of line 2 whose first field does not begin with `dbTypes:` is fatal. -/
theorem parseFieldsType_fatal (file : EPFFile) (next : NextRecord) (first : CStr)
    (rest : List CStr) (hnext : _getNextRecord file = .ok next)
    (hfields : next.fields = some (first :: rest))
    (hno : ¬ ascii "dbTypes:" <+: first.val) : _parseFieldsType file = .fatal := by
  unfold _parseFieldsType
  split
  · rfl
  · rw [hnext]
    show Outcome.bind (typedFields next.file.fieldsCount next.file.fields next.fields) _ = _
    rw [hfields]
    simp only [typedFields]
    rw [if_pos (keyword_test first _ 8 (by decide) hno)]
    rfl

/-- The record of line 3 whose first field does not begin with `exportMode:` is fatal. -/
theorem parseExportMode_fatal (file : EPFFile) (next : NextRecord) (first : CStr)
    (rest : List CStr) (hnext : _getNextRecord file = .ok next)
    (hfields : next.fields = some (first :: rest))
    (hno : ¬ ascii "exportMode:" <+: first.val) : _parseExportMode file = .fatal := by
  unfold _parseExportMode
  split
  · rfl
  · rw [hnext]
    show Outcome.bind (exportMode next.file.fieldsCount next.fields) _ = _
    rw [hfields]
    simp only [exportMode]
    rw [if_pos (keyword_test first _ 11 (by decide) hno)]
    rfl

/-- Where `indexedFields` returns, the names it has marked are the first field without its
first 11 bytes and the other fields. -/
theorem indexedFields_ok (fieldsCount : Option Nat) (declared : List EPFField)
    (first : CStr) (rest : List CStr) (result : List EPFField)
    (h : indexedFields fieldsCount declared (some (first :: rest)) = .ok result) :
    result = (cstrOf (first.val.drop 11) :: rest).foldl markIndexed declared := by
  simp only [indexedFields] at h
  split at h
  · cases h
  · split at h
    · cases h
    · split at h
      · cases h
      · cases h
        rfl

/-- After the keyword, the comparison with a keyword followed by a value is the comparison
of the remainder with the value. -/
theorem keyword_value (bytes keyword value : List Byte) (h : keyword <+: bytes) :
    keyword ++ value <+: bytes ↔ value <+: bytes.drop keyword.length := by
  obtain ⟨tail, htail⟩ := h
  rw [← htail, List.drop_left, List.prefix_append_right_inj]

/-- C32.  After line 0, when `_getNextRecord` returns the record of line 1 and its first
field does not begin with `primaryKey:`, `epfInit` is fatal; likewise for the record of
line 2 and `dbTypes:`, and for the record of line 3 and `exportMode:`.  Where a line is
accepted, what is interpreted is the first field without the keyword: the names marked are
the first field from its byte 11 on and the other fields, the type tokens are the first
field from its byte 8 on and the other fields, and the export mode is decided by whether
the first field from its byte 11 on begins with `FULL` or with `INCREMENTAL`. -/
theorem C32_record_without_its_keyword_is_fatal (fp : FILE) (named keyed typed : EPFFile)
    (next : NextRecord) (first : CStr) (rest : List CStr)
    (hnames : _parseFieldNames (newFile fp) = .ok named)
    (hfields : next.fields = some (first :: rest)) :
    (_getNextRecord named = .ok next → ¬ ascii "primaryKey:" <+: first.val →
      epfInit fp = .fatal)
    ∧ (_parseIndexedFields named = .ok keyed → _getNextRecord keyed = .ok next →
        ¬ ascii "dbTypes:" <+: first.val → epfInit fp = .fatal)
    ∧ (_parseIndexedFields named = .ok keyed → _parseFieldsType keyed = .ok typed →
        _getNextRecord typed = .ok next → ¬ ascii "exportMode:" <+: first.val →
        epfInit fp = .fatal)
    ∧ (∀ fieldsCount declared result,
        indexedFields fieldsCount declared (some (first :: rest)) = .ok result →
        result = (cstrOf (first.val.drop 11) :: rest).foldl markIndexed declared)
    ∧ (∀ fieldsCount declared result,
        typedFields fieldsCount declared (some (first :: rest)) = .ok result →
        parseFieldsTypeLoop (cstrOf (first.val.drop 8) :: rest) 0 declared = .ok result)
    ∧ (ascii "exportMode:" <+: first.val →
        (first :: rest).length ≤ next.file.fieldsCount.getD 0 →
        exportMode next.file.fieldsCount (some (first :: rest))
          = if ascii "FULL" <+: first.val.drop 11 then .ok false
            else if ascii "INCREMENTAL" <+: first.val.drop 11 then .ok true
            else .fatal) := by
  refine ⟨?_, ?_, ?_, ?_, ?_, ?_⟩
  · intro hnext hno
    rw [epfInit_eq, hnames]
    show Outcome.bind (_parseIndexedFields named) _ = _
    rw [parseIndexedFields_fatal named next first rest hnext hfields hno]
    rfl
  · intro hkeyed hnext hno
    rw [epfInit_eq, hnames]
    show Outcome.bind (_parseIndexedFields named) _ = _
    rw [hkeyed]
    show Outcome.bind (_parseFieldsType keyed) _ = _
    rw [parseFieldsType_fatal keyed next first rest hnext hfields hno]
    rfl
  · intro hkeyed htyped hnext hno
    rw [epfInit_eq, hnames]
    show Outcome.bind (_parseIndexedFields named) _ = _
    rw [hkeyed]
    show Outcome.bind (_parseFieldsType keyed) _ = _
    rw [htyped]
    show Outcome.bind (_parseExportMode typed) _ = _
    rw [parseExportMode_fatal typed next first rest hnext hfields hno]
    rfl
  · intro fieldsCount declared result h
    exact indexedFields_ok fieldsCount declared first rest result h
  · intro fieldsCount declared result h
    obtain ⟨first', rest', hsome, _, _, hloop⟩ := typedFields_ok _ _ _ _ h
    cases hsome
    exact hloop
  · intro hkeyword hslots
    have h1 := keyword_value first.val (ascii "exportMode:") (ascii "FULL") hkeyword
    have h2 := keyword_value first.val (ascii "exportMode:") (ascii "INCREMENTAL") hkeyword
    have e1 : ascii "exportMode:" ++ ascii "FULL" = ascii "exportMode:FULL" := by decide
    have e2 : ascii "exportMode:" ++ ascii "INCREMENTAL" = ascii "exportMode:INCREMENTAL" := by
      decide
    have e3 : (ascii "exportMode:").length = 11 := by decide
    rw [e1, e3] at h1
    rw [e2, e3] at h2
    rw [exportMode_eq _ first rest hslots]
    simp only [h1, h2]

/-- Witness of C32: the header whose second record is `#key:id`. -/
theorem C32_record_without_its_keyword_is_fatal_witness :
    epfInit ⟨keylessHeader ++ sampleRow, 0⟩ = .fatal :=
  (C32_record_without_its_keyword_is_fatal ⟨keylessHeader ++ sampleRow, 0⟩
    ⟨declaredSchema, some 2, false, ⟨keylessHeader ++ sampleRow, 10⟩, 1, 0, 0, false⟩
    (newFile ⟨[], 0⟩) (newFile ⟨[], 0⟩)
    ⟨some [cstr "key:id"], false,
      ⟨declaredSchema, some 2, false, ⟨keylessHeader ++ sampleRow, 19⟩, 2, 0, 10, false⟩⟩
    (cstr "key:id") [] (by decide) rfl).1 (by decide) (by decide)

/-! ## Tokens that are not numbers -/

/-- The number `strtol` converts is 0 when no digit follows the white space and the sign. -/
theorem strtolValue_no_digits (s : List Byte)
    (h : ∀ c, (if (s.dropWhile isspace).head? = some 45 ∨ (s.dropWhile isspace).head? = some 43
        then (s.dropWhile isspace).tail else s.dropWhile isspace).head? = some c →
      isdigit c = false) :
    strtolValue s = 0 := by
  unfold strtolValue
  simp only [scanDigits_stop _ 0 h]
  split <;> rfl

/-- C37.  On an Integer or BigInt column, a non-empty token in which no decimal digit
follows the leading white space and the optional sign is given to `bsonAddInt32` with the
value 0: over a document that does not hold the (non-empty) name of the column, the Int32
field 0 is appended.  The transcoder writes for the record `abc\x01Hello` what it writes
for the record `0\x01Hello`: no error and no skip. -/
theorem C37_token_without_digits_becomes_zero (host : Host) (file : EPFFile) (j : Nat)
    (doc : bsonDocument) (i : Nat) (field : EPFField) (token : CStr)
    (hcount : file.fieldsCount = some file.fields.length)
    (hcol : file.fields.get? i = some field)
    (htype : field.fieldType = EPF_FIELDTYPE_INTEGER ∨ field.fieldType = EPF_FIELDTYPE_BIGINT)
    (htoken : token.val ≠ [])
    (hdigits : ∀ c, (if (token.val.dropWhile isspace).head? = some 45
          ∨ (token.val.dropWhile isspace).head? = some 43
        then (token.val.dropWhile isspace).tail else token.val.dropWhile isspace).head?
          = some c → isdigit c = false) :
    transcodeField host file j doc i token
        = .ok (bsonAddInt32 doc field.fieldName ⟨0, by decide⟩).2
    ∧ (field.fieldName.val ≠ [] → fieldNameExists doc field.fieldName = false →
        transcodeField host file j doc i token
          = .ok (doc ++ [(field.fieldName, .int32 ⟨0, by decide⟩)]))
    ∧ _writeEpfInBson sampleHost (sampleFile (ascii "abc" ++ [1] ++ ascii "Hello" ++ terminator))
        = _writeEpfInBson sampleHost
            (sampleFile (ascii "0" ++ [1] ++ ascii "Hello" ++ terminator)) := by
  have hval : (strtol token).val = 0 := by
    unfold strtol
    rw [strtolValue_no_digits token.val hdigits]
    exact clampLong_val 0 (by decide)
  have hstep := transcodeField_of_column host file j doc i field token hcount hcol htoken
  have hcase : field.fieldType = EPF_FIELDTYPE_BIGINT ∨ field.fieldType = EPF_FIELDTYPE_INTEGER :=
    htype.symm
  simp only [Outcome.bind, if_pos hcase] at hstep
  have h : -2147483648 ≤ (strtol token).val ∧ (strtol token).val ≤ 2147483647 := by
    rw [hval]; decide
  rw [dif_pos h] at hstep
  have hx : (⟨(strtol token).val, by omega⟩ : bsonInt32) = ⟨0, by decide⟩ := Subtype.ext hval
  rw [hx] at hstep
  refine ⟨hstep, fun hname hfresh => ?_, by decide⟩
  rw [hstep, (setter_fresh doc field.fieldName hname hfresh).2.1]

/-- Witness of C37: the tokens `abc` on an Integer column and ` -x` on a BigInt column. -/
theorem C37_token_without_digits_becomes_zero_witness :
    transcodeField sampleHost (columnFile EPF_FIELDTYPE_INTEGER []) 0 [] 0 (cstr "abc")
        = .ok ([] ++ [(sampleD, .int32 ⟨0, by decide⟩)])
    ∧ transcodeField sampleHost (columnFile EPF_FIELDTYPE_BIGINT []) 0 [] 0 (cstr " -x")
        = .ok ([] ++ [(sampleD, .int32 ⟨0, by decide⟩)]) :=
  ⟨(C37_token_without_digits_becomes_zero sampleHost (columnFile EPF_FIELDTYPE_INTEGER [])
      0 [] 0 ⟨sampleD, EPF_FIELDTYPE_INTEGER, 1, false⟩ (cstr "abc") rfl rfl (Or.inl rfl)
      (by decide) (by decide)).2.1 (by decide) rfl,
   (C37_token_without_digits_becomes_zero sampleHost (columnFile EPF_FIELDTYPE_BIGINT [])
      0 [] 0 ⟨sampleD, EPF_FIELDTYPE_BIGINT, 1, false⟩ (cstr " -x") rfl rfl (Or.inr rfl)
      (by decide) (by decide)).2.1 (by decide) rfl⟩

/-! ## Columns whose name is empty or repeated -/

/-- Every setter leaves the document of `setField`. -/
theorem setter_setField (doc : bsonDocument) (name : CStr) :
    (bsonAddNull doc name).2 = setField doc name .null
    ∧ (∀ v, (bsonAddInt32 doc name v).2 = setField doc name (.int32 v))
    ∧ (∀ v, (bsonAddInt64 doc name v).2 = setField doc name (.int64 v))
    ∧ (∀ v, (bsonAddBool doc name v).2 = setField doc name (.bool v))
    ∧ (∀ v, (bsonAddString doc name v).2 = setField doc name (.string v))
    ∧ (∀ v, (bsonAddDouble doc name v).2 = setField doc name (.double v))
    ∧ (∀ v block, (bsonAddDate doc name v block).2 = setField doc name (.utcDate block v)) := by
  unfold bsonAddNull bsonAddInt32 bsonAddInt64 bsonAddBool bsonAddString bsonAddDouble
    bsonAddDate setField
  refine ⟨?_, ?_, ?_, ?_, ?_, ?_, ?_⟩ <;> intros <;> split <;> first
    | rfl
    | (split <;> rfl)

/-- A column of one of the seven types gives its token to a setter, with a value that does
not depend on the document. -/
theorem transcodeField_setField (host : Host) (file : EPFFile) (j : Nat) (i : Nat)
    (field : EPFField) (token : CStr)
    (hcount : file.fieldsCount = some file.fields.length)
    (hcol : file.fields.get? i = some field)
    (htype : 1 ≤ field.fieldType ∧ field.fieldType ≤ 7) :
    ∃ value, ∀ doc, transcodeField host file j doc i token
      = .ok (setField doc field.fieldName value) := by
  by_cases htoken : token.val = []
  · have hlen : strlen token = 0 := by
      unfold strlen; rw [htoken]; rfl
    refine ⟨.null, fun doc => ?_⟩
    unfold transcodeField
    simp only [hcol, if_pos hlen, (setter_setField doc field.fieldName).1]
  · have hstep := fun doc =>
      transcodeField_of_column host file j doc i field token hcount hcol htoken
    simp only [Outcome.bind] at hstep
    have hcases : field.fieldType = 1 ∨ field.fieldType = 2 ∨ field.fieldType = 3
        ∨ field.fieldType = 4 ∨ field.fieldType = 5 ∨ field.fieldType = 6
        ∨ field.fieldType = 7 := by omega
    simp only [EPF_FIELDTYPE_BIGINT, EPF_FIELDTYPE_INTEGER, EPF_FIELDTYPE_BOOLEAN,
      EPF_FIELDTYPE_VARCHAR, EPF_FIELDTYPE_DATETIME, EPF_FIELDTYPE_LONGTEXT,
      EPF_FIELDTYPE_DECIMAL] at hstep
    rcases hcases with h | h | h | h | h | h | h <;> rw [h] at hstep <;>
      simp only [Nat.reduceEqDiff, or_true, true_or, or_self, if_true, if_false,
        OfNat.ofNat_ne_one, Nat.succ_ne_self, reduceIte, Nat.reduceEqDiff] at hstep
    · by_cases hr : -2147483648 ≤ (strtol token).val ∧ (strtol token).val ≤ 2147483647
      · exact ⟨_, fun doc => by
          rw [hstep doc, dif_pos hr, (setter_setField doc field.fieldName).2.1]⟩
      · exact ⟨_, fun doc => by
          rw [hstep doc, dif_neg hr, (setter_setField doc field.fieldName).2.2.1]⟩
    · by_cases hr : -2147483648 ≤ (strtol token).val ∧ (strtol token).val ≤ 2147483647
      · exact ⟨_, fun doc => by
          rw [hstep doc, dif_pos hr, (setter_setField doc field.fieldName).2.1]⟩
      · exact ⟨_, fun doc => by
          rw [hstep doc, dif_neg hr, (setter_setField doc field.fieldName).2.2.1]⟩
    · by_cases hb : strncmpEq (ascii "0") token.val 1 = true
      · exact ⟨_, fun doc => by
          rw [hstep doc, if_pos hb, (setter_setField doc field.fieldName).2.2.2.1]⟩
      · exact ⟨_, fun doc => by
          rw [hstep doc, if_neg hb, (setter_setField doc field.fieldName).2.2.2.1]⟩
    · exact ⟨_, fun doc => by
        rw [hstep doc, (setter_setField doc field.fieldName).2.2.2.2.1]⟩
    · exact ⟨_, fun doc => by
        rw [hstep doc, (setter_setField doc field.fieldName).2.2.2.2.2.2]⟩
    · exact ⟨_, fun doc => by
        rw [hstep doc, (setter_setField doc field.fieldName).2.2.2.2.1]⟩
    · exact ⟨_, fun doc => by
        rw [hstep doc, (setter_setField doc field.fieldName).2.2.2.2.2.1]⟩

/-- The names of the document a setter leaves. -/
theorem fieldNames_setField (doc : bsonDocument) (name : CStr) (value : bsonValue) :
    fieldNames (setField doc name value)
      = if name.val = [] ∨ name ∈ fieldNames doc then fieldNames doc
        else fieldNames doc ++ [name] := by
  unfold setField
  by_cases hname : name.val = []
  · have hlen : strlen name = 0 := by unfold strlen; rw [hname]; rfl
    rw [if_pos hlen, if_pos (Or.inl hname)]
  · have hlen : ¬ strlen name = 0 := by
      unfold strlen
      exact fun h => hname (List.length_eq_zero.mp h)
    rw [if_neg hlen]
    by_cases hmem : name ∈ fieldNames doc
    · rw [if_pos ((fieldNameExists_iff doc name).mpr hmem), if_pos (Or.inr hmem)]
    · have hex : ¬ fieldNameExists doc name = true :=
        fun h => hmem ((fieldNameExists_iff doc name).mp h)
      rw [if_neg hex, if_neg (by rintro (h | h); exact hname h; exact hmem h)]
      unfold appendField fieldNames
      rw [List.map_append]
      rfl

/-- A setter keeps the fields the document has. -/
theorem setField_extends (doc : bsonDocument) (name : CStr) (value : bsonValue) :
    doc <+: setField doc name value := by
  unfold setField
  split
  · exact List.prefix_refl doc
  · split
    · exact List.prefix_refl doc
    · exact List.prefix_append doc _

/-- The loop of the transcoder over an entry that is not longer than the schema, on columns
of the seven types: it returns; the names of the document are those it had and, of the names
of the columns it has passed, the ones that are neither empty nor present before; the
fields it had are kept; and a column whose name is not empty and occurs neither in the
document nor at a column passed before it has its value in the document. -/
theorem transcodeEntry_kept (host : Host) (file : EPFFile) (j : Nat)
    (hcount : file.fieldsCount = some file.fields.length)
    (htypes : ∀ f ∈ file.fields, 1 ≤ f.fieldType ∧ f.fieldType ≤ 7)
    (entry : List CStr) (i : Nat) (doc : bsonDocument)
    (hlen : i + entry.length ≤ file.fields.length) :
    ∃ result, transcodeEntry host file j entry i doc = .ok result
      ∧ fieldNames result
          = (((file.fields.map EPFField.fieldName).drop i).take entry.length).foldl
              (fun kept name => if name.val = [] ∨ name ∈ kept then kept else kept ++ [name])
              (fieldNames doc)
      ∧ doc <+: result
      ∧ ∀ k token field, entry.get? k = some token → file.fields.get? (i + k) = some field →
          field.fieldName.val ≠ [] → field.fieldName ∉ fieldNames doc →
          (∀ k' f', k' < k → file.fields.get? (i + k') = some f' →
            f'.fieldName ≠ field.fieldName) →
          ∃ value, transcodeField host file j [] (i + k) token
              = .ok [(field.fieldName, value)]
            ∧ (field.fieldName, value) ∈ result := by
  induction entry generalizing i doc with
  | nil =>
    refine ⟨doc, rfl, rfl, List.prefix_refl doc, ?_⟩
    intro k token field hk
    cases hk
  | cons token rest ih =>
    rw [List.length_cons] at hlen
    have hi : i < file.fields.length := by omega
    have hcol : file.fields.get? i = some (file.fields.get ⟨i, hi⟩) := List.get?_eq_get hi
    obtain ⟨value, hvalue⟩ := transcodeField_setField host file j i _ token hcount hcol
      (htypes _ (List.get_mem _ _ _))
    obtain ⟨result, hresult, hnames, hext, hvalues⟩ :=
      ih (i + 1) (setField doc (file.fields.get ⟨i, hi⟩).fieldName value) (by omega)
    have hrun : transcodeEntry host file j (token :: rest) i doc = .ok result := by
      rw [transcodeEntry, hcount, Option.getD_some, if_neg (by omega), hvalue doc]
      exact hresult
    have hdrop : ((file.fields.map EPFField.fieldName).drop i).take (rest.length + 1)
        = (file.fields.get ⟨i, hi⟩).fieldName
          :: ((file.fields.map EPFField.fieldName).drop (i + 1)).take rest.length := by
      have hi' : i < (file.fields.map EPFField.fieldName).length := by
        rw [List.length_map]; exact hi
      rw [List.drop_eq_getElem_cons hi', List.take_succ_cons, List.getElem_map]
      rfl
    refine ⟨result, hrun, ?_, (setField_extends doc _ value).trans hext, ?_⟩
    · rw [List.length_cons, hdrop, List.foldl_cons, hnames, fieldNames_setField]
    · intro k token' field hk hfield hname hfresh hfirst
      cases k with
      | zero =>
        rw [Nat.add_zero, hcol] at hfield
        cases hfield
        cases hk
        refine ⟨value, ?_, ?_⟩
        · rw [Nat.add_zero, hvalue []]
          unfold setField
          have hlen0 : ¬ strlen (file.fields.get ⟨i, hi⟩).fieldName = 0 := by
            unfold strlen
            exact fun h => hname (List.length_eq_zero.mp h)
          rw [if_neg hlen0, if_neg (fun h => Bool.noConfusion h)]
          rfl
        · apply hext.subset
          unfold setField
          have hlen0 : ¬ strlen (file.fields.get ⟨i, hi⟩).fieldName = 0 := by
            unfold strlen
            exact fun h => hname (List.length_eq_zero.mp h)
          have hex : ¬ fieldNameExists doc (file.fields.get ⟨i, hi⟩).fieldName = true :=
            fun h => hfresh ((fieldNameExists_iff doc _).mp h)
          rw [if_neg hlen0, if_neg hex]
          unfold appendField
          exact List.mem_append_right _ (List.mem_singleton_self _)
      | succ k =>
        have hshift : ∀ m, i + (m + 1) = i + 1 + m := fun m => by omega
        rw [hshift] at hfield
        have hne : (file.fields.get ⟨i, hi⟩).fieldName ≠ field.fieldName :=
          hfirst 0 _ (Nat.succ_pos k) (by rw [Nat.add_zero]; exact hcol)
        have hfresh' : field.fieldName
            ∉ fieldNames (setField doc (file.fields.get ⟨i, hi⟩).fieldName value) := by
          rw [fieldNames_setField]
          split
          · exact hfresh
          · rw [List.mem_append, List.mem_singleton]
            rintro (h | h)
            · exact hfresh h
            · exact hne h.symm
        obtain ⟨v, hv, hmem⟩ := hvalues k token' field hk hfield hname hfresh'
          (fun k' f' hk' hf' => hfirst (k' + 1) f' (by omega) (by rw [hshift]; exact hf'))
        exact ⟨v, by rw [hshift]; exact hv, hmem⟩

/-- Keeping names at their first occurrence, from names already kept: the result has no
repetition and no empty name when the names kept before have none, and it is these followed
by some of the new names, in their order. -/
theorem kept_fold (names kept : List CStr) :
    (kept.Nodup → (names.foldl
        (fun kept name => if name.val = [] ∨ name ∈ kept then kept else kept ++ [name])
        kept).Nodup)
    ∧ ((∀ n ∈ kept, n.val ≠ []) → ∀ n ∈ names.foldl
        (fun kept name => if name.val = [] ∨ name ∈ kept then kept else kept ++ [name])
        kept, n.val ≠ [])
    ∧ ∃ s, s.Sublist names ∧ names.foldl
        (fun kept name => if name.val = [] ∨ name ∈ kept then kept else kept ++ [name])
        kept = kept ++ s := by
  induction names generalizing kept with
  | nil => exact ⟨fun h => h, fun h => h, [], List.Sublist.refl _, (List.append_nil _).symm⟩
  | cons name rest ih =>
    rw [List.foldl_cons]
    by_cases hkeep : name.val = [] ∨ name ∈ kept
    · rw [if_pos hkeep]
      obtain ⟨h1, h2, s, hs, heq⟩ := ih kept
      exact ⟨h1, h2, s, hs.cons name, heq⟩
    · rw [if_neg hkeep]
      obtain ⟨h1, h2, s, hs, heq⟩ := ih (kept ++ [name])
      refine ⟨fun hk => h1 ?_, fun hk => h2 ?_, name :: s, hs.cons₂ name, ?_⟩
      · rw [List.nodup_append]
        refine ⟨hk, List.nodup_singleton name, ?_⟩
        intro a ha hb
        rw [List.mem_singleton] at hb
        exact hkeep (Or.inr (hb ▸ ha))
      · intro n hn
        rw [List.mem_append, List.mem_singleton] at hn
        rcases hn with hn | hn
        · exact hk n hn
        · rw [hn]
          exact fun h => hkeep (Or.inl h)
      · rw [heq, List.append_assoc]
        rfl

/-- Where a name is empty or repeated, fewer names are kept than there are. -/
theorem keptNames_length (names : List CStr)
    (h : (∃ n ∈ names, n.val = []) ∨ ¬ names.Nodup) :
    (keptNames names).length < names.length := by
  obtain ⟨h1, h2, s, hs, heq⟩ := kept_fold names []
  have hk : keptNames names = s := by
    unfold keptNames
    rw [heq, List.nil_append]
  have hnodup : (keptNames names).Nodup := h1 List.nodup_nil
  have hfull : ∀ n ∈ keptNames names, n.val ≠ [] :=
    h2 (fun n hn => absurd hn (List.not_mem_nil n))
  rcases Nat.lt_or_ge (keptNames names).length names.length with hlt | hge
  · exact hlt
  · exfalso
    have heq' : keptNames names = names := by
      rw [hk]
      exact hs.eq_of_length (Nat.le_antisymm hs.length_le (by rw [← hk]; exact hge))
    rw [heq'] at hnodup hfull
    rcases h with ⟨n, hn, hempty⟩ | hdup
    · exact hfull n hn hempty
    · exact hdup hnodup

/-- Names without repetition, none of them empty, are all kept. -/
theorem keptNames_of_nodup (names : List CStr) (hnodup : names.Nodup)
    (hfull : ∀ n ∈ names, n.val ≠ []) (kept : List CStr)
    (hkept : ∀ n ∈ names, n ∉ kept) :
    names.foldl (fun kept name => if name.val = [] ∨ name ∈ kept then kept else kept ++ [name])
      kept = kept ++ names := by
  induction names generalizing kept with
  | nil => exact (List.append_nil _).symm
  | cons name rest ih =>
    rw [List.nodup_cons] at hnodup
    have hname : ¬ (name.val = [] ∨ name ∈ kept) := by
      rintro (h | h)
      · exact hfull name (List.mem_cons_self name rest) h
      · exact hkept name (List.mem_cons_self name rest) h
    rw [List.foldl_cons, if_neg hname,
      ih hnodup.2 (fun n hn => hfull n (List.mem_cons_of_mem name hn)) (kept ++ [name]) ?_,
      List.append_assoc]
    · rfl
    · intro n hn hmem
      rw [List.mem_append, List.mem_singleton] at hmem
      rcases hmem with hmem | hmem
      · exact hkept n (List.mem_cons_of_mem name hn) hmem
      · exact hnodup.1 (hmem ▸ hn)

/-- C39.  Over a schema of the seven types in which a name is empty or repeated, the
transcoder returns for every entry of as many tokens as the arity, without an error: the
names of its document are the names of the columns that are not empty, each at its first
occurrence, so the document has fewer fields than the arity; and each column whose name is
not empty and is not the name of an earlier column has its value in the document, the value
the transcoder gives to its token.  The tokens of the other columns are dropped. -/
theorem C39_empty_or_repeated_name_drops_the_column (host : Host) (file : EPFFile) (j : Nat)
    (entry : List CStr) (hcount : file.fieldsCount = some file.fields.length)
    (htypes : ∀ f ∈ file.fields, 1 ≤ f.fieldType ∧ f.fieldType ≤ 7)
    (hlen : entry.length = file.fields.length)
    (hname : (∃ n ∈ file.fields.map EPFField.fieldName, n.val = [])
      ∨ ¬ (file.fields.map EPFField.fieldName).Nodup) :
    ∃ doc, transcodeEntry host file j entry 0 createBsonDocument = .ok doc
      ∧ fieldNames doc = keptNames (file.fields.map EPFField.fieldName)
      ∧ doc.length < file.fields.length
      ∧ ∀ k token field, entry.get? k = some token → file.fields.get? k = some field →
          field.fieldName.val ≠ [] →
          (∀ k' f', k' < k → file.fields.get? k' = some f' →
            f'.fieldName ≠ field.fieldName) →
          ∃ value, transcodeField host file j [] k token = .ok [(field.fieldName, value)]
            ∧ (field.fieldName, value) ∈ doc := by
  obtain ⟨doc, hdoc, hnames, _, hvalues⟩ :=
    transcodeEntry_kept host file j hcount htypes entry 0 createBsonDocument
      (by rw [Nat.zero_add, hlen])
  have hall : ((file.fields.map EPFField.fieldName).drop 0).take entry.length
      = file.fields.map EPFField.fieldName := by
    rw [List.drop_zero, hlen, ← List.length_map file.fields EPFField.fieldName, List.take_length]
  rw [hall] at hnames
  have hkept : fieldNames doc = keptNames (file.fields.map EPFField.fieldName) := hnames
  refine ⟨doc, hdoc, hkept, ?_, ?_⟩
  · have h := keptNames_length _ hname
    rw [← hkept, List.length_map] at h
    unfold fieldNames at h
    rw [List.length_map] at h
    exact h
  · intro k token field hk hfield hfull hfirst
    have h := hvalues k token field hk (by rw [Nat.zero_add]; exact hfield) hfull
      (List.not_mem_nil _)
      (fun k' f' hk' hf' => hfirst k' f' hk' (by rw [Nat.zero_add] at hf'; exact hf'))
    rw [Nat.zero_add] at h
    exact h

/-- Witness of C39: the columns `id`, `id` and the empty name, and the record
`42\x01Hello\x01World`: the document is `{id: 42}` and the transcoder writes it. -/
theorem C39_empty_or_repeated_name_drops_the_column_witness :
    (∃ doc, transcodeEntry sampleHost (repeatedFile repeatedRow) 0
        [cstr "42", cstr "Hello", cstr "World"] 0 createBsonDocument = .ok doc
      ∧ fieldNames doc = keptNames [sampleId, sampleId, cstr ""]
      ∧ doc.length < 3)
    ∧ keptNames [sampleId, sampleId, cstr ""] = [sampleId]
    ∧ transcodeEntry sampleHost (repeatedFile repeatedRow) 0
        [cstr "42", cstr "Hello", cstr "World"] 0 createBsonDocument
        = .ok [(sampleId, .int32 sample42)]
    ∧ (bsonSerialize [(sampleId, .int32 sample42)]).bind
        (fun serialized => some (Outcome.ok serialized.binaryValue))
        = some (_writeEpfInBson sampleHost (repeatedFile repeatedRow)) :=
  ⟨(C39_empty_or_repeated_name_drops_the_column sampleHost (repeatedFile repeatedRow) 0
      [cstr "42", cstr "Hello", cstr "World"] rfl (by decide) rfl (by decide)).imp
      (fun _ h => ⟨h.1, h.2.1, h.2.2.1⟩),
   by decide, rfl, by decide⟩

/-! ## Marked records in the data -/

/-- A record with the mark `#`, of at most the arity plus one fields, is returned by
`_getNextRecord` whatever the arity. -/
theorem getNextRecord_marked (file : EPFFile) (tokens : List CStr) (rest : List Byte)
    (hne : tokens ≠ []) (hsep : ∀ t ∈ tokens, (1 : Byte) ∉ t.val)
    (hdrop : file.fp.contents.drop file.fp.position
      = [0x23] ++ joinFields (fieldBytes tokens) ++ terminator ++ rest)
    (hpair : hasTerminator ([0x23] ++ joinFields (fieldBytes tokens)) = false)
    (h255 : (255 : Byte) ∉ joinFields (fieldBytes tokens))
    (hlen : ([0x23] ++ joinFields (fieldBytes tokens)).length < 4095)
    (hslots : tokens.length ≤ (match file.fieldsCount with
      | none => 1024
      | some n => n + 1)) :
    ∃ next, _getNextRecord file = .ok next
      ∧ next.fields = some tokens ∧ next.epfRecoverableReadEmpty = false
      ∧ next.file.fieldsCount = some (file.fieldsCount.getD tokens.length)
      ∧ next.file.fields = file.fields := by
  have h := getNextRecord_fields file true tokens rest hne hsep (fun h => by cases h) hdrop
    hpair
    (by
      show (255 : Byte) ∉ [(0x23 : Byte)] ++ joinFields (fieldBytes tokens)
      rw [List.mem_append]
      rintro (h | h)
      · exact absurd h (by decide)
      · exact h255 h)
    (by
      show ((0x23 : Byte) :: joinFields (fieldBytes tokens)).head? ≠ some 10
      intro h
      rw [List.head?_cons] at h
      exact absurd (Option.some.inj h) (by decide))
    hlen hslots (fun h => by cases h)
  exact ⟨_, h, rfl, rfl, rfl, rfl⟩

/-- C40.  With distinct non-empty column names of the seven types, a data record that starts
with `#` and has fewer fields than the arity (fields without `0x01`, the record without
terminator pair and `0xFF` and shorter than 4095 bytes) is returned by `epfNextEntry`
without the flag of a skip, its fields being those that follow the `#`; the transcoder
returns for it a document of exactly as many fields, named by the first columns of the
schema in order, each with the value the transcoder gives to the token of its column. -/
theorem C40_marked_short_record_is_transcoded (host : Host) (file : EPFFile) (j : Nat)
    (tokens : List CStr) (rest : List Byte) (hready : file.ready = true)
    (hcount : file.fieldsCount = some file.fields.length)
    (hnames : (file.fields.map EPFField.fieldName).Nodup)
    (hnonempty : ∀ f ∈ file.fields, f.fieldName.val ≠ [])
    (htypes : ∀ f ∈ file.fields, 1 ≤ f.fieldType ∧ f.fieldType ≤ 7)
    (hne : tokens ≠ []) (hshort : tokens.length < file.fields.length)
    (hsep : ∀ t ∈ tokens, (1 : Byte) ∉ t.val)
    (hdrop : file.fp.contents.drop file.fp.position
      = [0x23] ++ joinFields (fieldBytes tokens) ++ terminator ++ rest)
    (hpair : hasTerminator ([0x23] ++ joinFields (fieldBytes tokens)) = false)
    (h255 : (255 : Byte) ∉ joinFields (fieldBytes tokens))
    (hlen : ([0x23] ++ joinFields (fieldBytes tokens)).length < 4095) :
    ∃ next doc, epfNextEntry file = .ok next
      ∧ next.fields = some tokens ∧ next.epfRecoverableReadEmpty = false
      ∧ transcodeEntry host next.file j tokens 0 createBsonDocument = .ok doc
      ∧ fieldNames doc = (file.fields.take tokens.length).map EPFField.fieldName
      ∧ doc.length = tokens.length
      ∧ ∀ k token field, tokens.get? k = some token → file.fields.get? k = some field →
          ∃ value, transcodeField host next.file j [] k token
              = .ok [(field.fieldName, value)]
            ∧ (field.fieldName, value) ∈ doc := by
  obtain ⟨next, hnext, hfields, hflag, hknown, hschema⟩ :=
    getNextRecord_marked file tokens rest hne hsep hdrop hpair h255 hlen
      (by rw [hcount]; show tokens.length ≤ file.fields.length + 1; omega)
  rw [hcount, Option.getD_some, ← hschema] at hknown
  rw [← hschema] at hnames hnonempty htypes hshort
  obtain ⟨doc, hdoc, hdocnames, _, hvalues⟩ :=
    transcodeEntry_kept host next.file j hknown htypes tokens 0 createBsonDocument
      (by rw [Nat.zero_add]; exact Nat.le_of_lt hshort)
  have hsub : ((next.file.fields.map EPFField.fieldName).take tokens.length).Sublist
      (next.file.fields.map EPFField.fieldName) := List.take_sublist _ _
  have hkept := keptNames_of_nodup _ (hnames.sublist hsub)
    (fun n hn => by
      obtain ⟨f, hf, hfn⟩ := List.mem_map.mp (hsub.subset hn)
      rw [← hfn]
      exact hnonempty f hf)
    [] (fun n _ => List.not_mem_nil n)
  rw [List.drop_zero] at hdocnames
  have hnames' : fieldNames doc
      = (next.file.fields.map EPFField.fieldName).take tokens.length := by
    rw [hdocnames]
    exact hkept
  have hentry : epfNextEntry file = .ok next := by
    unfold epfNextEntry
    rw [hready]
    exact hnext
  refine ⟨next, doc, hentry, hfields, hflag, hdoc, ?_, ?_, ?_⟩
  · rw [hnames', ← hschema, List.map_take]
  · have h := congrArg List.length hnames'
    unfold fieldNames at h
    rw [List.length_map, List.length_take, List.length_map] at h
    omega
  · intro k token field hk hfield
    rw [← hschema] at hfield
    have hmem : field ∈ next.file.fields := List.mem_iff_get?.mpr ⟨k, hfield⟩
    have h := hvalues k token field hk (by rw [Nat.zero_add]; exact hfield)
      (hnonempty field hmem) (List.not_mem_nil _)
      (fun k' f' hk' hf' heq => by
        rw [Nat.zero_add] at hf'
        have hklt : k < next.file.fields.length := by
          rcases Nat.lt_or_ge k next.file.fields.length with h | h
          · exact h
          · rw [List.get?_eq_none.mpr h] at hfield; cases hfield
        have hne' := (List.nodup_iff_get?_ne_get?.mp hnames) k' k hk'
          (by rw [List.length_map]; exact hklt)
        apply hne'
        rw [List.get?_eq_getElem?, List.get?_eq_getElem?, List.getElem?_map,
          List.getElem?_map, ← List.get?_eq_getElem?, ← List.get?_eq_getElem?, hf', hfield]
        exact congrArg some heq)
    rw [Nat.zero_add] at h
    exact h

/-- Witness of C40: with the columns `id` and `name`, the record `#7` gives the document
`{id: 7}`, and the transcoder writes it. -/
theorem C40_marked_short_record_is_transcoded_witness :
    (∃ next doc, epfNextEntry (sampleFile (markedShortRow ++ sampleRow)) = .ok next
      ∧ next.fields = some [cstr "7"] ∧ next.epfRecoverableReadEmpty = false
      ∧ transcodeEntry sampleHost next.file 0 [cstr "7"] 0 createBsonDocument = .ok doc
      ∧ fieldNames doc = [sampleId] ∧ doc.length = 1)
    ∧ (bsonSerialize [(sampleId, .int32 ⟨7, by decide⟩)]).bind
        (fun serialized => some (Outcome.ok serialized.binaryValue))
        = some (_writeEpfInBson sampleHost (sampleFile markedShortRow)) :=
  ⟨(C40_marked_short_record_is_transcoded sampleHost (sampleFile (markedShortRow ++ sampleRow))
      0 [cstr "7"] sampleRow rfl rfl (by decide) (by decide) (by decide) (by decide)
      (by decide) (by decide) (by decide) (by decide) (by decide) (by decide)).imp
      (fun _ h => h.imp (fun _ h => ⟨h.1, h.2.1, h.2.2.1, h.2.2.2.1, h.2.2.2.2.1,
        h.2.2.2.2.2.1⟩)),
   by decide⟩

/-! ## The stores of the encoder -/

/-- The payloads of the first fields of a document. -/
theorem fieldPayloads_take (d : bsonDocument) :
    ∀ (ps : List (List Byte)) (k : Nat), fieldPayloads d = some ps →
      fieldPayloads (d.take k) = some (ps.take k) := by
  induction d with
  | nil =>
    intro ps k hp
    rw [fieldPayloads] at hp
    cases hp
    rw [List.take_nil, List.take_nil]
    rfl
  | cons f rest ih =>
    obtain ⟨name, v⟩ := f
    intro ps k hp
    cases k with
    | zero => rfl
    | succ k =>
      rw [fieldPayloads] at hp
      cases hv : _serializedValue v with
      | none => rw [hv] at hp; cases hp
      | some value =>
        rw [hv, Option.some_bind] at hp
        cases hr : fieldPayloads rest with
        | none => rw [hr] at hp; cases hp
        | some ps1 =>
          rw [hr] at hp
          cases hp
          rw [List.take_succ_cons, List.take_succ_cons, fieldPayloads, hv, Option.some_bind,
            ih ps1 k hr]
          rfl

/-- The payload of the field at an index of a document. -/
theorem fieldPayloads_get (d : bsonDocument) :
    ∀ (ps : List (List Byte)) (k : Nat) (name : CStr) (v : bsonValue),
      fieldPayloads d = some ps → d.get? k = some (name, v) →
      ∃ value, _serializedValue v = some value
        ∧ ps.get? k = some (value.binaryValue.take value.length)
        ∧ value.binaryValue.length = value.length := by
  induction d with
  | nil => intro ps k name v _ hk; cases hk
  | cons f rest ih =>
    obtain ⟨name0, v0⟩ := f
    intro ps k name v hp hk
    rw [fieldPayloads] at hp
    cases hv : _serializedValue v0 with
    | none => rw [hv] at hp; cases hp
    | some value =>
      rw [hv, Option.some_bind] at hp
      cases hr : fieldPayloads rest with
      | none => rw [hr] at hp; cases hp
      | some ps1 =>
        rw [hr] at hp
        cases hp
        cases k with
        | zero =>
          cases hk
          exact ⟨value, hv, rfl, serializedValue_length hv⟩
        | succ k => exact ih ps1 k name v hr hk

/-- C38.  For a document each of whose values has a serialisation: after each field the
loop of `bsonSerialize` has `documentSize = bufferPosition + 1` and
`documentSize < allocatedSize`; the stores of the tag, of the name with its NUL and of the
payload of the field at index `k` succeed, they move `bufferPosition` by
`1 + (strlen(name) + 1) + value.length`, and the position they end at is below the
`allocatedSize` they are made under; and the store of the terminator byte after the loop
succeeds with `bufferPosition ≤ allocatedSize`, `bufferPosition` being the length returned.
A store succeeds only when the bytes it writes lie inside `allocatedSize`. -/
theorem C38_stores_lie_inside_the_buffer (d : bsonDocument) (ps : List (List Byte))
    (hps : fieldPayloads d = some ps) :
    (∀ k, ∃ st, serializeFields (d.take k) serializeStart = some st
      ∧ st.documentSize = st.bufferPosition + 1 ∧ st.documentSize < st.allocatedSize)
    ∧ (∀ k name v, d.get? k = some (name, v) →
        ∃ st st' value, serializeFields (d.take k) serializeStart = some st
          ∧ serializeFields (d.take (k + 1)) serializeStart = some st'
          ∧ _serializedValue v = some value
          ∧ st'.bufferPosition = st.bufferPosition + 1 + (strlen name + 1) + value.length
          ∧ st'.bufferPosition + 1 < st'.allocatedSize)
    ∧ (∃ st stored out, serializeFields d serializeStart = some st
        ∧ storeBytes st [0] 1 = some stored
        ∧ stored.bufferPosition ≤ stored.allocatedSize
        ∧ bsonSerialize d = some out ∧ out.length = stored.bufferPosition)
    ∧ (∀ (st stored : SerializeLocals) (src : List Byte) (n : Nat),
        storeBytes st src n = some stored →
          st.bufferPosition + n ≤ st.allocatedSize
            ∧ stored.bufferPosition = st.bufferPosition + n
            ∧ stored.allocatedSize = st.allocatedSize) := by
  have hstate : ∀ k, ∃ a, serializeStart.documentSize
        + (encodedFields (d.take k) (ps.take k)).length < a
      ∧ serializeFields (d.take k) serializeStart = some
          { bson := serializeStart.bson ++ encodedFields (d.take k) (ps.take k),
            allocatedSize := a,
            documentSize := serializeStart.documentSize
              + (encodedFields (d.take k) (ps.take k)).length,
            bufferPosition := serializeStart.bufferPosition
              + (encodedFields (d.take k) (ps.take k)).length } :=
    fun k => serializeFields_some (d.take k) (ps.take k) serializeStart
      (fieldPayloads_take d ps k hps) rfl (by decide)
  have hstart : serializeStart.documentSize = 5 ∧ serializeStart.bufferPosition = 4 :=
    ⟨rfl, rfl⟩
  refine ⟨?_, ?_, ?_, ?_⟩
  · intro k
    obtain ⟨a, ha, hk⟩ := hstate k
    refine ⟨_, hk, ?_, ?_⟩
    · show serializeStart.documentSize + _ = serializeStart.bufferPosition + _ + 1
      rw [hstart.1, hstart.2]
      omega
    · exact ha
  · intro k name v hget
    obtain ⟨a, _, hk⟩ := hstate k
    obtain ⟨a', ha', hk'⟩ := hstate (k + 1)
    obtain ⟨value, hv, hp, hl⟩ := fieldPayloads_get d ps k name v hps hget
    have hd : d.take (k + 1) = d.take k ++ [(name, v)] := take_succ_of_get? d k _ hget
    have hpk : ps.take (k + 1) = ps.take k ++ [value.binaryValue.take value.length] :=
      take_succ_of_get? ps k _ hp
    have hklt : k < d.length := by
      rcases Nat.lt_or_ge k d.length with h | h
      · exact h
      · rw [List.get?_eq_none.mpr h] at hget; cases hget
    have hlen : (ps.take k).length = (d.take k).length := by
      rw [List.length_take, List.length_take, fieldPayloads_length d ps hps]
    have henc : (encodedFields (d.take (k + 1)) (ps.take (k + 1))).length
        = (encodedFields (d.take k) (ps.take k)).length
          + (1 + (strlen name + 1) + value.length) := by
      rw [hd, hpk, encodedFields_append _ _ _ _ _ hlen]
      simp only [List.length_append, List.length_cons, List.length_nil, List.length_take, hl,
        Nat.min_self, strlen]
      omega
    refine ⟨_, _, value, hk, hk', hv, ?_, ?_⟩
    · show serializeStart.bufferPosition + _ = serializeStart.bufferPosition + _ + 1 + _ + _
      rw [henc]
      omega
    · show serializeStart.bufferPosition + _ + 1 < a'
      rw [hstart.1] at ha'
      rw [hstart.2]
      omega
  · obtain ⟨a, ha, hk⟩ := hstate d.length
    have hps' : ps.take d.length = ps := by
      rw [← fieldPayloads_length d ps hps, List.take_length]
    rw [List.take_length, hps'] at hk ha
    rw [hstart.1] at ha
    have hstore := storeBytes_eq
      { bson := serializeStart.bson ++ encodedFields d ps, allocatedSize := a,
        documentSize := serializeStart.documentSize + (encodedFields d ps).length,
        bufferPosition := serializeStart.bufferPosition + (encodedFields d ps).length }
      [0] 1 (by show serializeStart.bufferPosition + _ + 1 ≤ a; rw [hstart.2]; omega) rfl
    refine ⟨_, _, _, hk, hstore, ?_, bsonSerialize_some d ps hps, ?_⟩
    · show serializeStart.bufferPosition + _ + 1 ≤ a
      rw [hstart.2]
      omega
    · show 4 + (encodedFields d ps).length + 1 = serializeStart.bufferPosition + _ + 1
      rw [hstart.2]
  · intro st stored src n h
    unfold storeBytes at h
    split at h
    · rename_i hin
      cases h
      exact ⟨hin.1, rfl, rfl⟩
    · cases h

/-- Witness of C38: the sample document of four fields, two of which are nested
documents. -/
theorem C38_stores_lie_inside_the_buffer_witness :
    ∃ st stored out, serializeFields sampleDocument serializeStart = some st
      ∧ storeBytes st [0] 1 = some stored
      ∧ stored.bufferPosition ≤ stored.allocatedSize
      ∧ bsonSerialize sampleDocument = some out ∧ out.length = stored.bufferPosition :=
  (C38_stores_lie_inside_the_buffer sampleDocument
    ((fieldPayloads sampleDocument).get (by decide))
    (Option.some_get (by decide)).symm).2.2.1

/-! ## The members `epfInit` does not assign -/

/-- The function `_readRecord` reads neither `fields`, `incremental`, `ready` nor
`lastEntryOffset`, and leaves the first three as they are. -/
theorem readRecord_withMembers (fa : List EPFField → List EPFField) (fb fc : Bool → Bool)
    (x : Nat) (file : EPFFile) :
    _readRecord { withMembers fa fb fc file with lastEntryOffset := x }
      = (_readRecord file).bind fun read => .ok (read.1, withMembers fa fb fc read.2) := by
  unfold _readRecord
  show (match readLoop (file.fp.contents.drop file.fp.position) [] none 0 with
    | .undefined => _ | .fatal => _ | .endOfFile consumed => _ | .record record consumed => _)
    = Outcome.bind (match readLoop (file.fp.contents.drop file.fp.position) [] none 0 with
    | .undefined => _ | .fatal => _ | .endOfFile consumed => _ | .record record consumed => _) _
  cases readLoop (file.fp.contents.drop file.fp.position) [] none 0 <;> rfl

/-- The function `_getNextRecord` likewise. -/
theorem getNextRecord_withMembers (fa : List EPFField → List EPFField) (fb fc : Bool → Bool)
    (x : Nat) (file : EPFFile) :
    _getNextRecord { withMembers fa fb fc file with lastEntryOffset := x }
      = (_getNextRecord file).bind fun next =>
          .ok ⟨next.fields, next.epfRecoverableReadEmpty, withMembers fa fb fc next.file⟩ := by
  unfold _getNextRecord
  rw [readRecord_withMembers]
  cases hread : _readRecord file with
  | fatal => rfl
  | undefined => rfl
  | ok read =>
    obtain ⟨line, file'⟩ := read
    cases line with
    | none => rfl
    | some line =>
      show Outcome.bind (splitRecord file'.fieldsCount line) _
        = Outcome.bind (Outcome.bind (splitRecord file'.fieldsCount line) _) _
      cases splitRecord file'.fieldsCount line <;> rfl

/-- The function `_parseFieldNames` assigns `fields`, and reads neither `incremental` nor
`ready`. -/
theorem parseFieldNames_withMembers (fa : List EPFField → List EPFField) (fb fc : Bool → Bool)
    (x : Nat) (file : EPFFile) :
    _parseFieldNames { withMembers fa fb fc file with lastEntryOffset := x }
      = (_parseFieldNames file).bind fun parsed => .ok (withMembers id fb fc parsed) := by
  unfold _parseFieldNames
  by_cases hlines : file.readLines ≠ 0
  · rw [if_pos hlines, if_pos (by exact hlines)]
    rfl
  · rw [if_neg hlines, if_neg (by exact hlines), getNextRecord_withMembers]
    cases _getNextRecord file with
    | fatal => rfl
    | undefined => rfl
    | ok next =>
      show Outcome.bind (declaredFields next.file.fieldsCount next.fields) _
        = Outcome.bind (Outcome.bind (declaredFields next.file.fieldsCount next.fields) _) _
      cases declaredFields next.file.fieldsCount next.fields <;> rfl

/-- The function `_parseIndexedFields` reads neither `incremental` nor `ready`. -/
theorem parseIndexedFields_withMembers (fb fc : Bool → Bool) (file : EPFFile) :
    _parseIndexedFields (withMembers id fb fc file)
      = (_parseIndexedFields file).bind fun parsed => .ok (withMembers id fb fc parsed) := by
  unfold _parseIndexedFields
  by_cases hlines : file.readLines ≠ 1
  · rw [if_pos hlines, if_pos (by exact hlines)]
    rfl
  · rw [if_neg hlines, if_neg (by exact hlines)]
    have h := getNextRecord_withMembers id fb fc file.lastEntryOffset file
    rw [show _getNextRecord (withMembers id fb fc file) = _ from h]
    cases _getNextRecord file with
    | fatal => rfl
    | undefined => rfl
    | ok next =>
      show Outcome.bind (indexedFields next.file.fieldsCount next.file.fields next.fields) _
        = Outcome.bind
            (Outcome.bind (indexedFields next.file.fieldsCount next.file.fields next.fields) _) _
      cases indexedFields next.file.fieldsCount next.file.fields next.fields <;> rfl

/-- The function `_parseFieldsType` reads neither `incremental` nor `ready`. -/
theorem parseFieldsType_withMembers (fb fc : Bool → Bool) (file : EPFFile) :
    _parseFieldsType (withMembers id fb fc file)
      = (_parseFieldsType file).bind fun parsed => .ok (withMembers id fb fc parsed) := by
  unfold _parseFieldsType
  by_cases hlines : file.readLines ≠ 2
  · rw [if_pos hlines, if_pos (by exact hlines)]
    rfl
  · rw [if_neg hlines, if_neg (by exact hlines)]
    have h := getNextRecord_withMembers id fb fc file.lastEntryOffset file
    rw [show _getNextRecord (withMembers id fb fc file) = _ from h]
    cases _getNextRecord file with
    | fatal => rfl
    | undefined => rfl
    | ok next =>
      show Outcome.bind (typedFields next.file.fieldsCount next.file.fields next.fields) _
        = Outcome.bind
            (Outcome.bind (typedFields next.file.fieldsCount next.file.fields next.fields) _) _
      cases typedFields next.file.fieldsCount next.file.fields next.fields <;> rfl

/-- The function `_parseExportMode` assigns `incremental`, and does not read `ready`. -/
theorem parseExportMode_withMembers (fb fc : Bool → Bool) (file : EPFFile) :
    _parseExportMode (withMembers id fb fc file)
      = (_parseExportMode file).bind fun parsed => .ok (withMembers id id fc parsed) := by
  unfold _parseExportMode
  by_cases hlines : file.readLines ≠ 3
  · rw [if_pos hlines, if_pos (by exact hlines)]
    rfl
  · rw [if_neg hlines, if_neg (by exact hlines)]
    have h := getNextRecord_withMembers id fb fc file.lastEntryOffset file
    rw [show _getNextRecord (withMembers id fb fc file) = _ from h]
    cases _getNextRecord file with
    | fatal => rfl
    | undefined => rfl
    | ok next =>
      show Outcome.bind (exportMode next.file.fieldsCount next.fields) _
        = Outcome.bind (Outcome.bind (exportMode next.file.fieldsCount next.fields) _) _
      cases exportMode next.file.fieldsCount next.fields <;> rfl

/-- The loop of `_parseSkipComments` does not read `ready`. -/
theorem skipCommentsLoop_withMembers (fc : Bool → Bool) (fuel : Nat) (file : EPFFile) :
    skipCommentsLoop fuel (withMembers id id fc file)
      = (skipCommentsLoop fuel file).map fun outcome =>
          outcome.bind fun skipped => .ok (withMembers id id fc skipped) := by
  induction fuel generalizing file with
  | zero => rfl
  | succ fuel ih =>
    rw [skipCommentsLoop_succ, skipCommentsLoop_succ]
    have h := readRecord_withMembers id id fc file.lastEntryOffset file
    rw [show _readRecord (withMembers id id fc file) = _ from h]
    cases _readRecord file with
    | fatal => rfl
    | undefined => rfl
    | ok read =>
      obtain ⟨line, file'⟩ := read
      cases line with
      | none => rfl
      | some record =>
        show (if (!strncmpEq record.val (ascii "##") 2) = true then _ else _)
          = Option.map _ (if (!strncmpEq record.val (ascii "##") 2) = true then _ else _)
        split
        · rfl
        · exact ih file'

/-- The function `_parseSkipComments` does not read `ready`. -/
theorem parseSkipComments_withMembers (fc : Bool → Bool) (file : EPFFile) :
    _parseSkipComments (withMembers id id fc file)
      = (_parseSkipComments file).bind fun skipped => .ok (withMembers id id fc skipped) := by
  unfold _parseSkipComments
  by_cases hlines : file.readLines ≠ 4
  · rw [if_pos hlines, if_pos (by exact hlines)]
    rfl
  · rw [if_neg hlines, if_neg (by exact hlines)]
    have h := skipCommentsLoop_withMembers fc
      (file.fp.contents.length - file.fp.position + 1) file
    rw [show skipCommentsLoop ((withMembers id id fc file).fp.contents.length
        - (withMembers id id fc file).fp.position + 1) (withMembers id id fc file) = _ from h]
    cases skipCommentsLoop (file.fp.contents.length - file.fp.position + 1) file with
    | none => rfl
    | some outcome => rfl

/-- What `epfInit` returns does not depend on what the block of `malloc` held. -/
theorem epfInitFrom_eq (block : EPFFile) (fp : FILE) : epfInitFrom block fp = epfInit fp := by
  unfold epfInitFrom
  rw [epfInit_eq]
  have h1 := parseFieldNames_withMembers (fun _ => block.fields) (fun _ => block.incremental)
    (fun _ => block.ready) block.lastEntryOffset (newFile fp)
  show Outcome.bind (_parseFieldNames { withMembers (fun _ => block.fields)
    (fun _ => block.incremental) (fun _ => block.ready) (newFile fp) with
      lastEntryOffset := block.lastEntryOffset }) _ = _
  rw [h1]
  cases _parseFieldNames (newFile fp) with
  | fatal => rfl
  | undefined => rfl
  | ok named =>
    show Outcome.bind (_parseIndexedFields (withMembers id _ _ named)) _
      = Outcome.bind (_parseIndexedFields named) _
    rw [parseIndexedFields_withMembers]
    cases _parseIndexedFields named with
    | fatal => rfl
    | undefined => rfl
    | ok keyed =>
      show Outcome.bind (_parseFieldsType (withMembers id _ _ keyed)) _
        = Outcome.bind (_parseFieldsType keyed) _
      rw [parseFieldsType_withMembers]
      cases _parseFieldsType keyed with
      | fatal => rfl
      | undefined => rfl
      | ok typed =>
        show Outcome.bind (_parseExportMode (withMembers id _ _ typed)) _
          = Outcome.bind (_parseExportMode typed) _
        rw [parseExportMode_withMembers]
        cases _parseExportMode typed with
        | fatal => rfl
        | undefined => rfl
        | ok moded =>
          show Outcome.bind (_parseSkipComments (withMembers id id _ moded)) _
            = Outcome.bind (_parseSkipComments moded) _
          rw [parseSkipComments_withMembers]
          cases _parseSkipComments moded with
          | fatal => rfl
          | undefined => rfl
          | ok skipped => rfl

/-- C36.  Two runs of `epfInit` on the same stream, whatever the blocks that `malloc` hands
out for the two files hold, have the same result: where one returns a file the other
returns the same file (the same arity, fields with their names, types, capacities and
indexed flags, export mode, counters and stream position), and this is the result of
`epfInit` as it is modelled.  On the sample header followed by one record it is the file
with the fields `id` and `name`, at the position 75, also from a block that held other
values. -/
theorem C36_epfInit_does_not_depend_on_the_block (block block' : EPFFile) (fp : FILE) :
    epfInitFrom block fp = epfInitFrom block' fp
    ∧ epfInitFrom block fp = epfInit fp
    ∧ epfInitFrom usedBlock ⟨sampleHeader ++ sampleRow, 0⟩
        = .ok ⟨sampleSchema, some 2, false, ⟨sampleHeader ++ sampleRow, 75⟩, 5, 0, 75, true⟩ :=
  ⟨(epfInitFrom_eq block fp).trans (epfInitFrom_eq block' fp).symm, epfInitFrom_eq block fp,
    by decide⟩

/-! ## Streams that end inside the header -/

/-- A record that begins with `##` passes the test of `_parseSkipComments`. -/
theorem strncmpEq_comment (c : List Byte) (h : c.take 2 = ascii "##") :
    strncmpEq (cstrOf (c ++ [2])).val (ascii "##") 2 = true := by
  have hmarks : ascii "##" = [35, 35] := by decide
  rw [hmarks] at h
  match c, h with
  | a :: b :: c, h =>
    simp only [List.take_succ_cons, List.take_zero, List.cons.injEq, and_true] at h
    obtain ⟨ha, hb⟩ := h
    subst ha hb
    unfold strncmpEq cstrOf
    rw [hmarks]
    simp only [List.cons_append]
    rw [decide_eq_true_iff, List.takeWhile_cons_of_pos (by decide),
      List.takeWhile_cons_of_pos (by decide)]
    rfl

/-- A record that begins with `##` does not begin with `0x0A`. -/
theorem comment_head (c : List Byte) (h : c.take 2 = ascii "##") : c.head? ≠ some 10 := by
  have hmarks : ascii "##" = [35, 35] := by decide
  rw [hmarks] at h
  match c, h with
  | a :: b :: c, h =>
    simp only [List.take_succ_cons, List.take_zero, List.cons.injEq, and_true] at h
    rw [List.head?_cons, h.1]
    decide

/-- The bytes left after the bytes `n` further on. -/
theorem drop_add_of_drop {contents l post : List Byte} {position : Nat} (n : Nat)
    (h : contents.drop position = l ++ post) (hn : l.length = n) :
    contents.drop (position + n) = post := by
  rw [← List.drop_drop, h]
  exact List.drop_left' hn

/-- The loop of `_parseSkipComments` over comment records: it passes them and goes on with
the file after them, `lastEntryOffset` apart. -/
theorem skipCommentsLoop_comments (comments : List (List Byte))
    (hcomments : ∀ c ∈ comments, c.take 2 = ascii "##" ∧ hasTerminator c = false
      ∧ (255 : Byte) ∉ c ∧ c.length < 4095)
    (fuel : Nat) (file : EPFFile) (after : List Byte)
    (hdrop : file.fp.contents.drop file.fp.position = joinRecords comments ++ after) :
    ∃ x, skipCommentsLoop (comments.length + fuel) file
      = skipCommentsLoop fuel
          { file with
              lastEntryOffset := x
              fp := { file.fp with
                position := file.fp.position + (joinRecords comments).length }
              readLines := file.readLines + comments.length } := by
  induction comments generalizing file with
  | nil =>
    refine ⟨file.lastEntryOffset, ?_⟩
    rw [List.length_nil, Nat.zero_add]
    rfl
  | cons c rest ih =>
    obtain ⟨hmarks, hpair, h255, hlen⟩ := hcomments c (List.mem_cons_self c rest)
    have hdrop' : file.fp.contents.drop file.fp.position
        = c ++ terminator ++ (joinRecords rest ++ after) := by
      rw [hdrop, joinRecords, List.append_assoc]
    have hread := readRecord_terminated file c (joinRecords rest ++ after) hdrop' hpair h255
      (comment_head c hmarks) hlen
    obtain ⟨x, hx⟩ := ih (fun c' hc' => hcomments c' (List.mem_cons_of_mem c hc'))
      { file with
          lastEntryOffset := file.fp.position
          fp := { file.fp with position := file.fp.position + (c.length + 2) }
          readLines := file.readLines + 1 }
      (drop_add_of_drop (c.length + 2)
        (show file.fp.contents.drop file.fp.position
          = (c ++ terminator) ++ (joinRecords rest ++ after) from hdrop')
        (by rw [List.length_append]; rfl))
    refine ⟨x, ?_⟩
    rw [List.length_cons, show rest.length + 1 + fuel = (rest.length + fuel) + 1 by omega,
      skipCommentsLoop_succ, hread]
    simp only [strncmpEq_comment c hmarks, Bool.not_true, Bool.false_eq_true, if_false]
    rw [hx]
    congr 1
    simp only [joinRecords, List.length_append, EPFFile.mk.injEq, FILE.mk.injEq, true_and,
      and_true]
    refine ⟨?_, ?_⟩
    · have : terminator.length = 2 := rfl
      omega
    · omega

/-- Joined records are at least as many bytes as there are records. -/
theorem joinRecords_length (records : List (List Byte)) :
    records.length ≤ (joinRecords records).length := by
  induction records with
  | nil => exact Nat.le_refl _
  | cons r rest ih =>
    rw [joinRecords, List.length_append, List.length_append, List.length_cons]
    have : terminator.length = 2 := rfl
    omega

/-- The function `_parseSkipComments` over comment records followed by a record that does
not begin with `##`: the stream is set back to the start of that record. -/
theorem parseSkipComments_record (file : EPFFile) (comments : List (List Byte))
    (r rest : List Byte) (hlines : file.readLines = 4)
    (hcomments : ∀ c ∈ comments, c.take 2 = ascii "##" ∧ hasTerminator c = false
      ∧ (255 : Byte) ∉ c ∧ c.length < 4095)
    (hdrop : file.fp.contents.drop file.fp.position
      = joinRecords comments ++ (r ++ terminator ++ rest))
    (hmarks : r.take 2 ≠ ascii "##") (hpair : hasTerminator r = false)
    (h255 : (255 : Byte) ∉ r) (hfirst : r.head? ≠ some 10) (hlen : r.length < 4095) :
    _parseSkipComments file = .ok { file with
      lastEntryOffset := file.fp.position + (joinRecords comments).length
      fp := { file.fp with position := file.fp.position + (joinRecords comments).length }
      readLines := file.readLines + comments.length + 1 } := by
  have hrem : (file.fp.contents.drop file.fp.position).length
      = file.fp.contents.length - file.fp.position := List.length_drop _ _
  have hfuel : comments.length + 1 ≤ file.fp.contents.length - file.fp.position + 1 := by
    rw [← hrem, hdrop, List.length_append]
    have := joinRecords_length comments
    omega
  obtain ⟨k, hk⟩ := Nat.exists_eq_add_of_le hfuel
  obtain ⟨x, hx⟩ := skipCommentsLoop_comments comments hcomments (k + 1) file _ hdrop
  have hread := readRecord_terminated
    { file with
        lastEntryOffset := x
        fp := { file.fp with position := file.fp.position + (joinRecords comments).length }
        readLines := file.readLines + comments.length }
    r rest
    (drop_add_of_drop (joinRecords comments).length hdrop rfl) hpair h255 hfirst hlen
  unfold _parseSkipComments
  rw [if_neg (by rw [hlines]; decide), hk, show comments.length + 1 + k
    = comments.length + (k + 1) by omega, hx, skipCommentsLoop_succ, hread]
  simp only [strncmpEq_marks r hmarks, Bool.not_false, if_true]

/-- The function `_parseSkipComments` over comment records at the end of the stream. -/
theorem parseSkipComments_end (file : EPFFile) (comments : List (List Byte))
    (hlines : file.readLines = 4)
    (hcomments : ∀ c ∈ comments, c.take 2 = ascii "##" ∧ hasTerminator c = false
      ∧ (255 : Byte) ∉ c ∧ c.length < 4095)
    (hdrop : file.fp.contents.drop file.fp.position = joinRecords comments) :
    _parseSkipComments file = .ok { file with
      lastEntryOffset := file.fp.position + (joinRecords comments).length
      fp := { file.fp with
        position := file.fp.position + (joinRecords comments).length + 0 }
      readLines := file.readLines + comments.length } := by
  have hrem : (file.fp.contents.drop file.fp.position).length
      = file.fp.contents.length - file.fp.position := List.length_drop _ _
  have hfuel : comments.length + 1 ≤ file.fp.contents.length - file.fp.position + 1 := by
    rw [← hrem, hdrop]
    have := joinRecords_length comments
    omega
  obtain ⟨k, hk⟩ := Nat.exists_eq_add_of_le hfuel
  obtain ⟨x, hx⟩ := skipCommentsLoop_comments comments hcomments (k + 1) file []
    (by rw [hdrop, List.append_nil])
  have hread := readRecord_end
    { file with
        lastEntryOffset := x
        fp := { file.fp with position := file.fp.position + (joinRecords comments).length }
        readLines := file.readLines + comments.length }
    (drop_add_of_drop (joinRecords comments).length
      (show file.fp.contents.drop file.fp.position = joinRecords comments ++ [] by
        rw [hdrop, List.append_nil]) rfl)
  unfold _parseSkipComments
  rw [if_neg (by rw [hlines]; decide), hk, show comments.length + 1 + k
    = comments.length + (k + 1) by omega, hx, skipCommentsLoop_succ, hread]


/-- At the end of the stream `_getNextRecord` returns `NULL` without the flag of a skip. -/
theorem getNextRecord_end (file : EPFFile)
    (hdrop : file.fp.contents.drop file.fp.position = []) :
    _getNextRecord file = .ok ⟨none, false,
      { file with
          lastEntryOffset := file.fp.position
          fp := { file.fp with position := file.fp.position + 0 } }⟩ := by
  unfold _getNextRecord
  rw [readRecord_end file hdrop]
  rfl

/-- C34.  After the header (line 4), over `m ≥ 0` records that begin with `##` (without
terminator pair and `0xFF` inside, shorter than 4095 bytes) followed by a record `R` that
does not begin with `##`: `_parseSkipComments` returns, the stream position is the start
of `R`, after the comment records, the schema is untouched, and the first `epfNextEntry`
returns the fields of `R` (fields without `0x01`, as many as the arity or behind a `#`).
When the stream ends after the comment records, `_parseSkipComments` returns at the end of
the stream and the first `epfNextEntry` returns `NULL` without the flag of a skip.  On the
sample header followed by two comment records, `epfInit` returns at the position after
them. -/
theorem C34_comment_records_are_passed (file : EPFFile) (comments : List (List Byte))
    (marked : Bool) (tokens : List CStr) (rest : List Byte) (hlines : file.readLines = 4)
    (hcomments : ∀ c ∈ comments, c.take 2 = ascii "##" ∧ hasTerminator c = false
      ∧ (255 : Byte) ∉ c ∧ c.length < 4095)
    (hne : tokens ≠ []) (hsep : ∀ t ∈ tokens, (1 : Byte) ∉ t.val)
    (hmark : marked = false → (joinFields (fieldBytes tokens) ++ [2]).head? ≠ some 0x23)
    (hmarks : ((if marked then [0x23] else []) ++ joinFields (fieldBytes tokens)).take 2
      ≠ ascii "##")
    (hpair : hasTerminator
      ((if marked then [0x23] else []) ++ joinFields (fieldBytes tokens)) = false)
    (h255 : (255 : Byte) ∉ (if marked then [0x23] else []) ++ joinFields (fieldBytes tokens))
    (hfirst : ((if marked then [0x23] else []) ++ joinFields (fieldBytes tokens)).head?
      ≠ some 10)
    (hlen : ((if marked then [0x23] else []) ++ joinFields (fieldBytes tokens)).length < 4095)
    (hslots : tokens.length ≤ (match file.fieldsCount with
      | none => 1024
      | some n => n + 1))
    (harity : marked = false → ∀ n, file.fieldsCount = some n → tokens.length = n) :
    (file.fp.contents.drop file.fp.position
        = joinRecords comments
          ++ ((if marked then [0x23] else []) ++ joinFields (fieldBytes tokens)
            ++ terminator ++ rest) →
      ∃ skipped next, _parseSkipComments file = .ok skipped
        ∧ skipped.fp.contents = file.fp.contents
        ∧ skipped.fp.position = file.fp.position + (joinRecords comments).length
        ∧ skipped.fp.contents.drop skipped.fp.position
            = (if marked then [0x23] else []) ++ joinFields (fieldBytes tokens)
              ++ terminator ++ rest
        ∧ skipped.fields = file.fields ∧ skipped.fieldsCount = file.fieldsCount
        ∧ skipped.incremental = file.incremental
        ∧ epfNextEntry { skipped with ready := true } = .ok next
        ∧ next.fields = some tokens ∧ next.epfRecoverableReadEmpty = false)
    ∧ (file.fp.contents.drop file.fp.position = joinRecords comments →
      ∃ skipped next, _parseSkipComments file = .ok skipped
        ∧ skipped.fp.position = file.fp.position + (joinRecords comments).length
        ∧ skipped.fp.contents.drop skipped.fp.position = []
        ∧ epfNextEntry { skipped with ready := true } = .ok next
        ∧ next.fields = none ∧ next.epfRecoverableReadEmpty = false)
    ∧ epfInit ⟨sampleHeader ++ (joinRecords sampleComments ++ sampleRow), 0⟩
        = .ok ⟨sampleSchema, some 2, false,
            ⟨sampleHeader ++ (joinRecords sampleComments ++ sampleRow), 91⟩, 7, 0, 91, true⟩
    ∧ epfInit ⟨sampleHeader ++ joinRecords sampleComments, 0⟩
        = .ok ⟨sampleSchema, some 2, false,
            ⟨sampleHeader ++ joinRecords sampleComments, 91⟩, 6, 0, 91, true⟩ := by
  refine ⟨?_, ?_, by decide, by decide⟩
  · intro hdrop
    have hskip := parseSkipComments_record file comments _ rest hlines hcomments hdrop hmarks
      hpair h255 hfirst hlen
    have hrest := drop_add_of_drop (joinRecords comments).length hdrop rfl
    have hnext := getNextRecord_fields
      { file with
          lastEntryOffset := file.fp.position + (joinRecords comments).length
          fp := { file.fp with position := file.fp.position + (joinRecords comments).length }
          readLines := file.readLines + comments.length + 1
          ready := true }
      marked tokens rest hne hsep hmark hrest hpair h255 hfirst hlen hslots harity
    exact ⟨_, _, hskip, rfl, rfl, hrest, rfl, rfl, rfl, hnext, rfl, rfl⟩
  · intro hdrop
    have hskip := parseSkipComments_end file comments hlines hcomments hdrop
    have hrest : file.fp.contents.drop
        (file.fp.position + (joinRecords comments).length + 0) = [] :=
      drop_add_of_drop (joinRecords comments).length
        (show file.fp.contents.drop file.fp.position = joinRecords comments ++ [] by
          rw [hdrop, List.append_nil]) rfl
    have hnext := getNextRecord_end
      { file with
          lastEntryOffset := file.fp.position + (joinRecords comments).length
          fp := { file.fp with
            position := file.fp.position + (joinRecords comments).length + 0 }
          readLines := file.readLines + comments.length
          ready := true }
      hrest
    exact ⟨_, _, hskip, rfl, hrest, hnext, rfl, rfl⟩

/-- Witness of C34: the comment records `##legal: x` and `##` before the record
`42\x01Hello`, after the sample header. -/
theorem C34_comment_records_are_passed_witness :
    ∃ skipped next,
      _parseSkipComments ⟨sampleSchema, some 2, false,
          ⟨sampleHeader ++ (joinRecords sampleComments ++ sampleRow), 75⟩, 4, 0, 57, false⟩
        = .ok skipped
      ∧ skipped.fp.position = 75 + (joinRecords sampleComments).length
      ∧ epfNextEntry { skipped with ready := true } = .ok next
      ∧ next.fields = some [cstr "42", cstr "Hello"]
      ∧ next.epfRecoverableReadEmpty = false :=
  ((C34_comment_records_are_passed
    ⟨sampleSchema, some 2, false,
      ⟨sampleHeader ++ (joinRecords sampleComments ++ sampleRow), 75⟩, 4, 0, 57, false⟩
    sampleComments false [cstr "42", cstr "Hello"] [] rfl (by decide) (by decide) (by decide)
    (by decide) (by decide) (by decide) (by decide) (by decide) (by decide) (by decide)
    (by decide)).1 (by decide)).imp
    (fun _ h => h.imp (fun _ h => ⟨h.1, h.2.2.1, h.2.2.2.2.2.2.2.1, h.2.2.2.2.2.2.2.2.1,
      h.2.2.2.2.2.2.2.2.2⟩))

end EPF2Bson
